import Mathlib

set_option maxHeartbeats 1000000

namespace PrecVerify

/-!
Shallow embedding of the precedence engine (`ortools/sat/precedences.cc`) and
of the search strategy composer (`ortools/sat/cp_model_search.cc`).

Conventions used throughout:
* `IVar` is the index of an `IntegerVariable`.  As in ortools, variables come
  in pairs: variable `2k` and its negation `2k+1`, so `NegationOf` flips the
  low bit and `PositiveVariable` clears it.
* Boolean literals are modelled as nonzero integers; the negation of a
  literal is its integer negation.  An assignment maps the positive atom to
  `Option Bool` (`none` = unassigned), which makes the assignment of a
  literal and of its negation consistent by construction.
* `IntegerValue` (an `int64_t` in the source) is modelled as `Int`; none of
  the verified claims is about integer overflow.
-/

/-- IntegerVariable index. As in ortools, `2k` and `2k+1` form a
variable/negation pair. -/
abbrev IVar := Nat

/-- NegationOf flips the low bit of the variable index
(`NegationOf` in `ortools/util/strong_integers.h`). -/
def negationOf (v : IVar) : IVar := v ^^^ 1

/-- PositiveVariable clears the low bit of the variable index. -/
def positiveVariable (v : IVar) : IVar := v - v % 2

/-- Boolean literal: a nonzero integer; negation is integer negation. -/
abbrev BLit := Int

/-- Assignment of the Boolean trail, as a map from positive atoms to
`Option Bool`.  `litValue` derives the value of any literal, so a literal
and its negation are consistent by construction. -/
def litValue (atoms : Nat → Option Bool) (l : BLit) : Option Bool :=
  if 0 ≤ l then atoms l.toNat else (atoms (-l).toNat).map (fun b => !b)

/-- LiteralIsTrue for an atom assignment. -/
def litIsTrue (atoms : Nat → Option Bool) (l : BLit) : Bool :=
  litValue atoms l = some true

/-- LiteralIsFalse for an atom assignment. -/
def litIsFalse (atoms : Nat → Option Bool) (l : BLit) : Bool :=
  litValue atoms l = some false

/-! ### PrecedenceRelations (claims C3, C4)

`PrecedenceRelations` stores unconditional level-zero arcs.  The underlying
`util::StaticGraph` plus the parallel `arc_offset_` vector is modelled as a
single list of arcs with offsets, which is the view all the verified code
paths use (`graph_.AddArc` + `arc_offset_.push_back` always travel in
lockstep, and `Build` permutes `arc_offset_` with the same permutation that
`graph_.Build` applies to the arcs). -/

/-- One arc of the `PrecedenceRelations` graph, pairing a `graph_` arc with
its `arc_offset_` entry. -/
structure RelArc where
  tail : IVar
  head : IVar
  offset : Int
deriving DecidableEq, Repr

/-- State of `PrecedenceRelations` relevant to `Add`: the accumulated arcs
and the `is_built_` flag. -/
structure PrecRelState where
  isBuilt : Bool
  arcs : List RelArc
deriving DecidableEq, Repr

/-- PrecedenceRelations::Add (precedences.cc:50-71).  `ub`/`lb` are
`integer_trail_->UpperBound` / `LowerBound`. -/
def precRelAdd (ub lb : IVar → Int) (st : PrecRelState) (tail head : IVar)
    (offset : Int) : PrecRelState :=
  if st.isBuilt then st
  else if ub tail + offset ≤ lb head then st
  else if positiveVariable tail = positiveVariable head then st
  else if offset < 0 then st
  else
    { st with
      arcs := st.arcs ++
        [⟨tail, head, offset⟩, ⟨negationOf head, negationOf tail, offset⟩] }

/-! ### CpModelView::MedianValue (claims C8, C10)

`MedianValue` (cp_model_search.cc:124-150) is a pure function of the
encoding of the variable (`IntegerEncoder::RawDomainEncoding`, an external
collaborator, passed here as an input list) and of the Boolean assignment.
-/

/-- ValueLiteralPair of the integer encoder: a domain value and the literal
standing for `var = value`. -/
structure ValueLiteralPair where
  value : Int
  literal : BLit
deriving DecidableEq, Repr

/-- Ordering used by `std::sort` with `ValueLiteralPair::CompareByValue`. -/
def pairLeByValue (a b : ValueLiteralPair) : Prop := a.value ≤ b.value

instance : DecidableRel pairLeByValue := fun a b => by
  unfold pairLeByValue; infer_instance

/-- Unassigned encoding literals in value order: the encoding sorted by
value, keeping the literals not assigned in the Boolean trail
(cp_model_search.cc:133-142). -/
def unassignedSortedLiterals (atoms : Nat → Option Bool)
    (encoding : List ValueLiteralPair) : List BLit :=
  ((List.insertionSort pairLeByValue encoding).filter
    (fun p => !(litValue atoms p.literal).isSome)).map (fun p => p.literal)

/-- CpModelView::MedianValue (cp_model_search.cc:124-150).  For a Boolean
variable it returns the negated literal of the variable; for a fully
encoded integer variable it indexes the value-sorted unassigned encoding
literals at `(n + 1) / 2 - 1`.  The source indexes the vector directly;
the access is modelled with `List.get?` so that the out-of-range case is
observable (`none`). -/
def medianValue (atoms : Nat → Option Bool) (isBool : Bool) (boolLit : BLit)
    (encoding : List ValueLiteralPair) : Option BLit :=
  if isBool then some (-boolLit)
  else
    let unassigned := unassignedSortedLiterals atoms encoding
    let target := (unassigned.length + 1) / 2 - 1
    unassigned.get? target

/-- Number of values of a fully encoded variable that are still possible:
the pairs whose literal is not assigned false.

Modelled from the spec: `IntegerTrail::IsFixed` is an external collaborator
(`lb == ub`); for a fully encoded variable, "fixed" means a single possible
value remains, so "not fixed" means at least two pairs have a literal not
assigned false. -/
def numPossibleValues (atoms : Nat → Option Bool)
    (encoding : List ValueLiteralPair) : Nat :=
  encoding.countP (fun p => !litIsFalse atoms p.literal)

/-- Number of encoding literals currently assigned true.  Consistency of a
full integer encoding means at most one of them is true. -/
def numTrueValues (atoms : Nat → Option Bool)
    (encoding : List ValueLiteralPair) : Nat :=
  encoding.countP (fun p => litIsTrue atoms p.literal)

/-! ### PrecedencesPropagator state and AddArc (claims C5, C6, C7) -/

/-- ArcInfo of the precedences propagator (precedences.h): a conditional
precedence `tail + offset + offset_var ≤ head` guarded by presence
literals.  The mutable `is_marked` bit lives outside this structure, in the
Bellman-Ford state. -/
structure ArcInfo where
  tailVar : IVar
  headVar : IVar
  offset : Int
  offsetVar : Option IVar
  presenceLiterals : List BLit
deriving DecidableEq, Repr

/-- Default ArcInfo used to model out-of-bounds vector reads (the source
always indexes in bounds). -/
def arcDefault : ArcInfo := ⟨0, 0, 0, none, []⟩

/-- Lookup of `arcs_[index]`. -/
def arcAtL (arcs : List ArcInfo) (i : Nat) : ArcInfo :=
  (arcs.get? i).getD arcDefault

/-- PrecedencesPropagator::ArcOffset (precedences.cc:752-756): the offset
plus the lower bound of the offset variable when present. -/
def arcOffset (lb : IVar → Int) (a : ArcInfo) : Int :=
  a.offset + (match a.offsetVar with
              | none => 0
              | some w => lb w)

/-- External trail facts consumed by AddArc: the Boolean assignment, the
current decision level, optionality data and the level-zero bounds. -/
structure TrailEnv where
  atoms : Nat → Option Bool
  level : Nat
  isOptionalVar : IVar → Bool
  ignoredLit : IVar → BLit
  levelZeroLb : IVar → Int
  levelZeroUb : IVar → Int

/-- State of the PrecedencesPropagator members touched by AddArc and
AddPrecedenceWithOffsetIfNew.  Vectors indexed by variable or literal are
modelled as total functions; their resizing in the source only extends
them with empty entries. -/
structure PropState where
  numNodes : Nat
  arcs : List ArcInfo
  arcCounts : List Int
  impactedArcs : IVar → List Nat
  litToNewImpactedArcs : BLit → List Nat
  potentialArcs : List ArcInfo
  impactedPotentialArcs : IVar → List Nat
  modifiedVars : IVar → Bool

/-- Append `x` to the list stored at key `v`. -/
def pushAt (f : IVar → List Nat) (v : IVar) (x : Nat) : IVar → List Nat :=
  fun u => if u = v then f v ++ [x] else f u

/-- Append `x` to the list stored at literal `l`. -/
def pushLitAt (f : BLit → List Nat) (l : BLit) (x : Nat) : BLit → List Nat :=
  fun m => if m = l then f l ++ [x] else f m

/-- PrecedencesPropagator::AdjustSizeFor (precedences.cc:510-523): grows
`impacted_arcs_` and friends to cover a variable and its negation.  The
watcher registration is external. -/
def adjustSizeFor (st : PropState) (i : IVar) : PropState :=
  let index := max i (negationOf i)
  if st.numNodes ≤ index then { st with numNodes := index + 1 } else st

/-- Insertion of a literal into a sorted literal list. -/
def insertSortedLit (l : BLit) : List BLit → List BLit
  | [] => [l]
  | x :: xs => if l ≤ x then l :: x :: xs else x :: insertSortedLit l xs

/-- Sort a literal list (`std::sort` inside STLSortAndRemoveDuplicates;
the source orders by Literal index, the model by the integer encoding,
which only affects the relative order, not the resulting set). -/
def sortLits : List BLit → List BLit
  | [] => []
  | x :: xs => insertSortedLit x (sortLits xs)

/-- Removal of consecutive duplicates (`std::unique` inside
gtl::STLSortAndRemoveDuplicates). -/
def dedupSorted : List BLit → List BLit
  | [] => []
  | [x] => [x]
  | x :: y :: xs =>
    if x = y then dedupSorted (y :: xs) else x :: dedupSorted (y :: xs)

/-- Enforcement literals collected by AddArc (precedences.cc:533-551):
the presence literals plus the negated ignore literals of the optional
variables among tail, head and offset var, sorted and deduplicated. -/
def enforcementLiterals (env : TrailEnv) (tail head : IVar)
    (offsetVar0 : Option IVar) (presenceLiterals : List BLit) : List BLit :=
  dedupSorted (sortLits
    (presenceLiterals
      ++ (if env.isOptionalVar tail then [-(env.ignoredLit tail)] else [])
      ++ (if env.isOptionalVar head then [-(env.ignoredLit head)] else [])
      ++ (match offsetVar0 with
          | some w => if env.isOptionalVar w then [-(env.ignoredLit w)] else []
          | none => [])))

/-- One iteration of the `to_add` loop of AddArc (precedences.cc:622-677):
appends one internal arc, registers it with `impacted_arcs_` or the
literal watch lists, and pushes its count.  Returns `none` when the CHECK
at line 675 would fire. -/
def addInternalArc (env : TrailEnv) (offset : Int) (enf : List BLit)
    (st : PropState) (a : IVar × IVar × Option IVar) : Option PropState :=
  let tailV := a.1
  let headV := a.2.1
  let ov := a.2.2
  let st1 := { st with
      modifiedVars := fun v => if v = tailV then true else st.modifiedVars v }
  let arcIndex := st1.arcs.length
  let presence :=
    if env.isOptionalVar headV then enf.erase (-(env.ignoredLit headV)) else enf
  let st2 := { st1 with
      arcs := st1.arcs ++ [ArcInfo.mk tailV headV offset ov presence] }
  let st3 :=
    if presence = [] then
      { st2 with impactedArcs := pushAt st2.impactedArcs tailV arcIndex }
    else
      let g := presence.foldl (fun f l => pushLitAt f l arcIndex)
        st2.litToNewImpactedArcs
      { st2 with litToNewImpactedArcs := g }
  if env.level = 0 then
    some { st3 with arcCounts := st3.arcCounts ++ [(presence.length : Int)] }
  else
    let cnt : Int := ((presence.filter
      (fun l => !litIsTrue env.atoms l)).length : Int)
    if presence = [] ∨ 0 < cnt then
      some { st3 with arcCounts := st3.arcCounts ++ [cnt] }
    else none

/-- Registration of a potential arc (precedences.cc:587-597): when the
enforcement literal list is nonempty, the arc is appended to
`potential_arcs_` and indexed under its tail, its negated head and its
offset variable. -/
def addArcPotential (st : PropState) (tail head : IVar) (offset : Int)
    (offsetVar : Option IVar) (enf : List BLit) : PropState :=
  if enf = [] then st
  else
    let idx := st.potentialArcs.length
    let f0 := pushAt st.impactedPotentialArcs tail idx
    let f1 := pushAt f0 (negationOf head) idx
    let f2 := match offsetVar with
              | some w => pushAt f1 w idx
              | none => f1
    { st with
        potentialArcs :=
        st.potentialArcs ++ [ArcInfo.mk tail head offset offsetVar enf]
        impactedPotentialArcs := f2 }

/-- The `to_add` list of AddArc (precedences.cc:600-621): two internal
arcs without an offset variable, six with one, covering the three
rotations of `a + b + offset ≤ c` and their negations. -/
def internalArcList (tail head : IVar) (offsetVar : Option IVar) :
    List (IVar × IVar × Option IVar) :=
  match offsetVar with
  | none => [(tail, head, none), (negationOf head, negationOf tail, none)]
  | some w =>
    [(tail, head, some w),
     (w, head, some tail),
     (tail, negationOf w, some (negationOf head)),
     (negationOf head, negationOf w, some tail),
     (w, negationOf tail, some (negationOf head)),
     (negationOf head, negationOf tail, some w)]

/-- PrecedencesPropagator::AddArc (precedences.cc:525-677).  Returns the
updated state, or `none` when the defensive CHECK at line 675 would abort.
The early return that drops the arc at level zero because of a false
enforcement literal yields the state after AdjustSizeFor, as in the
source. -/
def addArc (env : TrailEnv) (st0 : PropState) (tail head : IVar)
    (offset0 : Int) (offsetVar0 : Option IVar)
    (presenceLiterals : List BLit) : Option PropState :=
  let stA := adjustSizeFor (adjustSizeFor st0 tail) head
  let stB := match offsetVar0 with
             | some w => adjustSizeFor stA w
             | none => stA
  let enf1 := enforcementLiterals env tail head offsetVar0 presenceLiterals
  if env.level = 0 ∧ enf1.any (fun l => litIsFalse env.atoms l) then some stB
  else
    let enf := if env.level = 0
               then enf1.filter (fun l => !litIsTrue env.atoms l)
               else enf1
    let offset := match offsetVar0 with
                  | some w =>
                    if env.levelZeroLb w = env.levelZeroUb w
                    then offset0 + env.levelZeroLb w else offset0
                  | none => offset0
    let offsetVar : Option IVar :=
      match offsetVar0 with
      | some w => if env.levelZeroLb w = env.levelZeroUb w then none else some w
      | none => none
    (internalArcList tail head offsetVar).foldlM (addInternalArc env offset enf)
      (addArcPotential stB tail head offset offsetVar enf)

/-- AddPrecedenceWithOffset, declared in precedences.h which is not part of
the sources.  Modelled from the spec: it appends the unconditional
precedence `i1 + offset ≤ i2`, which AddArc materializes with no offset
variable and no presence literals. -/
def addPrecedenceWithOffset (env : TrailEnv) (st : PropState)
    (i1 i2 : IVar) (offset : Int) : Option PropState :=
  addArc env st i1 i2 offset none []

/-- Scan of AddPrecedenceWithOffsetIfNew (precedences.cc:684-696): the
first arc of `impacted_arcs_[i1]` whose head is `i2`; the loop breaks at
the first match, so arcs after it are never examined. -/
def firstArcMatch (st : PropState) (i1 i2 : IVar) : Option Nat :=
  if i1 < st.numNodes ∧ i2 < st.numNodes then
    (st.impactedArcs i1).find? (fun idx => (arcAtL st.arcs idx).headVar == i2)
  else none

/-- PrecedencesPropagator::AddPrecedenceWithOffsetIfNew
(precedences.cc:680-701): scans `impacted_arcs_[i1]` for the first arc with
head `i2`; if its current offset dominates, returns false without change,
otherwise appends the precedence and returns true. -/
def addPrecedenceWithOffsetIfNew (env : TrailEnv) (lb : IVar → Int)
    (st : PropState) (i1 i2 : IVar) (offset : Int) :
    Option (Bool × PropState) :=
  match firstArcMatch st i1 i2 with
  | some idx =>
    if offset ≤ arcOffset lb (arcAtL st.arcs idx) then some (false, st)
    else (addPrecedenceWithOffset env st i1 i2 offset).map (fun s => (true, s))
  | none => (addPrecedenceWithOffset env st i1 i2 offset).map (fun s => (true, s))

/-! ### AnalyzePositiveCycle and the positive-cycle branch of
BellmanFordTarjan (claim C6) -/

/-- Cycle collection loop of AnalyzePositiveCycle (precedences.cc:898-913):
follow `bf_parent_arc_of_` from `first_arc` until the head of the first arc
is reached again.  `none` models the CHECK failures (missing parent, or
more than `num_nodes` arcs on the supposed cycle). -/
def collectCycleAux (arcs : List ArcInfo) (parent : IVar → Option Nat)
    (firstArcHead : IVar) :
    Nat → Nat → List Nat → Option (List Nat)
  | 0, _, _ => none
  | fuel + 1, arcIndex, acc =>
    let acc2 := acc ++ [arcIndex]
    let arc := arcAtL arcs arcIndex
    if arc.tailVar = firstArcHead then some acc2
    else
      match parent arc.tailVar with
      | none => none
      | some nxt => collectCycleAux arcs parent firstArcHead fuel nxt acc2

/-- Sum of the arc offsets along the cycle (precedences.cc:916-919). -/
def cycleSum (arcs : List ArcInfo) (lb : IVar → Int) (cyc : List Nat) : Int :=
  (cyc.map (fun i => arcOffset lb (arcAtL arcs i))).sum

/-- The `must_be_all_true` literals: ignore literals of the optional heads
on the cycle (precedences.cc:926-935). -/
def cycleMust (arcs : List ArcInfo) (isOpt : IVar → Bool)
    (ignLit : IVar → BLit) (cyc : List Nat) : List BLit :=
  (cyc.filter (fun i => isOpt (arcAtL arcs i).headVar)).map
    (fun i => ignLit (arcAtL arcs i).headVar)

/-- Literal reason of the cycle: negated presence literals in cycle order
(precedences.cc:922-924). -/
def cycleLitReason (arcs : List ArcInfo) (cyc : List Nat) : List BLit :=
  cyc.foldl
    (fun acc i => acc ++ (arcAtL arcs i).presenceLiterals.map (fun l => -l)) []

/-- Integer reason of the cycle: lower bounds of the offset variables in
cycle order (precedences.cc:920-921). -/
def cycleIntReason (arcs : List ArcInfo) (lb : IVar → Int)
    (cyc : List Nat) : List (IVar × Int) :=
  cyc.foldl
    (fun acc i =>
      acc ++ (match (arcAtL arcs i).offsetVar with
              | some w => [(w, lb w)]
              | none => [])) []

/-- PrecedencesPropagator::AnalyzePositiveCycle (precedences.cc:888-940).
Returns the arcs on the cycle, `must_be_all_true` (the ignore literals of
the optional heads on the cycle), the literal reason (negated presence
literals) and the integer reason (lower bounds of the offset variables);
`none` models the CHECK aborts, including `CHECK_GT(sum, 0)`. -/
def analyzePositiveCycle (arcs : List ArcInfo) (parent : IVar → Option Nat)
    (numNodes : Nat) (lb : IVar → Int) (isOpt : IVar → Bool)
    (ignLit : IVar → BLit) (firstArc : Nat) :
    Option (List Nat × List BLit × List BLit × List (IVar × Int)) :=
  match collectCycleAux arcs parent (arcAtL arcs firstArc).headVar
      (numNodes + 1) firstArc [] with
  | none => none
  | some cyc =>
    if 0 < cycleSum arcs lb cyc then
      some (cyc, cycleMust arcs isOpt ignLit cyc, cycleLitReason arcs cyc,
        cycleIntReason arcs lb cyc)
    else none

/-- Outcome of the positive-cycle branch: either a reported conflict with
its reasons, or a list of ignore literals enqueued as true. -/
inductive CycleOutcome where
  | conflict (literalReason : List BLit) (integerReason : List (IVar × Int))
  | enqueued (literals : List BLit)
deriving DecidableEq, Repr

/-- Positive-cycle branch of BellmanFordTarjan (precedences.cc:994-1019):
with no optional variable on the cycle, report the conflict; otherwise sort
and deduplicate `must_be_all_true`, report a conflict augmented with the
first such literal that is already false, and if none is false enqueue the
not-yet-true ones as true. -/
def handlePositiveCycle (atoms : Nat → Option Bool) (must : List BLit)
    (litReason : List BLit) (intReason : List (IVar × Int)) : CycleOutcome :=
  if must = [] then .conflict litReason intReason
  else
    let m := dedupSorted (sortLits must)
    match m.find? (fun l => litIsFalse atoms l) with
    | some l => .conflict (litReason ++ [l]) intReason
    | none => .enqueued (m.filter (fun l => !litIsTrue atoms l))

/-! ### Concrete instances used by counterexamples and witnesses -/

/-- Trail environment at level zero with nothing assigned, no optional
variable, and all level-zero bounds zero except that variable 4 is fixed
(`LevelZeroLowerBound = LevelZeroUpperBound = 3`). -/
def envC5 : TrailEnv :=
  ⟨fun _ => none, 0, fun _ => false, fun _ => 1,
   fun v => if v = 4 then 3 else 0, fun v => if v = 4 then 3 else 1⟩

/-- Empty propagator state. -/
def stEmptyProp : PropState :=
  ⟨0, [], [], fun _ => [], fun _ => [], [], fun _ => [], fun _ => false⟩

/-- Trail environment at level zero with nothing assigned and no optional
variable. -/
def envC7 : TrailEnv :=
  ⟨fun _ => none, 0, fun _ => false, fun _ => 1, fun _ => 0, fun _ => 1⟩

/-- Propagator state with two active arcs from variable 0 to variable 2,
of offsets 1 and 5, both in `impacted_arcs_[0]`. -/
def stC7 : PropState :=
  ⟨4,
   [ArcInfo.mk 0 2 1 none [], ArcInfo.mk 0 2 5 none []],
   [0, 0],
   fun v => if v = 0 then [0, 1] else [],
   fun _ => [], [], fun _ => [], fun _ => false⟩

/-- Arcs forming a positive two-arc cycle between variables 0 and 1; the
first arc is guarded by presence literal 5. -/
def arcsC6 : List ArcInfo :=
  [ArcInfo.mk 0 1 1 none [5], ArcInfo.mk 1 0 1 none []]

/-- Parent map putting both arcs of `arcsC6` on the detected cycle. -/
def parentC6 : IVar → Option Nat := fun v => if v = 0 then some 1 else none

/-- Optionality for the C6 witness: variable 0 is optional with ignore
literal 9. -/
def isOptC6 : IVar → Bool := fun v => v = 0

/-- Ignore literals for the C6 witness. -/
def ignLitC6 : IVar → BLit := fun _ => 9

/-- Lower bounds for the C6 witness. -/
def lbC6 : IVar → Int := fun _ => 0

/-- Empty Boolean assignment. -/
def atomsNone : Nat → Option Bool := fun _ => none

/-! ### GetDiverseSetOfParameters (claim C9)

`SatParameters` and `CpModelProto` are protobuf messages defined outside
the sources.  `SatParameters` is modelled as a record holding exactly the
fields that cp_model_search.cc reads or writes; `subsolver_params` (a
repeated `SatParameters`, which a Lean structure cannot nest recursively)
is passed beside the record as an association list of named parameter
overrides.  `CpModelProto` is modelled by the three observations the
function makes: the constraint kinds, the size of the search strategy, and
the objective with its number of terms. -/

/-- SatParameters::SearchBranching values used by cp_model_search.cc. -/
inductive SearchBranching where
  | automatic
  | fixed
  | portfolioWithQuickRestart
  | lp
  | pseudoCost
  | partialFixed
deriving DecidableEq, BEq, Repr

/-- The fields of SatParameters read or written by
GetDiverseSetOfParameters. -/
structure SatParameters where
  name : String
  linearizationLevel : Nat
  addLpConstraintsLazily : Bool
  searchBranching : SearchBranching
  optimizeWithCore : Bool
  optimizeWithMaxHs : Bool
  optimizeWithLbTreeSearch : Bool
  useProbingSearch : Bool
  useOverloadCheckerInCumulative : Bool
  useTimetableEdgeFindingInCumulative : Bool
  useHardPrecedencesInCumulative : Bool
  useDualSchedulingHeuristics : Bool
  shareObjectiveBounds : Bool
  exploitBestSolution : Bool
  exploitAllPrecedences : Bool
  booleanEncodingLevel : Nat
  randomSeed : Int
  numWorkers : Nat
  minNumLnsWorkers : Nat
  interleaveSearch : Bool
  useRinsLns : Bool
  useFeasibilityPump : Bool
  randomizeSearch : Bool
  searchRandomizationTolerance : Int
  subsolvers : List String
  extraSubsolvers : List String
  ignoreSubsolvers : List String

/-- Constraint kinds distinguished by ModelHasSchedulingConstraints. -/
inductive ConstraintKind where
  | noOverlap
  | cumulative
  | other
deriving DecidableEq, BEq, Repr

/-- The observations of CpModelProto made by GetDiverseSetOfParameters:
constraints, search strategy size, and the objective (with its number of
variables) when present. -/
structure CpModel where
  constraints : List ConstraintKind
  searchStrategySize : Nat
  objective : Option Nat

/-- ModelHasSchedulingConstraints (cp_model_search.cc:161-167). -/
def modelHasSchedulingConstraints (m : CpModel) : Bool :=
  m.constraints.any (fun c =>
    match c with
    | ConstraintKind.noOverlap => true
    | ConstraintKind.cumulative => true
    | ConstraintKind.other => false)

/-- Insertion into the `absl::flat_hash_map` of named strategies, as an
association list: overwrite the entry when the key exists, append
otherwise. -/
def mapSet (m : List (String × SatParameters)) (k : String)
    (v : SatParameters) : List (String × SatParameters) :=
  if m.any (fun p => p.1 == k) then
    m.map (fun p => if p.1 == k then (k, v) else p)
  else m ++ [(k, v)]

/-- Lookup in the named-strategy map. -/
def mapGet (m : List (String × SatParameters)) (k : String) :
    Option SatParameters :=
  (m.find? (fun p => p.1 == k)).map (fun p => p.2)

/-- The named strategy table of GetDiverseSetOfParameters
(cp_model_search.cc:425-570), built from the base parameters, with the
user-provided `subsolver_params` overrides applied last. -/
def buildStrategies (base : SatParameters)
    (userParams : List (String × SatParameters)) :
    List (String × SatParameters) :=
  let m := mapSet [] "default" base
  let m := mapSet m "no_lp" { base with linearizationLevel := 0 }
  let m := mapSet m "default_lp" { base with linearizationLevel := 1 }
  let m := mapSet m "max_lp"
    { base with linearizationLevel := 2, addLpConstraintsLazily := false }
  let m := mapSet m "core"
    { base with
        searchBranching := SearchBranching.automatic
        optimizeWithCore := true
        linearizationLevel := 0 }
  let m := mapSet m "core_default_lp"
    { base with
        searchBranching := SearchBranching.automatic
        optimizeWithCore := true
        linearizationLevel := 1 }
  let m := mapSet m "core_max_lp"
    { base with
        searchBranching := SearchBranching.automatic
        optimizeWithCore := true
        linearizationLevel := 2 }
  let m := mapSet m "max_hs"
    { base with
        searchBranching := SearchBranching.automatic
        optimizeWithCore := true
        optimizeWithMaxHs := true }
  let lbt0 := { base with
      optimizeWithLbTreeSearch := true
      linearizationLevel := 2
      shareObjectiveBounds := false }
  let lbt := if base.useDualSchedulingHeuristics then
      { lbt0 with
          useOverloadCheckerInCumulative := true
          useTimetableEdgeFindingInCumulative := true
          useHardPrecedencesInCumulative := true }
    else lbt0
  let m := mapSet m "lb_tree_search" lbt
  let pr0 := { base with
      searchBranching := SearchBranching.automatic
      useProbingSearch := true }
  let pr := if base.useDualSchedulingHeuristics then
      { pr0 with
          useOverloadCheckerInCumulative := true
          useTimetableEdgeFindingInCumulative := true
          useHardPrecedencesInCumulative := true }
    else pr0
  let m := mapSet m "probing" pr
  let m := mapSet m "probing_no_lp" { pr with linearizationLevel := 0 }
  let m := mapSet m "probing_max_lp" { pr with linearizationLevel := 2 }
  let m := mapSet m "auto"
    { base with searchBranching := SearchBranching.automatic }
  let m := mapSet m "fixed"
    { base with searchBranching := SearchBranching.fixed }
  let m := mapSet m "quick_restart"
    { base with searchBranching := SearchBranching.portfolioWithQuickRestart }
  let m := mapSet m "quick_restart_no_lp"
    { base with
        searchBranching := SearchBranching.portfolioWithQuickRestart
        linearizationLevel := 0 }
  let m := mapSet m "quick_restart_max_lp"
    { base with
        searchBranching := SearchBranching.portfolioWithQuickRestart
        linearizationLevel := 2 }
  let rc0 := { base with
      linearizationLevel := 2
      searchBranching := SearchBranching.lp }
  let rc := if base.useDualSchedulingHeuristics then
      { rc0 with
          useOverloadCheckerInCumulative := true
          useTimetableEdgeFindingInCumulative := true
          useHardPrecedencesInCumulative := true
          exploitAllPrecedences := true }
    else rc0
  let m := mapSet m "reduced_costs" rc
  let m := mapSet m "pseudo_costs"
    { base with
        linearizationLevel := 2
        searchBranching := SearchBranching.pseudoCost
        exploitBestSolution := true }
  let m := mapSet m "less_encoding" { base with booleanEncodingLevel := 0 }
  userParams.foldl (fun acc p => mapSet acc p.1 p.2) m

/-- The default subsolver name list (cp_model_search.cc:588-606); the
`max_hs` entry is guarded by a flag whose default is false, so it is
absent. -/
def defaultSubsolverNames : List String :=
  ["default_lp", "fixed", "less_encoding", "no_lp", "max_lp", "core",
   "reduced_costs", "pseudo_costs", "quick_restart", "quick_restart_no_lp",
   "lb_tree_search", "probing"]

/-- The emission order derived from the subsolver parameters
(cp_model_search.cc:585-639): the user list with `core_or_no_lp` resolved
(or the default list when empty), followed by `extra_subsolvers`, filtered
by `ignore_subsolvers`. -/
def subsolverNameList (base : SatParameters) (m : CpModel) : List String :=
  let names :=
    if base.subsolvers.isEmpty then defaultSubsolverNames
    else base.subsolvers.map (fun nm =>
      if nm == "core_or_no_lp" then
        match m.objective with
        | none => "no_lp"
        | some n => if n ≤ 1 then "no_lp" else "core"
      else nm)
  let names := names ++ base.extraSubsolvers
  names.filter (fun nm => !(base.ignoreSubsolvers.contains nm))

/-- The per-strategy filtering of GetDiverseSetOfParameters
(cp_model_search.cc:652-674): `fixed` needs a user strategy or scheduling
constraints; with an objective, core-based strategies need at least two
objective terms, `less_encoding` is dropped, and lb-tree search is dropped
when interleaved; without an objective, lb-tree search, core, LP search
and pseudo-cost search are dropped. -/
def keepStrategy (m : CpModel) (useFixed : Bool) (nm : String)
    (p : SatParameters) : Bool :=
  if !useFixed && (p.searchBranching == SearchBranching.fixed) then false
  else
    match m.objective with
    | some n =>
      if (decide (n ≤ 1)) && p.optimizeWithCore then false
      else if nm == "less_encoding" then false
      else if p.optimizeWithLbTreeSearch && p.interleaveSearch then false
      else true
    | none =>
      if p.optimizeWithLbTreeSearch then false
      else if p.optimizeWithCore then false
      else if p.searchBranching == SearchBranching.lp then false
      else if p.searchBranching == SearchBranching.pseudoCost then false
      else true

/-- The emission loop of GetDiverseSetOfParameters
(cp_model_search.cc:642-683): look each name up (unknown names are logged
and skipped), filter, then tag with the name and the deterministic seed
`base_seed + result.size() + 1`. -/
def emitLoop (strategies : List (String × SatParameters)) (m : CpModel)
    (useFixed : Bool) (base : SatParameters) :
    List String → List SatParameters → List SatParameters
  | [], acc => acc
  | nm :: rest, acc =>
    match mapGet strategies nm with
    | none => emitLoop strategies m useFixed base rest acc
    | some p =>
      if keepStrategy m useFixed nm p then
        emitLoop strategies m useFixed base rest
          (acc ++ [{ p with
              name := nm
              randomSeed := base.randomSeed + acc.length + 1 }
])
      else emitLoop strategies m useFixed base rest acc

/-- The padding loop of the no-objective case
(cp_model_search.cc:707-734): while the result is smaller than the target,
append alternating randomized quick-restart and automatic (or fixed, when
a search strategy exists) variants of increasing tolerance.  The fuel is
the number of missing entries. -/
def padLoop (base : SatParameters) (m : CpModel) (target : Nat) :
    Nat → Nat → List SatParameters → List SatParameters
  | 0, _, acc => acc
  | fuel + 1, index, acc =>
    if acc.length < target then
      let p :=
        if index % 2 = 0 then
          { base with
              searchBranching := SearchBranching.portfolioWithQuickRestart
              randomizeSearch := true
              searchRandomizationTolerance := (index : Int)
              randomSeed := base.randomSeed + acc.length + 1
              name := "random_quick_restart_" ++ toString index }
        else
          { base with
              searchBranching :=
              (if m.searchStrategySize = 0 then SearchBranching.automatic
              else SearchBranching.fixed)
              randomizeSearch := true
              searchRandomizationTolerance := (index : Int)
              randomSeed := base.randomSeed + acc.length + 1
              name := "random_" ++ toString index }
      padLoop base m target fuel (index + 1) (acc ++ [p])
    else acc

/-- GetDiverseSetOfParameters (cp_model_search.cc:421-738). -/
def getDiverseSetOfParameters (base : SatParameters)
    (userParams : List (String × SatParameters)) (m : CpModel) :
    List SatParameters :=
  let strategies := buildStrategies base userParams
  let useFixed := (m.searchStrategySize != 0) || modelHasSchedulingConstraints m
  let names := subsolverNameList base m
  let result := emitLoop strategies m useFixed base names []
  match m.objective with
  | some _ =>
    let target := max 1 (base.numWorkers - base.minNumLnsWorkers)
    if !base.interleaveSearch && (decide (target < result.length)) then
      result.take target
    else result
  | none =>
    let target :=
      if !base.interleaveSearch &&
          (base.useRinsLns || base.useFeasibilityPump) then
        max 1 (base.numWorkers - 1)
      else base.numWorkers
    let result2 :=
      if !base.interleaveSearch && (decide (target < result.length)) then
        result.take target
      else result
    padLoop base m target (target - result2.length) 1 result2

/-! ### Arc counts and impacted lists under the trail (claim C2)

The transition system below embeds the parts of the propagator that touch
`arc_counts_` and `impacted_arcs_`:
* `processLiteral` is the first loop of Propagate (precedences.cc:277-284)
  for one newly assigned literal;
* `unprocessLiteral` is the Untrail loop body (precedences.cc:377-386);
* arcs are added through `addArc` above;
* the trail itself (external `Trail`) is a list of assigned literals, with
  `zb` the number of level-zero literals (always a prefix, never
  untrailed) and `pti` the propagator member `propagation_trail_index_`.
The conditional-relations bookkeeping of these loops updates a map the
claim does not mention and that never feeds back into the counts or the
lists, so it is not part of this state. -/

/-- Read `arc_counts_[i]`. -/
def getCount (st : PropState) (i : Nat) : Int :=
  (st.arcCounts.get? i).getD 0

/-- Write `arc_counts_[i]`. -/
def setCount (st : PropState) (i : Nat) (c : Int) : PropState :=
  { st with arcCounts := st.arcCounts.set i c }

/-- Drop the last entry of the list stored at key `v` (pop_back). -/
def popAt (f : IVar → List Nat) (v : IVar) : IVar → List Nat :=
  fun u => if u = v then (f v).dropLast else f u

/-- Body of the first loop of Propagate (precedences.cc:279-283) for one
watched arc: decrement its count and install it when the count reaches
zero. -/
def procStep (s : PropState) (idx : Nat) : PropState :=
  let c := getCount s idx - 1
  let s2 := setCount s idx c
  if c = 0 then
    let f := pushAt s2.impactedArcs (arcAtL s2.arcs idx).tailVar idx
    { s2 with impactedArcs := f }
  else s2

/-- First loop of Propagate for one literal (precedences.cc:277-284):
decrement the count of each arc watching the literal, and install the arc
in `impacted_arcs_` of its tail when the count reaches zero. -/
def processLiteral (st : PropState) (l : BLit) : PropState :=
  (st.litToNewImpactedArcs l).foldl procStep st

/-- Body of the Untrail loop (precedences.cc:381-385) for one watched
arc: increment its count back and pop the back of the impacted list of its
tail when the count leaves zero. -/
def unprocStep (s : PropState) (idx : Nat) : PropState :=
  let c := getCount s idx
  let s2 := setCount s idx (c + 1)
  if c = 0 then
    let f := popAt s2.impactedArcs (arcAtL s2.arcs idx).tailVar
    { s2 with impactedArcs := f }
  else s2

/-- Untrail loop body for one literal (precedences.cc:377-386): increment
the count of each arc watching the literal, and pop the back of
`impacted_arcs_` of its tail when the count leaves zero. -/
def unprocessLiteral (st : PropState) (l : BLit) : PropState :=
  (st.litToNewImpactedArcs l).foldl unprocStep st

/-- Static facts of the integer trail consumed by AddArc: optionality and
level-zero bounds. -/
structure StaticEnv where
  isOptionalVar : IVar → Bool
  ignoredLit : IVar → BLit
  levelZeroLb : IVar → Int
  levelZeroUb : IVar → Int

/-- Boolean assignment derived from the trail: a literal is true exactly
when it is on the trail. -/
def trailAtoms (trail : List BLit) : Nat → Option Bool := fun n =>
  if trail.contains ((n : Nat) : Int) then some true
  else if trail.contains (-((n : Nat) : Int)) then some false
  else none

/-- Combined state of the propagator counts, the trail, the level-zero
boundary, and `propagation_trail_index_`. -/
structure SysState where
  prop : PropState
  trail : List BLit
  zb : Nat
  pti : Nat

/-- Trail environment seen by AddArc at a given system state. -/
def mkEnv (senv : StaticEnv) (sys : SysState) : TrailEnv :=
  { atoms := trailAtoms sys.trail
    level := if sys.zb = sys.trail.length then 0 else 1
    isOptionalVar := senv.isOptionalVar
    ignoredLit := senv.ignoredLit
    levelZeroLb := senv.levelZeroLb
    levelZeroUb := senv.levelZeroUb }

/-- The count-maintenance part of Propagate (precedences.cc:271-299): all
newly assigned literals since `propagation_trail_index_` are processed in
trail order.  The second pass and the Bellman-Ford run do not touch the
counts or the impacted lists. -/
def propagateCounts (sys : SysState) : SysState :=
  { sys with
    prop := (sys.trail.drop sys.pti).foldl processLiteral sys.prop
    pti := sys.trail.length }

/-- Untrail to trail index `k` (precedences.cc:369-388): the literals
between `k` and `propagation_trail_index_` are unprocessed in reverse
trail order, and the backtracked literals leave the trail. -/
def untrailSys (sys : SysState) (k : Nat) : SysState :=
  { sys with
    prop := ((sys.trail.drop k).take (sys.pti - k)).reverse.foldl
      unprocessLiteral sys.prop
    trail := sys.trail.take k
    pti := min sys.pti k }

/-- Events of the system: level-zero pushes (no pending decision), pushes
above level zero, Propagate, Untrail, and AddArc. -/
inductive SysEvent where
  | pushZero (l : BLit)
  | pushDecision (l : BLit)
  | propagate
  | untrail (k : Nat)
  | addArcEvent (tail head : IVar) (offset : Int) (offsetVar : Option IVar)
      (presence : List BLit)
deriving Repr

/-- One step of the system.  `none` models a step whose guard fails (an
already-assigned literal pushed, an untrail below level zero, or the
AddArc CHECK). -/
def sysStep (senv : StaticEnv) (sys : SysState) :
    SysEvent → Option SysState
  | SysEvent.pushZero l =>
    if l ≠ 0 ∧ ¬ sys.trail.contains l ∧ ¬ sys.trail.contains (-l) ∧
        sys.zb = sys.trail.length then
      some { sys with trail := sys.trail ++ [l], zb := sys.zb + 1 }
    else none
  | SysEvent.pushDecision l =>
    if l ≠ 0 ∧ ¬ sys.trail.contains l ∧ ¬ sys.trail.contains (-l) then
      some { sys with trail := sys.trail ++ [l] }
    else none
  | SysEvent.propagate => some (propagateCounts sys)
  | SysEvent.untrail k =>
    if sys.zb ≤ k ∧ k ≤ sys.trail.length then some (untrailSys sys k)
    else none
  | SysEvent.addArcEvent t h off ov P =>
    (addArc (mkEnv senv sys) sys.prop t h off ov P).map
      (fun p => { sys with prop := p })

/-- Initial state: empty propagator, empty trail. -/
def sysInit : SysState := { prop := stEmptyProp, trail := [], zb := 0, pti := 0 }

/-- Run of the system from the initial state. -/
def sysRun (senv : StaticEnv) (evs : List SysEvent) : Option SysState :=
  evs.foldlM (sysStep senv) sysInit

/-- Discipline of the amended claim: every AddArc event fires at decision
level zero (no pending decision on the trail). -/
def addsAtLevelZero (senv : StaticEnv) : SysState → List SysEvent → Prop
  | _, [] => True
  | s, e :: rest =>
    (match e with
     | SysEvent.addArcEvent _ _ _ _ _ => s.zb = s.trail.length
     | _ => True) ∧
    (match sysStep senv s e with
     | none => True
     | some s2 => addsAtLevelZero senv s2 rest)

/-- The claimed equivalence: an arc count is zero exactly when the arc sits
in the impacted list of its tail. -/
def arcActiveIff (st : PropState) : Prop :=
  ∀ idx, idx < st.arcs.length →
    (getCount st idx = 0 ↔
      idx ∈ st.impactedArcs (arcAtL st.arcs idx).tailVar)

/-- Activation test: position `p` of the trail assigns the last presence
literal of arc `idx` that was still missing. -/
def activatedAtB (arcs : List ArcInfo) (trail : List BLit)
    (idx p : Nat) : Bool :=
  ((arcAtL arcs idx).presenceLiterals.contains (trail.getD p 0)) &&
  ((arcAtL arcs idx).presenceLiterals.all
    (fun l => (trail.take (p + 1)).contains l))

/-- Arcs with tail `v` activated by trail position `p`, in watch-list
order. -/
def activationList (arcs : List ArcInfo) (litToNew : BLit → List Nat)
    (trail : List BLit) (p : Nat) (v : IVar) : List Nat :=
  (litToNew (trail.getD p 0)).filter
    (fun idx => ((arcAtL arcs idx).tailVar == v) &&
      activatedAtB arcs trail idx p)

/-- Arcs with tail `v` activated by the processed positions in
`[zb, pti)`, in activation order. -/
def gList (arcs : List ArcInfo) (litToNew : BLit → List Nat)
    (trail : List BLit) (zb pti : Nat) (v : IVar) : List Nat :=
  (List.range' zb (pti - zb)).flatMap
    (fun p => activationList arcs litToNew trail p v)

instance (st : PropState) : Decidable (arcActiveIff st) := by
  unfold arcActiveIff
  infer_instance

/-- Static environment with no optional variable. -/
def senvC2 : StaticEnv := ⟨fun _ => false, fun _ => 1, fun _ => 0, fun _ => 1⟩

/-- Event sequence breaking the count/impacted equivalence: an
unconditional arc added at decision level one sits in `impacted_arcs_`
when Untrail pops the entry of an earlier arc activated below it. -/
def evsC2 : List SysEvent :=
  [SysEvent.pushDecision 7,
   SysEvent.addArcEvent 0 2 1 none [5],
   SysEvent.pushDecision 5,
   SysEvent.propagate,
   SysEvent.addArcEvent 0 4 1 none [],
   SysEvent.untrail 0]

/-- Event sequence with all AddArc events at level zero, for the witness
of the amended claim. -/
def evsC2w : List SysEvent :=
  [SysEvent.addArcEvent 0 2 1 none [5],
   SysEvent.addArcEvent 0 4 1 none [],
   SysEvent.pushDecision 5,
   SysEvent.propagate,
   SysEvent.untrail 0]

/-- Reachability invariant of the count/impacted system under level-zero
AddArc calls: the counts mirror the unassigned presence literals of each
arc, the literal watch lists index exactly the presence literals, and each
impacted list splits into a stable prefix `F` (arcs whose presence holds
below both the level-zero boundary and the processed prefix) followed by
the activation suffix `gList`. -/
structure SysInv (sys : SysState) : Prop where
  hlen : sys.prop.arcCounts.length = sys.prop.arcs.length
  hzb : sys.zb ≤ sys.trail.length
  hpti : sys.pti ≤ sys.trail.length
  hnd : sys.trail.Nodup
  hcomp : ∀ l ∈ sys.trail, l ≠ 0 ∧ -l ∉ sys.trail
  hpnd : ∀ idx, (arcAtL sys.prop.arcs idx).presenceLiterals.Nodup
  hlit : ∀ l idx, idx ∈ sys.prop.litToNewImpactedArcs l ↔
    (idx < sys.prop.arcs.length ∧
      l ∈ (arcAtL sys.prop.arcs idx).presenceLiterals)
  hlitnd : ∀ l, (sys.prop.litToNewImpactedArcs l).Nodup
  hcnt : ∀ idx, idx < sys.prop.arcs.length →
    getCount sys.prop idx =
      (((arcAtL sys.prop.arcs idx).presenceLiterals.filter
        (fun l => !(sys.trail.take sys.pti).contains l)).length : Int)
  himp : ∀ v, ∃ F, sys.prop.impactedArcs v =
      F ++ gList sys.prop.arcs sys.prop.litToNewImpactedArcs sys.trail
        sys.zb sys.pti v ∧
    ∀ idx, idx ∈ F ↔ (idx < sys.prop.arcs.length ∧
      (arcAtL sys.prop.arcs idx).tailVar = v ∧
      ∀ l ∈ (arcAtL sys.prop.arcs idx).presenceLiterals,
        l ∈ sys.trail.take (min sys.zb sys.pti))

/-! ### PrecedenceRelations::Build (claim C3)

`Build` (precedences.cc:73-149) permutes the arcs (irrelevant to the
computed relation values), topologically sorts the graph with the external
`DenseIntStableTopologicalSorter` (modelled as an `order` parameter with a
topological-order hypothesis), and, on a DAG, closes the arc relation
under composition along the topological order, with a `work` counter
capped at `kWorkLimit`.  The C++ `before[tail_var]` vector is iterated by
reference while the loop body only appends to other entries; the model
snapshots the list at loop entry.  `all_relations_.at(...)` is modelled
with a default that the `before`-link invariant proves unreachable. -/

/-- The Build work limit (precedences.cc:112). -/
def kWorkLimit : Nat := 1000000

/-- Lookup in the `all_relations_` map, modelled as an association list
with unique keys. -/
def relGet (m : List ((IVar × IVar) × Int)) (k : IVar × IVar) : Option Int :=
  (m.find? (fun e => e.1 == k)).map (fun e => e.2)

/-- Overwrite the value stored under an existing key. -/
def relSet (m : List ((IVar × IVar) × Int)) (k : IVar × IVar) (v : Int) :
    List ((IVar × IVar) × Int) :=
  m.map (fun e => if e.1 == k then (k, v) else e)

/-- State of the Build closure loop: the relation map, the `before`
lists, and the work counter. -/
structure BuildState where
  rels : List ((IVar × IVar) × Int)
  before : IVar → List IVar
  work : Nat

/-- The `add` lambda of Build (precedences.cc:115-123): insert a new
relation (recording the predecessor) or keep the maximum offset. -/
def addRel (st : BuildState) (a b : IVar) (off : Int) : BuildState :=
  match relGet st.rels (a, b) with
  | none => { st with
      rels := st.rels ++ [((a, b), off)]
      before := pushAt st.before b a }
  | some old => { st with rels := relSet st.rels (a, b) (max old off) }

/-- The inner loop of Build over `before[tail_var]`
(precedences.cc:137-144). -/
def beforeLoop (tailv : IVar) (w : Int) (headv : IVar) :
    BuildState → List IVar → BuildState
  | st, [] => st
  | st, v :: rest =>
    let st1 := { st with work := st.work + 1 }
    if kWorkLimit < st1.work then st1
    else
      let off2 := (relGet st1.rels (v, tailv)).getD 0 + w
      let st2 := addRel (addRel st1 v headv off2)
        (negationOf headv) (negationOf v) (-off2)
      beforeLoop tailv w headv st2 rest

/-- The middle loop of Build over the outgoing arcs of one tail
(precedences.cc:128-145). -/
def arcLoop : BuildState → List RelArc → BuildState
  | st, [] => st
  | st, a :: rest =>
    let st1 := { st with work := st.work + 1 }
    if kWorkLimit < st1.work then st1
    else
      let st2 := addRel (addRel st1 a.tail a.head a.offset)
        (negationOf a.head) (negationOf a.tail) (-a.offset)
      let st3 := beforeLoop a.tail a.offset a.head st2 (st2.before a.tail)
      arcLoop st3 rest

/-- The outer loop of Build over the topological order
(precedences.cc:126-145). -/
def tailLoop (arcs : List RelArc) : BuildState → List IVar → BuildState
  | st, [] => st
  | st, t :: rest =>
    let st1 := { st with work := st.work + 1 }
    if kWorkLimit < st1.work then st1
    else tailLoop arcs
      (arcLoop st1 (arcs.filter (fun a => a.tail == t))) rest

/-- The closure phase of PrecedenceRelations::Build on a DAG, from the
empty relation map. -/
def buildRelations (arcs : List RelArc) (order : List IVar) : BuildState :=
  tailLoop arcs ⟨[], fun _ => [], 0⟩ order

/-- A directed path in the accumulated arc graph, with its total
arc-offset weight (grown by appending a last arc). -/
inductive HasPath (arcs : List RelArc) : IVar → IVar → Int → Prop where
  | single {a : RelArc} (ha : a ∈ arcs) : HasPath arcs a.tail a.head a.offset
  | snoc {x : IVar} {w : Int} {a : RelArc} (hp : HasPath arcs x a.tail w)
      (ha : a ∈ arcs) : HasPath arcs x a.head (w + a.offset)

/-- A path all of whose arc tails lie in the processed prefix `done`. -/
inductive PathIn (arcs : List RelArc) (done : List IVar) :
    IVar → IVar → Int → Prop where
  | single {a : RelArc} (ha : a ∈ arcs) (ht : a.tail ∈ done) :
      PathIn arcs done a.tail a.head a.offset
  | snoc {x : IVar} {w : Int} {a : RelArc} (hp : PathIn arcs done x a.tail w)
      (ha : a ∈ arcs) (ht : a.tail ∈ done) : PathIn arcs done x a.head (w + a.offset)

/-- Pointwise growth of the relation map: present keys stay present and
never decrease. -/
def relsLe (m m2 : List ((IVar × IVar) × Int)) : Prop :=
  ∀ k v, relGet m k = some v → ∃ v2, relGet m2 k = some v2 ∧ v ≤ v2

/-- Growth of the `before` lists. -/
def beforeSub (f g : IVar → List IVar) : Prop := ∀ t v, v ∈ f t → v ∈ g t

/-- Soundness invariant of the Build closure: every recorded relation is
bounded by a real path, its negation is bounded by the mirror path, and
the `before` lists match the recorded keys. -/
structure BInv (arcs : List RelArc) (st : BuildState) : Prop where
  sound1 : ∀ k v, relGet st.rels k = some v →
    ∃ w, v ≤ w ∧ HasPath arcs k.1 k.2 w
  sound2 : ∀ k v, relGet st.rels k = some v →
    ∃ w, -v ≤ w ∧ HasPath arcs (negationOf k.2) (negationOf k.1) w
  blink : ∀ a t v, relGet st.rels (a, t) = some v → a ∈ st.before t
  blink2 : ∀ a t, a ∈ st.before t → ∃ v, relGet st.rels (a, t) = some v

/-- Completeness invariant: every path whose arc tails are processed is
dominated by a recorded relation. -/
def CInv (arcs : List RelArc) (done : List IVar) (st : BuildState) : Prop :=
  ∀ x y w, PathIn arcs done x y w →
    ∃ v, relGet st.rels (x, y) = some v ∧ w ≤ v

/-! ### Propagate / BellmanFordTarjan (claim C1)

The model covers the bound-propagation phase of Propagate
(precedences.cc:301-323): the BellmanFordTarjan loop with its queue, skip
flags, parent arcs and marks, the positive-cycle analysis, and
EnqueueAndCheck including its optional-variable branch.  The surrounding
pieces of Propagate do not move integer bounds: the literal loops
(lines 271-299) only maintain counts and enqueue head bounds through the
same EnqueueAndCheck, and PropagateOptionalArcs (line 317) only enqueues
presence literals.  The external IntegerTrail (integer.h, outside the
sources) is modelled ideally: Enqueue sets the lower bound to exactly the
pushed value (the real trail may jump holes or defer inside
InPropagationLoop()).  Aborted runs (conflicts, CHECK failures, fuel
exhaustion) return `none`; the claim quantifies over calls that return
true, i.e. `some` runs. -/

/-- Concrete arc list for the C3 witness: one `Add(0, 2, 1)` call, which
records the arc and its mirror. -/
def arcsC3 : List RelArc := [⟨0, 2, 1⟩, ⟨3, 1, 1⟩]

/-- A topological order of the C3 witness graph. -/
def orderC3 : List IVar := [0, 2, 3, 1]

/-- The same two-arc graph with its topological order padded by one
million isolated nodes placed between the arc `0 -> 2` and its mirror
`3 -> 1`: each isolated node costs one work unit at precedences.cc:127,
so the budget is exhausted before the mirror arc heals the negative
entry inserted at precedences.cc:135. -/
def orderC3cap : List IVar :=
  [0, 2] ++ ((List.range 1000000).map (fun i => i + 4) ++ [3, 1])

/-- Concrete base parameters for the C9 witness: defaults with four
workers and the subsolver list of the claim. -/
def baseC9 : SatParameters :=
  { name := ""
    linearizationLevel := 1
    addLpConstraintsLazily := true
    searchBranching := SearchBranching.automatic
    optimizeWithCore := false
    optimizeWithMaxHs := false
    optimizeWithLbTreeSearch := false
    useProbingSearch := false
    useOverloadCheckerInCumulative := false
    useTimetableEdgeFindingInCumulative := false
    useHardPrecedencesInCumulative := false
    useDualSchedulingHeuristics := false
    shareObjectiveBounds := true
    exploitBestSolution := false
    exploitAllPrecedences := false
    booleanEncodingLevel := 1
    randomSeed := 10
    numWorkers := 4
    minNumLnsWorkers := 2
    interleaveSearch := false
    useRinsLns := false
    useFeasibilityPump := false
    randomizeSearch := false
    searchRandomizationTolerance := 0
    subsolvers := ["core", "no_lp", "fixed"]
    extraSubsolvers := []
    ignoreSubsolvers := [] }

/-- Concrete model for the C9 witness: no objective, no search strategy,
no scheduling constraint. -/
def mC9 : CpModel :=
  { constraints := [ConstraintKind.other]
    searchStrategySize := 0
    objective := none }

/-- The padding entries the claim expects: for positions `i, i+1, ...`
(one per missing worker), alternately a randomized quick-restart variant
(even index) and a randomized automatic variant (odd index, no search
strategy in the model), with tolerance equal to the index and seed
`base_seed + index + 1`. -/
def expectedRandomPad (base : SatParameters) : Nat → Nat → List SatParameters
  | 0, _ => []
  | k + 1, i =>
    (if i % 2 = 0 then
      { base with
          searchBranching := SearchBranching.portfolioWithQuickRestart
          randomizeSearch := true
          searchRandomizationTolerance := (i : Int)
          randomSeed := base.randomSeed + i + 1
          name := "random_quick_restart_" ++ toString i }
     else
      { base with
          searchBranching := SearchBranching.automatic
          randomizeSearch := true
          searchRandomizationTolerance := (i : Int)
          randomSeed := base.randomSeed + i + 1
          name := "random_" ++ toString i }
) :: expectedRandomPad base k (i + 1)

end PrecVerify

namespace PrecVerify

/-- C4: PrecedenceRelations::Add records `tail + offset ≤ head` in both
orientations unless the relation is trivially implied by the current bounds,
the endpoints are the same variable up to negation, or the offset is
negative; and any call made after the store is built has no effect. -/
theorem C4_precedence_relations_add_contract (ub lb : IVar → Int)
    (st : PrecRelState) (tail head : IVar) (offset : Int) :
    (st.isBuilt = true → precRelAdd ub lb st tail head offset = st) ∧
    (st.isBuilt = false →
      (¬ (ub tail + offset ≤ lb head) →
        positiveVariable tail ≠ positiveVariable head →
        ¬ offset < 0 →
        (precRelAdd ub lb st tail head offset).arcs =
          st.arcs ++ [⟨tail, head, offset⟩,
                      ⟨negationOf head, negationOf tail, offset⟩]) ∧
      ((ub tail + offset ≤ lb head ∨
        positiveVariable tail = positiveVariable head ∨ offset < 0) →
        precRelAdd ub lb st tail head offset = st)) := by
  refine ⟨fun hb => by simp [precRelAdd, hb], fun hb => ⟨fun h1 h2 h3 => ?_, fun h => ?_⟩⟩
  · simp [precRelAdd, hb, h1, h2, h3]
  · rcases h with h | h | h <;> simp [precRelAdd, hb, h]

/-- Witness for C4 at a concrete input: a fresh store, bounds that do not
trivially imply the relation, distinct variables, nonnegative offset. -/
theorem C4_precedence_relations_add_contract_witness :
    (precRelAdd (fun _ => 10) (fun _ => 0) ⟨false, []⟩ 0 2 3).arcs =
      [⟨0, 2, 3⟩, ⟨3, 1, 3⟩] := by
  have h := (C4_precedence_relations_add_contract (fun _ => 10) (fun _ => 0)
    ⟨false, []⟩ 0 2 3).2 rfl
  have h2 := h.1 (by decide) (by decide) (by decide)
  simpa using h2

/-- Helper: if every element satisfying `p` satisfies `q` or `r`, then the
`p`-count is at most the sum of the `q`-count and the `r`-count. -/
theorem countP_le_add_of_imp {α : Type} (l : List α) (p q r : α → Bool)
    (h : ∀ a ∈ l, p a = true → q a = true ∨ r a = true) :
    l.countP p ≤ l.countP q + l.countP r := by
  induction l with
  | nil => simp
  | cons a t ih =>
    have ht : ∀ b ∈ t, p b = true → q b = true ∨ r b = true :=
      fun b hb => h b (List.mem_cons_of_mem a hb)
    have hih := ih ht
    have hcase := h a (List.mem_cons_self a t)
    simp only [List.countP_cons]
    cases hpa : p a <;> cases hqa : q a <;> cases hra : r a <;>
        simp [hpa, hqa, hra] <;> try omega
    exact absurd (hcase hpa) (by simp [hqa, hra])

/-- C8: MedianValue on a Boolean variable returns the negated literal; on
an unfixed, fully encoded integer variable it returns the unassigned
encoding literal at 0-based index `(n + 1) / 2 - 1` of the value-sorted
unassigned pairs (the encoding is sorted by a permutation ordered by
value); in particular on the fully encoded domain `{1, 2, 5, 7, 9}` with no
pair assigned it returns the literal standing for value 5. -/
theorem C8_median_value (atoms : Nat → Option Bool) (boolLit : BLit)
    (encoding : List ValueLiteralPair) :
    (medianValue atoms true boolLit encoding = some (-boolLit)) ∧
    (medianValue atoms false boolLit encoding =
      (unassignedSortedLiterals atoms encoding).get?
        (((unassignedSortedLiterals atoms encoding).length + 1) / 2 - 1)) ∧
    (List.Perm (List.insertionSort pairLeByValue encoding) encoding) ∧
    (medianValue (fun _ => none) false 0
      [⟨7, 107⟩, ⟨1, 101⟩, ⟨9, 109⟩, ⟨2, 102⟩, ⟨5, 105⟩] = some 105) := by
  refine ⟨by simp [medianValue], rfl, List.perm_insertionSort _ _, by decide⟩

/-- C10: under the precondition that the variable is not fixed (at least
two values possible) and the encoding is consistent (at most one encoding
literal true), the vector of unassigned sorted literals is nonempty, the
median index is within its bounds, and the indexing in MedianValue cannot
go out of range. -/
theorem C10_median_value_index_safe (atoms : Nat → Option Bool)
    (boolLit : BLit) (encoding : List ValueLiteralPair)
    (hamo : numTrueValues atoms encoding ≤ 1)
    (hfree : 2 ≤ numPossibleValues atoms encoding) :
    unassignedSortedLiterals atoms encoding ≠ [] ∧
    ((unassignedSortedLiterals atoms encoding).length + 1) / 2 - 1 <
      (unassignedSortedLiterals atoms encoding).length ∧
    (medianValue atoms false boolLit encoding).isSome = true := by
  have hsplit : encoding.countP (fun p => !litIsFalse atoms p.literal) ≤
      encoding.countP (fun p => litIsTrue atoms p.literal) +
        encoding.countP (fun p => !(litValue atoms p.literal).isSome) := by
    refine countP_le_add_of_imp _ _ _ _ (fun a _ hp => ?_)
    cases hv : litValue atoms a.literal with
    | none => right; simp [hv]
    | some b =>
      cases b
      · exfalso
        simp [litIsFalse, hv] at hp
      · left; simp [litIsTrue, hv]
  have hperm : List.Perm (List.insertionSort pairLeByValue encoding) encoding :=
    List.perm_insertionSort _ _
  have hcount :
      (List.insertionSort pairLeByValue encoding).countP
          (fun p => !(litValue atoms p.literal).isSome) =
        encoding.countP (fun p => !(litValue atoms p.literal).isSome) :=
    hperm.countP_eq _
  have hlen : (unassignedSortedLiterals atoms encoding).length =
      (List.insertionSort pairLeByValue encoding).countP
        (fun p => !(litValue atoms p.literal).isSome) := by
    rw [unassignedSortedLiterals, List.length_map, ← List.countP_eq_length_filter]
  have hpos : 1 ≤ (unassignedSortedLiterals atoms encoding).length := by
    rw [hlen, hcount]
    unfold numPossibleValues at hfree
    unfold numTrueValues at hamo
    omega
  refine ⟨?_, ?_, ?_⟩
  · intro hnil
    rw [hnil] at hpos
    simp at hpos
  · omega
  · have htarget :
        ((unassignedSortedLiterals atoms encoding).length + 1) / 2 - 1 <
          (unassignedSortedLiterals atoms encoding).length := by omega
    have hdef : medianValue atoms false boolLit encoding =
        (unassignedSortedLiterals atoms encoding).get?
          (((unassignedSortedLiterals atoms encoding).length + 1) / 2 - 1) := rfl
    rw [hdef, List.get?_eq_get htarget]
    rfl

/-- Helper: membership in the insertion of a literal into a sorted list. -/
theorem mem_insertSortedLit (l x : BLit) (xs : List BLit) :
    x ∈ insertSortedLit l xs ↔ x = l ∨ x ∈ xs := by
  induction xs with
  | nil => simp [insertSortedLit]
  | cons y ys ih =>
    rw [insertSortedLit]
    by_cases h : l ≤ y
    · simp [h]
    · simp only [if_neg h, List.mem_cons, ih]
      tauto

/-- Helper: sorting literals preserves membership. -/
theorem mem_sortLits (x : BLit) (xs : List BLit) :
    x ∈ sortLits xs ↔ x ∈ xs := by
  induction xs with
  | nil => simp [sortLits]
  | cons y ys ih =>
    rw [sortLits, mem_insertSortedLit]
    simp [ih]

/-- Helper: removing consecutive duplicates preserves membership. -/
theorem mem_dedupSorted : ∀ (xs : List BLit) (x : BLit),
    x ∈ dedupSorted xs ↔ x ∈ xs
  | [], x => by simp [dedupSorted]
  | [y], x => by simp [dedupSorted]
  | y :: z :: xs, x => by
    rw [dedupSorted]
    by_cases h : y = z
    · rw [if_pos h, mem_dedupSorted (z :: xs) x]
      subst h
      simp
    · rw [if_neg h]
      simp [mem_dedupSorted (z :: xs) x]

/-- Helper: AdjustSizeFor only grows the size bookkeeping. -/
theorem adjustSizeFor_arcs (st : PropState) (i : IVar) :
    (adjustSizeFor st i).arcs = st.arcs := by
  simp only [adjustSizeFor]
  split <;> rfl

/-- Helper: registering a potential arc does not touch `arcs_`. -/
theorem addArcPotential_arcs (st : PropState) (tail head : IVar)
    (offset : Int) (offsetVar : Option IVar) (enf : List BLit) :
    (addArcPotential st tail head offset offsetVar enf).arcs = st.arcs := by
  simp only [addArcPotential]
  split
  · rfl
  · split <;> rfl

/-- Helper: one internal arc insertion at level zero succeeds and appends
exactly one arc with the expected fields. -/
theorem addInternalArc_level0 (env : TrailEnv) (offset : Int)
    (enf : List BLit) (st : PropState) (a : IVar × IVar × Option IVar)
    (h : env.level = 0) :
    ∃ st1, addInternalArc env offset enf st a = some st1 ∧
      st1.arcs = st.arcs ++ [ArcInfo.mk a.1 a.2.1 offset a.2.2
        (if env.isOptionalVar a.2.1 then
          enf.erase (-(env.ignoredLit a.2.1)) else enf)] := by
  unfold addInternalArc
  rw [if_pos h]
  refine ⟨_, rfl, ?_⟩
  split <;> split <;> rfl

/-- Helper: the whole `to_add` loop of AddArc at level zero succeeds and
appends one arc per entry, in order. -/
theorem foldlM_addInternalArc_level0 (env : TrailEnv) (offset : Int)
    (enf : List BLit) (h : env.level = 0) :
    ∀ (ts : List (IVar × IVar × Option IVar)) (st : PropState),
    ∃ st2, List.foldlM (addInternalArc env offset enf) st ts = some st2 ∧
      st2.arcs = st.arcs ++ ts.map (fun a =>
        ArcInfo.mk a.1 a.2.1 offset a.2.2
          (if env.isOptionalVar a.2.1 then
            enf.erase (-(env.ignoredLit a.2.1)) else enf)) := by
  intro ts
  induction ts with
  | nil => exact fun st => ⟨st, rfl, by simp⟩
  | cons a ts ih =>
    intro st
    obtain ⟨st1, hst1, harcs1⟩ := addInternalArc_level0 env offset enf st a h
    obtain ⟨st2, hst2, harcs2⟩ := ih st1
    refine ⟨st2, ?_, ?_⟩
    · rw [List.foldlM_cons, hst1]
      exact hst2
    · rw [harcs2, harcs1]
      simp

/-- C5 (amended): an AddArc call with an offset variable that is not fixed
at level zero and that is not dropped at level zero by a false enforcement
literal appends exactly six internal arcs, covering the three rotations of
`tail + offset_var + offset ≤ head` together with their negated
orientations. -/
theorem C5_add_arc_six_rotations (env : TrailEnv) (st0 : PropState)
    (tail head : IVar) (offset0 : Int) (w : IVar) (P : List BLit)
    (hlvl : env.level = 0)
    (hdrop : (enforcementLiterals env tail head (some w) P).any
      (fun l => litIsFalse env.atoms l) = false)
    (hfix : ¬ env.levelZeroLb w = env.levelZeroUb w) :
    ∃ st2 p1 p2 p3 p4 p5 p6,
      addArc env st0 tail head offset0 (some w) P = some st2 ∧
      st2.arcs = st0.arcs ++
        [ArcInfo.mk tail head offset0 (some w) p1,
         ArcInfo.mk w head offset0 (some tail) p2,
         ArcInfo.mk tail (negationOf w) offset0 (some (negationOf head)) p3,
         ArcInfo.mk (negationOf head) (negationOf w) offset0 (some tail) p4,
         ArcInfo.mk w (negationOf tail) offset0 (some (negationOf head)) p5,
         ArcInfo.mk (negationOf head) (negationOf tail) offset0 (some w) p6] ∧
      st2.arcs.length = st0.arcs.length + 6 := by
  have hcond : ¬ (env.level = 0 ∧
      (enforcementLiterals env tail head (some w) P).any
        (fun l => litIsFalse env.atoms l) = true) := by
    simp [hdrop]
  simp only [addArc, if_neg hcond, hlvl, if_neg hfix, if_true]
  rw [hdrop, if_neg (show ¬ (True ∧ false = true) by simp)]
  obtain ⟨st2, hrun, harcs⟩ :=
    foldlM_addInternalArc_level0 env offset0
      (List.filter (fun l => !litIsTrue env.atoms l)
        (enforcementLiterals env tail head (some w) P)) hlvl
      (internalArcList tail head (some w))
      (addArcPotential
        (adjustSizeFor (adjustSizeFor (adjustSizeFor st0 tail) head) w)
        tail head offset0 (some w)
        (List.filter (fun l => !litIsTrue env.atoms l)
          (enforcementLiterals env tail head (some w) P)))
  rw [addArcPotential_arcs, adjustSizeFor_arcs, adjustSizeFor_arcs,
    adjustSizeFor_arcs] at harcs
  refine ⟨st2,
    (if env.isOptionalVar head then
      (List.filter (fun l => !litIsTrue env.atoms l)
        (enforcementLiterals env tail head (some w) P)).erase
          (-(env.ignoredLit head))
     else List.filter (fun l => !litIsTrue env.atoms l)
        (enforcementLiterals env tail head (some w) P)),
    (if env.isOptionalVar head then
      (List.filter (fun l => !litIsTrue env.atoms l)
        (enforcementLiterals env tail head (some w) P)).erase
          (-(env.ignoredLit head))
     else List.filter (fun l => !litIsTrue env.atoms l)
        (enforcementLiterals env tail head (some w) P)),
    (if env.isOptionalVar (negationOf w) then
      (List.filter (fun l => !litIsTrue env.atoms l)
        (enforcementLiterals env tail head (some w) P)).erase
          (-(env.ignoredLit (negationOf w)))
     else List.filter (fun l => !litIsTrue env.atoms l)
        (enforcementLiterals env tail head (some w) P)),
    (if env.isOptionalVar (negationOf w) then
      (List.filter (fun l => !litIsTrue env.atoms l)
        (enforcementLiterals env tail head (some w) P)).erase
          (-(env.ignoredLit (negationOf w)))
     else List.filter (fun l => !litIsTrue env.atoms l)
        (enforcementLiterals env tail head (some w) P)),
    (if env.isOptionalVar (negationOf tail) then
      (List.filter (fun l => !litIsTrue env.atoms l)
        (enforcementLiterals env tail head (some w) P)).erase
          (-(env.ignoredLit (negationOf tail)))
     else List.filter (fun l => !litIsTrue env.atoms l)
        (enforcementLiterals env tail head (some w) P)),
    (if env.isOptionalVar (negationOf tail) then
      (List.filter (fun l => !litIsTrue env.atoms l)
        (enforcementLiterals env tail head (some w) P)).erase
          (-(env.ignoredLit (negationOf tail)))
     else List.filter (fun l => !litIsTrue env.atoms l)
        (enforcementLiterals env tail head (some w) P)),
    hrun, ?_, ?_⟩
  · rw [harcs]
    simp [internalArcList]
  · rw [harcs]
    simp [internalArcList]

/-- Witness for C5 at a concrete input: offset variable 6, not fixed at
level zero, no presence literals. -/
theorem C5_add_arc_six_rotations_witness :
    ∃ st2 p1 p2 p3 p4 p5 p6,
      addArc envC7 stEmptyProp 0 2 5 (some 6) [] = some st2 ∧
      st2.arcs = stEmptyProp.arcs ++
        [ArcInfo.mk 0 2 5 (some 6) p1,
         ArcInfo.mk 6 2 5 (some 0) p2,
         ArcInfo.mk 0 (negationOf 6) 5 (some (negationOf 2)) p3,
         ArcInfo.mk (negationOf 2) (negationOf 6) 5 (some 0) p4,
         ArcInfo.mk 6 (negationOf 0) 5 (some (negationOf 2)) p5,
         ArcInfo.mk (negationOf 2) (negationOf 0) 5 (some 6) p6] ∧
      st2.arcs.length = stEmptyProp.arcs.length + 6 :=
  C5_add_arc_six_rotations envC7 stEmptyProp 0 2 5 6 [] rfl (by decide)
    (by decide)

/-- Counterexample for C5 as stated: a call with an offset variable that is
fixed at level zero (variable 4, bounds [3, 3] in `envC5`) materializes
only two internal arcs, although the offset variable is present and the
arc is not dropped at level zero by a false presence literal. -/
theorem C5_add_arc_six_rotations_counterexample :
    (addArc envC5 stEmptyProp 0 2 5 (some 4) []).map
      (fun s => s.arcs.length) = some 2 ∧
    envC5.level = 0 ∧
    (enforcementLiterals envC5 0 2 (some 4) []).any
      (fun l => litIsFalse envC5.atoms l) = false := by
  refine ⟨by decide, rfl, by decide⟩

/-- C7 (amended): AddPrecedenceWithOffsetIfNew returns false and leaves the
propagator unchanged exactly when the first arc found in the scan of
`impacted_arcs_[i1]` with head `i2` has an offset dominating the new one;
in every other case (first match dominated, or no match) it appends the
precedence through AddPrecedenceWithOffset and returns true. -/
theorem C7_add_precedence_if_new_first_match (env : TrailEnv)
    (lb : IVar → Int) (st : PropState) (i1 i2 : IVar) (offset : Int) :
    (∀ idx, firstArcMatch st i1 i2 = some idx →
      (offset ≤ arcOffset lb (arcAtL st.arcs idx) →
        addPrecedenceWithOffsetIfNew env lb st i1 i2 offset =
          some (false, st)) ∧
      (arcOffset lb (arcAtL st.arcs idx) < offset →
        addPrecedenceWithOffsetIfNew env lb st i1 i2 offset =
          (addPrecedenceWithOffset env st i1 i2 offset).map
            (fun s => (true, s)))) ∧
    (firstArcMatch st i1 i2 = none →
      addPrecedenceWithOffsetIfNew env lb st i1 i2 offset =
        (addPrecedenceWithOffset env st i1 i2 offset).map
          (fun s => (true, s))) := by
  constructor
  · intro idx hidx
    constructor
    · intro hdom
      simp [addPrecedenceWithOffsetIfNew, hidx, if_pos hdom]
    · intro hlt
      simp [addPrecedenceWithOffsetIfNew, hidx, if_neg (not_le.mpr hlt)]
  · intro hnone
    simp [addPrecedenceWithOffsetIfNew, hnone]

/-- Witness for C7 at a concrete input: the first arc (offset 1) dominates
the new offset 1, so the call returns false and changes nothing. -/
theorem C7_add_precedence_if_new_first_match_witness :
    addPrecedenceWithOffsetIfNew envC7 lbC6 stC7 0 2 1 = some (false, stC7) :=
  ((C7_add_precedence_if_new_first_match envC7 lbC6 stC7 0 2 1).1 0
    (by decide)).1 (by decide)

/-- Counterexample for C7 as stated: the second active arc from 0 to 2 has
offset 5, which dominates the new offset 3, yet the call appends the
precedence and returns true, because the scan stops at the first matching
arc (offset 1). -/
theorem C7_add_precedence_if_new_counterexample :
    (1 ∈ stC7.impactedArcs 0 ∧ (arcAtL stC7.arcs 1).headVar = 2 ∧
      (3 : Int) ≤ arcOffset lbC6 (arcAtL stC7.arcs 1)) ∧
    (addPrecedenceWithOffsetIfNew envC7 lbC6 stC7 0 2 3).map
      (fun r => r.1) = some true := by
  refine ⟨⟨by decide, by decide, by decide⟩, by decide⟩

/-- C6: given the cycle reconstructed by AnalyzePositiveCycle,
`must_be_all_true` collects the ignore literals of the optional heads on
the cycle; with no optional variable on the cycle a conflict is reported;
when some such ignore literal is already false a conflict is reported with
that literal appended to the literal reason; and otherwise the ignore
literals are enqueued as true instead of reporting a conflict. -/
theorem C6_positive_cycle_outcomes (arcs : List ArcInfo)
    (parent : IVar → Option Nat) (numNodes : Nat) (lb : IVar → Int)
    (isOpt : IVar → Bool) (ignLit : IVar → BLit) (firstArc : Nat)
    (atoms : Nat → Option Bool) (cyc : List Nat) (must litReason : List BLit)
    (intReason : List (IVar × Int))
    (hana : analyzePositiveCycle arcs parent numNodes lb isOpt ignLit
      firstArc = some (cyc, must, litReason, intReason)) :
    (must = cycleMust arcs isOpt ignLit cyc) ∧
    (must = [] → handlePositiveCycle atoms must litReason intReason =
        CycleOutcome.conflict litReason intReason) ∧
    ((∃ l, l ∈ must ∧ litIsFalse atoms l = true) →
      ∃ l, l ∈ must ∧ litIsFalse atoms l = true ∧
        handlePositiveCycle atoms must litReason intReason =
          CycleOutcome.conflict (litReason ++ [l]) intReason) ∧
    ((must ≠ [] ∧ ∀ l ∈ must, ¬ litIsFalse atoms l = true) →
      ∃ ls, handlePositiveCycle atoms must litReason intReason =
          CycleOutcome.enqueued ls ∧
        ∀ l ∈ must, litIsTrue atoms l = true ∨
          (l ∈ ls ∧ ¬ litIsTrue atoms l = true)) := by
  refine ⟨?_, ?_, ?_, ?_⟩
  · cases hc : collectCycleAux arcs parent (arcAtL arcs firstArc).headVar
        (numNodes + 1) firstArc [] with
    | none =>
      rw [analyzePositiveCycle, hc] at hana
      exact absurd hana (by simp)
    | some c =>
      rw [analyzePositiveCycle, hc] at hana
      dsimp only at hana
      by_cases hs : 0 < cycleSum arcs lb c
      · rw [if_pos hs] at hana
        simp only [Option.some.injEq, Prod.mk.injEq] at hana
        obtain ⟨hcyc, hmust, _, _⟩ := hana
        subst hcyc
        exact hmust.symm
      · rw [if_neg hs] at hana
        exact absurd hana (by simp)
  · intro h
    simp [handlePositiveCycle, h]
  · rintro ⟨l0, hl0m, hl0f⟩
    have hne : must ≠ [] := by
      intro h
      rw [h] at hl0m
      exact absurd hl0m (List.not_mem_nil l0)
    cases hf : (dedupSorted (sortLits must)).find?
        (fun l => litIsFalse atoms l) with
    | none =>
      exact absurd hl0f (List.find?_eq_none.mp hf l0
        ((mem_dedupSorted _ _).mpr ((mem_sortLits _ _).mpr hl0m)))
    | some lf =>
      refine ⟨lf, (mem_sortLits _ _).mp
        ((mem_dedupSorted _ _).mp (List.mem_of_find?_eq_some hf)),
        List.find?_some hf, ?_⟩
      simp [handlePositiveCycle, hne, hf]
  · rintro ⟨hne, hall⟩
    have hf : (dedupSorted (sortLits must)).find?
        (fun l => litIsFalse atoms l) = none := by
      refine List.find?_eq_none.mpr (fun x hx => ?_)
      exact hall x ((mem_sortLits _ _).mp ((mem_dedupSorted _ _).mp hx))
    refine ⟨(dedupSorted (sortLits must)).filter
      (fun l => !litIsTrue atoms l), ?_, ?_⟩
    · simp [handlePositiveCycle, hne, hf]
    · intro l hl
      by_cases ht : litIsTrue atoms l = true
      · exact Or.inl ht
      · refine Or.inr ⟨List.mem_filter.mpr
          ⟨(mem_dedupSorted _ _).mpr ((mem_sortLits _ _).mpr hl), by
            simp [ht]⟩, ht⟩

/-- Witness for C6 at a concrete input: a positive two-arc cycle whose
second head (variable 0) is optional with unassigned ignore literal 9, so
the ignore literal is enqueued as true rather than reporting a conflict. -/
theorem C6_positive_cycle_outcomes_witness :
    (([9] : List BLit) = cycleMust arcsC6 isOptC6 ignLitC6 [0, 1]) ∧
    (([9] : List BLit) = [] →
      handlePositiveCycle atomsNone [9] [-5] [] =
        CycleOutcome.conflict [-5] []) ∧
    ((∃ l, l ∈ ([9] : List BLit) ∧ litIsFalse atomsNone l = true) →
      ∃ l, l ∈ ([9] : List BLit) ∧ litIsFalse atomsNone l = true ∧
        handlePositiveCycle atomsNone [9] [-5] [] =
          CycleOutcome.conflict ([-5] ++ [l]) []) ∧
    ((([9] : List BLit) ≠ [] ∧
        ∀ l ∈ ([9] : List BLit), ¬ litIsFalse atomsNone l = true) →
      ∃ ls, handlePositiveCycle atomsNone [9] [-5] [] =
          CycleOutcome.enqueued ls ∧
        ∀ l ∈ ([9] : List BLit), litIsTrue atomsNone l = true ∨
          (l ∈ ls ∧ ¬ litIsTrue atomsNone l = true)) :=
  C6_positive_cycle_outcomes arcsC6 parentC6 2 lbC6 isOptC6 ignLitC6 0
    atomsNone [0, 1] [9] [-5] [] (by decide)

/-- Witness for C10 at a concrete input: two unassigned encoding pairs. -/
theorem C10_median_value_index_safe_witness :
    unassignedSortedLiterals (fun _ => none)
        [⟨1, 11⟩, ⟨2, 12⟩] ≠ [] ∧
    ((unassignedSortedLiterals (fun _ => none)
        [⟨1, 11⟩, ⟨2, 12⟩]).length + 1) / 2 - 1 <
      (unassignedSortedLiterals (fun _ => none)
        [⟨1, 11⟩, ⟨2, 12⟩]).length ∧
    (medianValue (fun _ => none) false 7
        [⟨1, 11⟩, ⟨2, 12⟩]).isSome = true :=
  C10_median_value_index_safe (fun _ => none) 7 [⟨1, 11⟩, ⟨2, 12⟩]
    (by decide) (by decide)

/-- Helper: the expected padding list has one entry per missing worker. -/
theorem length_expectedRandomPad (base : SatParameters) :
    ∀ (k i : Nat), (expectedRandomPad base k i).length = k := by
  intro k
  induction k with
  | zero => intro i; rfl
  | succ k ih =>
    intro i
    rw [expectedRandomPad]
    simp [ih]

/-- Helper: the padding loop run with exactly the missing fuel produces
the expected alternating randomized entries. -/
theorem padLoop_spec (base : SatParameters) (m : CpModel)
    (hstrat : m.searchStrategySize = 0) :
    ∀ (k i : Nat) (acc : List SatParameters), acc.length = i →
    padLoop base m (i + k) k i acc = acc ++ expectedRandomPad base k i := by
  intro k
  induction k with
  | zero =>
    intro i acc hlen
    rw [padLoop, expectedRandomPad]
    simp
  | succ k ih =>
    intro i acc hlen
    subst hlen
    have hlt : acc.length < acc.length + (k + 1) := by omega
    rw [expectedRandomPad]
    by_cases hpar : acc.length % 2 = 0
    · simp only [padLoop, if_pos hlt, if_pos hpar]
      rw [show acc.length + (k + 1) = (acc.length + 1) + k from by omega]
      rw [ih (acc.length + 1) _ (by simp)]
      simp
    · simp only [padLoop, if_pos hlt, if_neg hpar, hstrat, if_pos rfl]
      rw [show acc.length + (k + 1) = (acc.length + 1) + k from by omega]
      rw [ih (acc.length + 1) _ (by simp)]
      simp

/-- C9: for a model with no objective, base parameters with subsolvers
`["core", "no_lp", "fixed"]` (and otherwise default-like fields), no
search strategy and no scheduling constraints, GetDiverseSetOfParameters
emits from that list exactly the strategy named `no_lp` (core is dropped
for lack of an objective, fixed for lack of a strategy or scheduling), and
pads the result with alternating randomized quick-restart and automatic
variants of increasing tolerance until it contains `num_workers`
entries. -/
theorem C9_portfolio_no_objective (base : SatParameters) (m : CpModel)
    (hsub : base.subsolvers = ["core", "no_lp", "fixed"])
    (hextra : base.extraSubsolvers = [])
    (hign : base.ignoreSubsolvers = [])
    (hbr : base.searchBranching = SearchBranching.automatic)
    (hcore : base.optimizeWithCore = false)
    (hlbt : base.optimizeWithLbTreeSearch = false)
    (hint : base.interleaveSearch = false)
    (hrins : base.useRinsLns = false)
    (hfp : base.useFeasibilityPump = false)
    (hobj : m.objective = none)
    (hstrat : m.searchStrategySize = 0)
    (hsched : modelHasSchedulingConstraints m = false)
    (hnw : 1 ≤ base.numWorkers) :
    getDiverseSetOfParameters base [] m =
      { base with
        linearizationLevel := 0
        name := "no_lp"
        randomSeed := base.randomSeed + 1 }
        :: expectedRandomPad base (base.numWorkers - 1) 1 ∧
    (getDiverseSetOfParameters base [] m).length = base.numWorkers := by
  have hlookCore : mapGet (buildStrategies base []) "core" =
      some { base with
        searchBranching := SearchBranching.automatic
        optimizeWithCore := true
        linearizationLevel := 0 } := by
    simp [buildStrategies, mapSet, mapGet]
  have hlookNoLp : mapGet (buildStrategies base []) "no_lp" =
      some { base with linearizationLevel := 0 } := by
    simp [buildStrategies, mapSet, mapGet]
  have hlookFixed : mapGet (buildStrategies base []) "fixed" =
      some { base with searchBranching := SearchBranching.fixed } := by
    simp [buildStrategies, mapSet, mapGet]
  have hnames : subsolverNameList base m = ["core", "no_lp", "fixed"] := by
    rw [subsolverNameList, hsub, hextra, hign]
    simp [hobj]
  have huse : ((m.searchStrategySize != 0) ||
      modelHasSchedulingConstraints m) = false := by
    rw [hstrat, hsched]
    rfl
  have hemit : emitLoop (buildStrategies base []) m false base
      ["core", "no_lp", "fixed"] [] =
      [{ base with
          linearizationLevel := 0
          name := "no_lp"
          randomSeed := base.randomSeed + 1 }] := by
    rw [emitLoop, hlookCore]
    dsimp only
    rw [show keepStrategy m false "core"
        { base with
          searchBranching := SearchBranching.automatic
          optimizeWithCore := true
          linearizationLevel := 0 } = false from by
      simp only [keepStrategy]
      rw [hobj]
      dsimp only
      rw [hlbt]
      decide]
    rw [if_neg (by simp)]
    rw [emitLoop, hlookNoLp]
    dsimp only
    rw [show keepStrategy m false "no_lp"
        { base with linearizationLevel := 0 } = true from by
      simp only [keepStrategy]
      rw [hobj]
      dsimp only
      rw [hbr, hlbt, hcore]
      decide]
    rw [if_pos rfl]
    rw [emitLoop, hlookFixed]
    dsimp only
    rw [show keepStrategy m false "fixed"
        { base with searchBranching := SearchBranching.fixed } = false from by
      simp only [keepStrategy]
      rw [hobj]
      dsimp only
      rw [hlbt, hcore]
      decide]
    rw [if_neg (by simp)]
    rw [emitLoop]
    simp
  have hnlt : ¬ base.numWorkers < 1 := by omega
  have hne0 : ¬ base.numWorkers = 0 := by omega
  have hstep : getDiverseSetOfParameters base [] m =
      padLoop base m base.numWorkers (base.numWorkers - 1) 1
        [{ base with
            linearizationLevel := 0
            name := "no_lp"
            randomSeed := base.randomSeed + 1 }] := by
    rw [getDiverseSetOfParameters, hobj]
    dsimp only
    rw [hnames, huse, hemit]
    simp [hint, hrins, hfp, hnlt, hne0]
  have hpad := padLoop_spec base m hstrat (base.numWorkers - 1) 1
    [{ base with
        linearizationLevel := 0
        name := "no_lp"
        randomSeed := base.randomSeed + 1 }] (by simp)
  rw [show (1 : Nat) + (base.numWorkers - 1) = base.numWorkers from by
    omega] at hpad
  have hfull : getDiverseSetOfParameters base [] m =
      { base with
        linearizationLevel := 0
        name := "no_lp"
        randomSeed := base.randomSeed + 1 }
        :: expectedRandomPad base (base.numWorkers - 1) 1 := by
    rw [hstep, hpad]
    simp
  refine ⟨hfull, ?_⟩
  rw [hfull]
  simp only [List.length_cons, length_expectedRandomPad]
  omega

/-- Witness for C9 at a concrete input: four workers, default-like base
parameters, subsolvers core/no_lp/fixed, no objective. -/
theorem C9_portfolio_no_objective_witness :
    getDiverseSetOfParameters baseC9 [] mC9 =
      { baseC9 with
        linearizationLevel := 0
        name := "no_lp"
        randomSeed := baseC9.randomSeed + 1 }
        :: expectedRandomPad baseC9 (baseC9.numWorkers - 1) 1 ∧
    (getDiverseSetOfParameters baseC9 [] mC9).length = baseC9.numWorkers :=
  C9_portfolio_no_objective baseC9 mC9 rfl rfl rfl rfl rfl rfl rfl rfl rfl
    rfl rfl rfl (by decide)

/-- Counterexample for C2 as stated: with an AddArc call at decision level
one interleaved between Propagate and Untrail, the final state has an arc
of count 1 still in the impacted list of its tail and an arc of count 0
missing from it. -/
theorem C2_count_impacted_counterexample :
    (sysRun senvC2 evsC2).map (fun s =>
      (decide (arcActiveIff s.prop),
       getCount s.prop 0,
       decide (0 ∈ s.prop.impactedArcs (arcAtL s.prop.arcs 0).tailVar),
       getCount s.prop 2,
       decide (2 ∈ s.prop.impactedArcs (arcAtL s.prop.arcs 2).tailVar),
       s.prop.arcs.length)) = some (false, 1, true, 0, false, 4) := by
  decide

/-! ### Helper lemmas for the C2 invariant -/

/-- Reading the slot just written by `setCount`. -/
theorem getCount_set_self (st : PropState) (i : Nat) (c : Int)
    (h : i < st.arcCounts.length) : getCount (setCount st i c) i = c := by
  simp [getCount, setCount, List.getElem?_set_self', List.getElem?_eq_getElem h]

/-- `setCount` leaves the other slots unchanged. -/
theorem getCount_set_ne (st : PropState) (i j : Nat) (c : Int)
    (h : i ≠ j) : getCount (setCount st i c) j = getCount st j := by
  simp [getCount, setCount, List.getElem?_set_ne h]

/-- Dropping the last element `ys.length` times removes exactly `ys`. -/
theorem dropLast_iterate_append {α : Type} (ys xs : List α) :
    List.dropLast^[ys.length] (xs ++ ys) = xs := by
  induction ys using List.reverseRecOn with
  | nil => simp
  | append_singleton ys y ih =>
    rw [List.length_append, List.length_singleton,
      Function.iterate_succ_apply, ← List.append_assoc,
      List.dropLast_concat]
    exact ih

/-- Counting the presence literals missing from a trail prefix: extending
the prefix by a fresh literal removes exactly the occurrences of that
literal (at most one in a duplicate-free list). -/
theorem filter_not_contains_concat (P t : List BLit) (l : BLit)
    (hl : l ∉ t) (hPnd : P.Nodup) :
    (P.filter (fun x => !t.contains x)).length =
    (P.filter (fun x => !(t ++ [l]).contains x)).length +
    (if l ∈ P then 1 else 0) := by
  induction P with
  | nil => simp
  | cons x P ih =>
    rcases List.nodup_cons.mp hPnd with ⟨hx, hPnd2⟩
    have key := ih hPnd2
    by_cases hxl : x = l
    · subst hxl
      simp [hl, hx]
      apply congrArg List.length
      apply List.filter_congr
      intro y hy
      have hyx : ¬ (y = x) := fun h => hx (h ▸ hy)
      simp [hyx]
    · have hcx : ((t ++ [l]).contains x) = (t.contains x) := by
        simp [hxl]
      have hne : ¬ (l = x) := fun h => hxl h.symm
      by_cases hPl : l ∈ P
      · simp only [List.filter_cons, hcx]
        cases hc : t.contains x <;> simp_all
      · simp only [List.filter_cons, hcx]
        cases hc : t.contains x <;> simp_all

/-- An in-range `getD` is a member of the list. -/
theorem getD_mem {α : Type} (l : List α) (p : Nat) (d : α)
    (h : p < l.length) : l.getD p d ∈ l := by
  rw [List.getD_eq_get _ _ h]
  exact List.get_mem l p h

/-- In a duplicate-free list, the element at position `p` does not occur
before position `p`. -/
theorem getD_not_mem_take {α : Type} (l : List α) (p : Nat) (d : α)
    (hnd : l.Nodup) (h : p < l.length) : l.getD p d ∉ l.take p := by
  intro hmem
  have hd : l.getD p d ∈ l.drop p := by
    rw [List.getD_eq_get _ _ h, List.drop_eq_get_cons h]
    exact List.mem_cons_self _ _
  exact (List.disjoint_take_drop hnd (Nat.le_refl p)) hmem hd

/-- `take (p+1)` appends the element at position `p`. -/
theorem take_succ_getD {α : Type} (l : List α) (p : Nat) (d : α)
    (h : p < l.length) : l.take (p + 1) = l.take p ++ [l.getD p d] := by
  rw [List.take_succ, List.getElem?_eq_getElem h, List.getD_eq_get _ _ h]
  rfl

/-- `drop p` starts with the element at position `p`. -/
theorem drop_eq_getD_cons {α : Type} (l : List α) (p : Nat) (d : α)
    (h : p < l.length) : l.drop p = l.getD p d :: l.drop (p + 1) := by
  rw [List.getD_eq_get _ _ h]
  exact List.drop_eq_get_cons h

/-- Before any processed decision-level literal, the activation suffix is
empty. -/
theorem gList_empty (arcs : List ArcInfo) (litToNew : BLit → List Nat)
    (trail : List BLit) (zb pti : Nat) (v : IVar) (h : pti ≤ zb) :
    gList arcs litToNew trail zb pti v = [] := by
  simp [gList, Nat.sub_eq_zero_of_le h]

/-- Extending the processed range by one position appends that position's
activation list. -/
theorem gList_succ (arcs : List ArcInfo) (litToNew : BLit → List Nat)
    (trail : List BLit) (zb p : Nat) (v : IVar) (h : zb ≤ p) :
    gList arcs litToNew trail zb (p + 1) v =
      gList arcs litToNew trail zb p v ++
        activationList arcs litToNew trail p v := by
  have h1 : p + 1 - zb = (p - zb) + 1 := by omega
  rw [gList, gList, h1, List.range'_concat]
  have h2 : zb + 1 * (p - zb) = p := by omega
  have h3 : zb + (p - zb) = p := by omega
  simp [h2, h3]

/-- A literal on the trail evaluates to true under `trailAtoms`, provided
the trail is consistent (no zero literal, no complementary pair). -/
theorem litIsTrue_of_mem_trail (trail : List BLit) (l : BLit)
    (hcomp : ∀ x ∈ trail, x ≠ 0 ∧ -x ∉ trail)
    (hl : l ∈ trail) : litIsTrue (trailAtoms trail) l = true := by
  rcases hcomp l hl with ⟨hnz, hneg⟩
  by_cases hpos : 0 ≤ l
  · have hcast : ((l.toNat : Nat) : Int) = l := Int.toNat_of_nonneg hpos
    simp only [litIsTrue, litValue, if_pos hpos, trailAtoms, hcast]
    simp [hl]
  · have hcast : (((-l).toNat : Nat) : Int) = -l :=
      Int.toNat_of_nonneg (Int.neg_nonneg.mpr (le_of_lt (lt_of_not_ge hpos)))
    simp only [litIsTrue, litValue, if_neg hpos, trailAtoms, hcast]
    have h1 : -l ∉ trail := hneg
    have h2 : -(-l) = l := by ring
    simp [h1, h2, hl]

/-- Field effect of one `procStep`: only the count slot and (on
activation) the impacted list of the tail change. -/
theorem procStep_fields (s : PropState) (idx : Nat) :
    (procStep s idx).arcs = s.arcs ∧
    (procStep s idx).litToNewImpactedArcs = s.litToNewImpactedArcs ∧
    (procStep s idx).arcCounts = s.arcCounts.set idx (getCount s idx - 1) ∧
    (procStep s idx).impactedArcs =
      (if getCount s idx - 1 = 0 then
        pushAt s.impactedArcs (arcAtL s.arcs idx).tailVar idx
      else s.impactedArcs) := by
  simp only [procStep]
  split <;> simp [setCount]

/-- Field effect of one `unprocStep`. -/
theorem unprocStep_fields (s : PropState) (idx : Nat) :
    (unprocStep s idx).arcs = s.arcs ∧
    (unprocStep s idx).litToNewImpactedArcs = s.litToNewImpactedArcs ∧
    (unprocStep s idx).arcCounts = s.arcCounts.set idx (getCount s idx + 1) ∧
    (unprocStep s idx).impactedArcs =
      (if getCount s idx = 0 then
        popAt s.impactedArcs (arcAtL s.arcs idx).tailVar
      else s.impactedArcs) := by
  simp only [unprocStep]
  split <;> simp [setCount]

/-- `getCount` only reads the count vector. -/
theorem getCount_congr (s s2 : PropState) (h : s2.arcCounts = s.arcCounts)
    (i : Nat) : getCount s2 i = getCount s i := by
  simp [getCount, h]

/-- Specification of the first Propagate loop over one watch list: each
watched arc's count drops by one, and the arcs whose count was one land at
the back of the impacted list of their tail, in list order. -/
theorem foldl_procStep_spec (L : List Nat) : ∀ (st : PropState),
    L.Nodup → (∀ idx ∈ L, idx < st.arcs.length) →
    st.arcCounts.length = st.arcs.length →
    (L.foldl procStep st).arcs = st.arcs ∧
    (L.foldl procStep st).litToNewImpactedArcs = st.litToNewImpactedArcs ∧
    (L.foldl procStep st).arcCounts.length = st.arcCounts.length ∧
    (∀ idx, idx ∉ L → getCount (L.foldl procStep st) idx = getCount st idx) ∧
    (∀ idx ∈ L, getCount (L.foldl procStep st) idx = getCount st idx - 1) ∧
    (∀ v, (L.foldl procStep st).impactedArcs v =
      st.impactedArcs v ++ L.filter (fun idx =>
        ((arcAtL st.arcs idx).tailVar == v) && (getCount st idx == 1))) := by
  induction L with
  | nil => intro st _ _ _; simp
  | cons a L ih =>
    intro st hnd hmem hlen
    rcases List.nodup_cons.mp hnd with ⟨haL, hndL⟩
    have ha : a < st.arcs.length := hmem a (List.mem_cons_self a L)
    have halen : a < st.arcCounts.length := by omega
    obtain ⟨f1, f2, f3, f4⟩ := procStep_fields st a
    have hcounts : (procStep st a).arcCounts =
        (setCount st a (getCount st a - 1)).arcCounts := by
      rw [f3]; rfl
    have hc_self : getCount (procStep st a) a = getCount st a - 1 := by
      rw [getCount_congr _ _ hcounts]
      exact getCount_set_self st a _ halen
    have hc_ne : ∀ idx, idx ≠ a →
        getCount (procStep st a) idx = getCount st idx := by
      intro idx hne
      rw [getCount_congr _ _ hcounts]
      exact getCount_set_ne st a idx _ (fun h => hne h.symm)
    have hmem2 : ∀ idx ∈ L, idx < (procStep st a).arcs.length := by
      intro idx hidx; rw [f1]; exact hmem idx (List.mem_cons_of_mem a hidx)
    have hlen2 : (procStep st a).arcCounts.length = (procStep st a).arcs.length := by
      rw [f1, f3, List.length_set]; exact hlen
    obtain ⟨g1, g2, g3, g4, g5, g6⟩ := ih (procStep st a) hndL hmem2 hlen2
    rw [List.foldl_cons]
    refine ⟨g1.trans f1, g2.trans f2, ?_, ?_, ?_, ?_⟩
    · rw [g3, f3, List.length_set]
    · intro idx hidx
      have h1 : idx ≠ a := fun h => hidx (h ▸ List.mem_cons_self a L)
      have h2 : idx ∉ L := fun h => hidx (List.mem_cons_of_mem a h)
      rw [g4 idx h2, hc_ne idx h1]
    · intro idx hidx
      rcases List.mem_cons.mp hidx with h | h
      · subst h; rw [g4 idx haL, hc_self]
      · have hne : idx ≠ a := fun he => haL (he ▸ h)
        rw [g5 idx h, hc_ne idx hne]
    · intro v
      rw [g6 v]
      have hfe : L.filter (fun idx =>
            ((arcAtL (procStep st a).arcs idx).tailVar == v) &&
            (getCount (procStep st a) idx == 1)) =
          L.filter (fun idx =>
            ((arcAtL st.arcs idx).tailVar == v) && (getCount st idx == 1)) := by
        apply List.filter_congr
        intro idx hidx
        have hne : idx ≠ a := fun he => haL (he ▸ hidx)
        rw [f1, hc_ne idx hne]
      rw [hfe, f4]
      by_cases h1 : getCount st a = 1
      · have h0 : getCount st a - 1 = 0 := by rw [h1]; ring
        rw [if_pos h0]
        by_cases h2 : (arcAtL st.arcs a).tailVar = v
        · have hp : (((arcAtL st.arcs a).tailVar == v) &&
              (getCount st a == 1)) = true := by simp [h1, h2]
          rw [List.filter_cons, hp, pushAt, if_pos h2.symm, h2]
          simp
        · have hp : (((arcAtL st.arcs a).tailVar == v) &&
              (getCount st a == 1)) = false := by simp [h2]
          rw [List.filter_cons, hp, pushAt,
            if_neg (fun h => h2 h.symm)]
          simp
      · have h0 : ¬ (getCount st a - 1 = 0) := by
          intro h; exact h1 (by linarith)
        have hp : (((arcAtL st.arcs a).tailVar == v) &&
            (getCount st a == 1)) = false := by simp [h1]
        rw [if_neg h0, List.filter_cons, hp]
        simp

/-- Specification of the Untrail loop over one watch list: each watched
arc's count rises by one, and for each arc whose count was zero the
impacted list of its tail loses its last entry. -/
theorem foldl_unprocStep_spec (L : List Nat) : ∀ (st : PropState),
    L.Nodup → (∀ idx ∈ L, idx < st.arcs.length) →
    st.arcCounts.length = st.arcs.length →
    (L.foldl unprocStep st).arcs = st.arcs ∧
    (L.foldl unprocStep st).litToNewImpactedArcs = st.litToNewImpactedArcs ∧
    (L.foldl unprocStep st).arcCounts.length = st.arcCounts.length ∧
    (∀ idx, idx ∉ L → getCount (L.foldl unprocStep st) idx = getCount st idx) ∧
    (∀ idx ∈ L, getCount (L.foldl unprocStep st) idx = getCount st idx + 1) ∧
    (∀ v, (L.foldl unprocStep st).impactedArcs v =
      List.dropLast^[(L.filter (fun idx =>
        ((arcAtL st.arcs idx).tailVar == v) &&
        (getCount st idx == 0))).length] (st.impactedArcs v)) := by
  induction L with
  | nil => intro st _ _ _; simp
  | cons a L ih =>
    intro st hnd hmem hlen
    rcases List.nodup_cons.mp hnd with ⟨haL, hndL⟩
    have ha : a < st.arcs.length := hmem a (List.mem_cons_self a L)
    have halen : a < st.arcCounts.length := by omega
    obtain ⟨f1, f2, f3, f4⟩ := unprocStep_fields st a
    have hcounts : (unprocStep st a).arcCounts =
        (setCount st a (getCount st a + 1)).arcCounts := by
      rw [f3]; rfl
    have hc_self : getCount (unprocStep st a) a = getCount st a + 1 := by
      rw [getCount_congr _ _ hcounts]
      exact getCount_set_self st a _ halen
    have hc_ne : ∀ idx, idx ≠ a →
        getCount (unprocStep st a) idx = getCount st idx := by
      intro idx hne
      rw [getCount_congr _ _ hcounts]
      exact getCount_set_ne st a idx _ (fun h => hne h.symm)
    have hmem2 : ∀ idx ∈ L, idx < (unprocStep st a).arcs.length := by
      intro idx hidx; rw [f1]; exact hmem idx (List.mem_cons_of_mem a hidx)
    have hlen2 : (unprocStep st a).arcCounts.length =
        (unprocStep st a).arcs.length := by
      rw [f1, f3, List.length_set]; exact hlen
    obtain ⟨g1, g2, g3, g4, g5, g6⟩ := ih (unprocStep st a) hndL hmem2 hlen2
    rw [List.foldl_cons]
    refine ⟨g1.trans f1, g2.trans f2, ?_, ?_, ?_, ?_⟩
    · rw [g3, f3, List.length_set]
    · intro idx hidx
      have h1 : idx ≠ a := fun h => hidx (h ▸ List.mem_cons_self a L)
      have h2 : idx ∉ L := fun h => hidx (List.mem_cons_of_mem a h)
      rw [g4 idx h2, hc_ne idx h1]
    · intro idx hidx
      rcases List.mem_cons.mp hidx with h | h
      · subst h; rw [g4 idx haL, hc_self]
      · have hne : idx ≠ a := fun he => haL (he ▸ h)
        rw [g5 idx h, hc_ne idx hne]
    · intro v
      rw [g6 v]
      have hfe : L.filter (fun idx =>
            ((arcAtL (unprocStep st a).arcs idx).tailVar == v) &&
            (getCount (unprocStep st a) idx == 0)) =
          L.filter (fun idx =>
            ((arcAtL st.arcs idx).tailVar == v) && (getCount st idx == 0)) := by
        apply List.filter_congr
        intro idx hidx
        have hne : idx ≠ a := fun he => haL (he ▸ hidx)
        rw [f1, hc_ne idx hne]
      rw [hfe, f4]
      by_cases h1 : getCount st a = 0
      · rw [if_pos h1]
        by_cases h2 : (arcAtL st.arcs a).tailVar = v
        · have hp : (((arcAtL st.arcs a).tailVar == v) &&
              (getCount st a == 0)) = true := by simp [h1, h2]
          rw [List.filter_cons, hp, popAt]
          simp [Function.iterate_succ_apply, h2]
        · have hp : (((arcAtL st.arcs a).tailVar == v) &&
              (getCount st a == 0)) = false := by simp [h2]
          rw [List.filter_cons, hp, popAt, if_neg (fun h => h2 h.symm)]
          simp
      · have hp : (((arcAtL st.arcs a).tailVar == v) &&
            (getCount st a == 0)) = false := by simp [h1]
        rw [if_neg h1, List.filter_cons, hp]
        simp

/-- Registering a fresh arc appends it to the watch list of each of its
presence literals, once per literal. -/
theorem foldl_pushLitAt (P : List BLit) : ∀ (f0 : BLit → List Nat) (n : Nat),
    P.Nodup → ∀ m, (P.foldl (fun f l => pushLitAt f l n) f0) m =
      f0 m ++ (if m ∈ P then [n] else []) := by
  induction P with
  | nil => intro f0 n _ m; simp
  | cons x P ih =>
    intro f0 n hnd m
    rcases List.nodup_cons.mp hnd with ⟨hx, hnd2⟩
    rw [List.foldl_cons, ih _ n hnd2 m]
    by_cases hm : m = x
    · subst hm
      rw [pushLitAt, if_pos rfl, if_neg hx, if_pos (List.mem_cons_self m P)]
      simp
    · rw [pushLitAt, if_neg hm]
      by_cases hmP : m ∈ P
      · rw [if_pos hmP, if_pos (List.mem_cons_of_mem x hmP)]
      · rw [if_neg hmP, if_neg (by simp [hm, hmP])]

/-- `getD` into a `take` prefix reads the original list. -/
theorem getD_take_of_lt {α : Type} (l : List α) (n m : Nat) (d : α)
    (h : m < n) : (l.take n).getD m d = l.getD m d := by
  rw [List.getD_eq_get?, List.getD_eq_get?, List.get?_take h]

/-- Membership in a prefix is monotone in the prefix length. -/
theorem mem_take_mono {α : Type} (l : List α) (m n : Nat) (a : α)
    (h : m ≤ n) (ha : a ∈ l.take m) : a ∈ l.take n := by
  have he : l.take m = (l.take n).take m := by
    rw [List.take_take, min_eq_left h]
  rw [he] at ha
  exact List.mem_of_mem_take ha

/-- `insertSortedLit` is Mathlib's `orderedInsert`. -/
theorem insertSortedLit_eq (l : BLit) (xs : List BLit) :
    insertSortedLit l xs = List.orderedInsert (· ≤ ·) l xs := by
  induction xs with
  | nil => rfl
  | cons x xs ih => simp [insertSortedLit, List.orderedInsert, ih]

/-- `sortLits` is Mathlib's insertion sort. -/
theorem sortLits_eq (xs : List BLit) :
    sortLits xs = List.insertionSort (· ≤ ·) xs := by
  induction xs with
  | nil => rfl
  | cons x xs ih => simp [sortLits, List.insertionSort, ih, insertSortedLit_eq]

/-- The sort used inside the enforcement-literal cleanup really sorts. -/
theorem sortLits_sorted (xs : List BLit) :
    List.Sorted (· ≤ ·) (sortLits xs) := by
  rw [sortLits_eq]
  exact List.sorted_insertionSort _ xs

/-- `std::unique` on a sorted list leaves no duplicates. -/
theorem dedupSorted_nodup : ∀ (xs : List BLit),
    List.Sorted (· ≤ ·) xs → (dedupSorted xs).Nodup := by
  intro xs
  induction xs with
  | nil => intro _; simp [dedupSorted]
  | cons x xs ih =>
    intro hs
    cases xs with
    | nil => simp [dedupSorted]
    | cons y zs =>
      have hs2 : List.Sorted (· ≤ ·) (y :: zs) := hs.of_cons
      by_cases hxy : x = y
      · rw [dedupSorted, if_pos hxy]
        exact ih hs2
      · rw [dedupSorted, if_neg hxy]
        refine List.nodup_cons.mpr ⟨?_, ih hs2⟩
        intro hmem
        have hmem2 : x ∈ y :: zs := (mem_dedupSorted _ _).mp hmem
        rcases List.mem_cons.mp hmem2 with h | h
        · exact hxy h
        · have hxle : x ≤ y := (List.sorted_cons.mp hs).1 y
            (List.mem_cons_self y zs)
          have hyle : y ≤ x := (List.sorted_cons.mp hs2).1 x h
          exact hxy (le_antisymm hxle hyle)

/-- The enforcement literals collected by AddArc form a duplicate-free
list. -/
theorem enforcementLiterals_nodup (env : TrailEnv) (tail head : IVar)
    (ov : Option IVar) (pls : List BLit) :
    (enforcementLiterals env tail head ov pls).Nodup :=
  dedupSorted_nodup _ (sortLits_sorted _)

/-- Arc lookup below the original length is unchanged by an append. -/
theorem arcAtL_append_left (arcs more : List ArcInfo) (idx : Nat)
    (h : idx < arcs.length) : arcAtL (arcs ++ more) idx = arcAtL arcs idx := by
  rw [arcAtL, arcAtL, List.get?_append h]

/-- Arc lookup at the first appended position. -/
theorem arcAtL_concat_self (arcs : List ArcInfo) (a : ArcInfo) :
    arcAtL (arcs ++ [a]) arcs.length = a := by
  rw [arcAtL, List.get?_concat_length]
  rfl

/-- The activation test at a position only looks at the trail up to that
position. -/
theorem activationList_congr_trail (arcs : List ArcInfo)
    (ltn : BLit → List Nat) (trail trail2 : List BLit) (p n : Nat) (v : IVar)
    (hp : p + 1 ≤ n) (he : trail2.take n = trail.take n) :
    activationList arcs ltn trail2 p v = activationList arcs ltn trail p v := by
  have hgd : trail2.getD p 0 = trail.getD p 0 := by
    rw [← getD_take_of_lt trail2 n p 0 (by omega),
      ← getD_take_of_lt trail n p 0 (by omega), he]
  have htk : trail2.take (p + 1) = trail.take (p + 1) := by
    rw [← min_eq_left hp, ← List.take_take, ← List.take_take, he]
  rw [activationList, activationList, hgd]
  apply List.filter_congr
  intro idx _
  rw [activatedAtB, activatedAtB, hgd, htk]

/-- The activation suffix only looks at the trail up to the processed
index. -/
theorem gList_congr_trail (arcs : List ArcInfo) (ltn : BLit → List Nat)
    (trail trail2 : List BLit) (zb pti n : Nat) (v : IVar)
    (hp : pti ≤ n) (he : trail2.take n = trail.take n) :
    gList arcs ltn trail2 zb pti v = gList arcs ltn trail zb pti v := by
  rw [gList, gList]
  apply List.flatMap_congr
  intro p hpmem
  have hlt : p < pti := by
    rcases List.mem_range'_1.mp hpmem with ⟨h1, h2⟩
    omega
  exact activationList_congr_trail arcs ltn trail trail2 p n v (by omega) he

/-- If every presence literal is assigned within the processed prefix but
not all below the level-zero boundary, some processed decision-level
position assigns the last one. -/
theorem exists_activation (trail : List BLit) (P : List BLit) (zb : Nat) :
    ∀ (pti : Nat), zb ≤ pti → pti ≤ trail.length →
    (∀ l ∈ P, l ∈ trail.take pti) → ¬ (∀ l ∈ P, l ∈ trail.take zb) →
    ∃ p, zb ≤ p ∧ p < pti ∧ trail.getD p 0 ∈ P ∧
      ∀ l ∈ P, l ∈ trail.take (p + 1) := by
  intro pti
  induction pti with
  | zero =>
    intro h1 h2 h3 h4
    exact absurd (fun l hl => absurd (h3 l hl) (by simp)) h4
  | succ q ihq =>
    intro h1 h2 h3 h4
    by_cases hzb : zb = q + 1
    · exact absurd (fun l hl => hzb ▸ h3 l hl) h4
    · have hzq : zb ≤ q := by omega
      by_cases hq : trail.getD q 0 ∈ P
      · exact ⟨q, hzq, Nat.lt_succ_self q, hq, h3⟩
      · have h3q : ∀ l ∈ P, l ∈ trail.take q := by
          intro l hl
          have hm := h3 l hl
          rw [take_succ_getD trail q 0 (by omega)] at hm
          rcases List.mem_append.mp hm with h | h
          · exact h
          · exact absurd (List.mem_singleton.mp h ▸ hl) hq
        obtain ⟨p, hp1, hp2, hp3, hp4⟩ :=
          ihq hzq (by omega) h3q h4
        exact ⟨p, hp1, by omega, hp3, hp4⟩

/-- The invariant implies the claimed equivalence between zero counts and
membership in the impacted list of the tail. -/
theorem sysInv_arcActiveIff (sys : SysState) (h : SysInv sys) :
    arcActiveIff sys.prop := by
  intro idx hlt
  obtain ⟨F, hFG, hFiff⟩ := h.himp ((arcAtL sys.prop.arcs idx).tailVar)
  have hcount := h.hcnt idx hlt
  constructor
  · intro hc0
    rw [hcount] at hc0
    have hlen0 : (((arcAtL sys.prop.arcs idx).presenceLiterals.filter
        (fun l => !(sys.trail.take sys.pti).contains l)).length) = 0 := by
      exact_mod_cast hc0
    have hnil := List.length_eq_zero.mp hlen0
    have hsub : ∀ l ∈ (arcAtL sys.prop.arcs idx).presenceLiterals,
        l ∈ sys.trail.take sys.pti := by
      intro l hl
      have hf := List.filter_eq_nil.mp hnil l hl
      simpa using hf
    by_cases hcase : ∀ l ∈ (arcAtL sys.prop.arcs idx).presenceLiterals,
        l ∈ sys.trail.take (min sys.zb sys.pti)
    · have hF : idx ∈ F := (hFiff idx).mpr ⟨hlt, rfl, hcase⟩
      rw [hFG]
      exact List.mem_append_left _ hF
    · rcases Nat.le_total sys.pti sys.zb with hle | hle
      · exact absurd (fun l hl => by
          rw [min_eq_right hle]; exact hsub l hl) hcase
      · have hmin : min sys.zb sys.pti = sys.zb := min_eq_left hle
        have hnot : ¬ ∀ l ∈ (arcAtL sys.prop.arcs idx).presenceLiterals,
            l ∈ sys.trail.take sys.zb := by
          rw [hmin] at hcase
          exact hcase
        obtain ⟨p, hp1, hp2, hp3, hp4⟩ :=
          exists_activation sys.trail _ sys.zb sys.pti hle h.hpti hsub hnot
        have hidxlit : idx ∈ sys.prop.litToNewImpactedArcs
            (sys.trail.getD p 0) := (h.hlit _ idx).mpr ⟨hlt, hp3⟩
        have hact : idx ∈ activationList sys.prop.arcs
            sys.prop.litToNewImpactedArcs sys.trail p
            ((arcAtL sys.prop.arcs idx).tailVar) := by
          rw [activationList]
          apply List.mem_filter.mpr
          refine ⟨hidxlit, ?_⟩
          simp only [activatedAtB, Bool.and_eq_true, beq_iff_eq,
            beq_self_eq_true, List.all_eq_true, true_and]
          refine ⟨?_, ?_⟩
          · have hp3b : sys.trail[p]?.getD 0 ∈
                (arcAtL sys.prop.arcs idx).presenceLiterals := by
              rw [← List.get?_eq_getElem?, ← List.getD_eq_get?]
              exact hp3
            simp [hp3b]
          · intro l hl
            simp [hp4 l hl]
        have hg : idx ∈ gList sys.prop.arcs sys.prop.litToNewImpactedArcs
            sys.trail sys.zb sys.pti ((arcAtL sys.prop.arcs idx).tailVar) := by
          rw [gList]
          apply List.mem_flatMap.mpr
          refine ⟨p, ?_, hact⟩
          rw [List.mem_range'_1]
          omega
        rw [hFG]
        exact List.mem_append_right _ hg
  · intro hmem
    rw [hFG] at hmem
    rw [hcount]
    have hgoal : ∀ l ∈ (arcAtL sys.prop.arcs idx).presenceLiterals,
        l ∈ sys.trail.take sys.pti → True := fun _ _ _ => trivial
    rcases List.mem_append.mp hmem with hF | hG
    · obtain ⟨_, _, hsub⟩ := (hFiff idx).mp hF
      have hnil : ((arcAtL sys.prop.arcs idx).presenceLiterals.filter
          (fun l => !(sys.trail.take sys.pti).contains l)) = [] := by
        apply List.filter_eq_nil.mpr
        intro l hl
        have hmt : l ∈ sys.trail.take sys.pti :=
          mem_take_mono sys.trail _ _ l (min_le_right _ _) (hsub l hl)
        simp [hmt]
      rw [hnil]
      rfl
    · rcases List.mem_flatMap.mp hG with ⟨p, hpmem, hpact⟩
      rcases List.mem_range'_1.mp hpmem with ⟨hp1, hp2⟩
      rcases List.mem_filter.mp hpact with ⟨hlitmem, hcond⟩
      simp only [activatedAtB, Bool.and_eq_true, beq_iff_eq,
        List.all_eq_true] at hcond
      have hnil : ((arcAtL sys.prop.arcs idx).presenceLiterals.filter
          (fun l => !(sys.trail.take sys.pti).contains l)) = [] := by
        apply List.filter_eq_nil.mpr
        intro l hl
        have hc2 := hcond.2.2 l hl
        have hlp : l ∈ sys.trail.take (p + 1) := by simpa using hc2
        have hmt : l ∈ sys.trail.take sys.pti :=
          mem_take_mono sys.trail _ _ l (by omega) hlp
        simp [hmt]
      rw [hnil]
      rfl

/-- Processing the literal at the propagation trail index preserves the
invariant and advances the index. -/
theorem sysInv_process_one (sys : SysState) (h : SysInv sys)
    (hp : sys.pti < sys.trail.length) :
    SysInv { sys with
      prop := processLiteral sys.prop (sys.trail.getD sys.pti 0)
      pti := sys.pti + 1 } := by
  have hl : processLiteral sys.prop (sys.trail.getD sys.pti 0) =
      (sys.prop.litToNewImpactedArcs (sys.trail.getD sys.pti 0)).foldl
        procStep sys.prop := rfl
  have hndL : (sys.prop.litToNewImpactedArcs
      (sys.trail.getD sys.pti 0)).Nodup := h.hlitnd _
  have hmemL : ∀ idx ∈ sys.prop.litToNewImpactedArcs
      (sys.trail.getD sys.pti 0), idx < sys.prop.arcs.length :=
    fun idx hidx => ((h.hlit _ idx).mp hidx).1
  have hpresL : ∀ idx ∈ sys.prop.litToNewImpactedArcs
      (sys.trail.getD sys.pti 0),
      sys.trail.getD sys.pti 0 ∈ (arcAtL sys.prop.arcs idx).presenceLiterals :=
    fun idx hidx => ((h.hlit _ idx).mp hidx).2
  obtain ⟨g1, g2, g3, g4, g5, g6⟩ :=
    foldl_procStep_spec _ sys.prop hndL hmemL h.hlen
  rw [← hl] at g1 g2 g3 g4 g5 g6
  have hlnotin : sys.trail.getD sys.pti 0 ∉ sys.trail.take sys.pti :=
    getD_not_mem_take _ _ _ h.hnd hp
  have htake : sys.trail.take (sys.pti + 1) =
      sys.trail.take sys.pti ++ [sys.trail.getD sys.pti 0] :=
    take_succ_getD _ _ _ hp
  have hcnt2 : ∀ idx, idx < sys.prop.arcs.length →
      getCount (processLiteral sys.prop (sys.trail.getD sys.pti 0)) idx =
        (((arcAtL sys.prop.arcs idx).presenceLiterals.filter
          (fun x => !(sys.trail.take (sys.pti + 1)).contains x)).length : Int) := by
    intro idx hidx
    have harith := filter_not_contains_concat
      ((arcAtL sys.prop.arcs idx).presenceLiterals)
      (sys.trail.take sys.pti) (sys.trail.getD sys.pti 0) hlnotin (h.hpnd idx)
    rw [htake]
    by_cases hmem : idx ∈ sys.prop.litToNewImpactedArcs
        (sys.trail.getD sys.pti 0)
    · have hlp := hpresL idx hmem
      rw [g5 idx hmem, h.hcnt idx hidx]
      rw [if_pos hlp] at harith
      rw [harith]
      push_cast
      ring
    · have hlnp : sys.trail.getD sys.pti 0 ∉
          (arcAtL sys.prop.arcs idx).presenceLiterals :=
        fun hc => hmem ((h.hlit _ idx).mpr ⟨hidx, hc⟩)
      rw [g4 idx hmem, h.hcnt idx hidx]
      rw [if_neg hlnp] at harith
      rw [harith]
      push_cast
      ring
  have hacteq : ∀ idx ∈ sys.prop.litToNewImpactedArcs
      (sys.trail.getD sys.pti 0), idx < sys.prop.arcs.length →
      activatedAtB sys.prop.arcs sys.trail idx sys.pti =
        (getCount sys.prop idx == 1) := by
    intro idx hidx hlt
    have harith := filter_not_contains_concat
      ((arcAtL sys.prop.arcs idx).presenceLiterals)
      (sys.trail.take sys.pti) (sys.trail.getD sys.pti 0) hlnotin (h.hpnd idx)
    rw [if_pos (hpresL idx hidx)] at harith
    have hcont : ((arcAtL sys.prop.arcs idx).presenceLiterals.contains
        (sys.trail.getD sys.pti 0)) = true := by
      have hp3b : sys.trail[sys.pti]?.getD 0 ∈
          (arcAtL sys.prop.arcs idx).presenceLiterals := by
        rw [← List.get?_eq_getElem?, ← List.getD_eq_get?]
        exact hpresL idx hidx
      simp [hp3b]
    have hiff : ((arcAtL sys.prop.arcs idx).presenceLiterals.all
        (fun l => (sys.trail.take (sys.pti + 1)).contains l)) = true ↔
        getCount sys.prop idx = 1 := by
      constructor
      · intro hall
        have hnil : ((arcAtL sys.prop.arcs idx).presenceLiterals.filter
            (fun x => !(sys.trail.take sys.pti ++
              [sys.trail.getD sys.pti 0]).contains x)) = [] := by
          apply List.filter_eq_nil.mpr
          intro a ha
          have hc := (List.all_eq_true.mp hall) a ha
          rw [htake] at hc
          simp at hc ⊢
          tauto
        rw [h.hcnt idx hlt, harith, hnil]
        rfl
      · intro hone
        rw [h.hcnt idx hlt, harith] at hone
        have hzero : ((arcAtL sys.prop.arcs idx).presenceLiterals.filter
            (fun x => !(sys.trail.take sys.pti ++
              [sys.trail.getD sys.pti 0]).contains x)).length = 0 := by
          push_cast at hone
          omega
        have hnil := List.length_eq_zero.mp hzero
        rw [List.all_eq_true]
        intro a ha
        have hf := List.filter_eq_nil.mp hnil a ha
        rw [htake]
        simp at hf ⊢
        tauto
    rw [activatedAtB, hcont, Bool.true_and]
    cases hall : ((arcAtL sys.prop.arcs idx).presenceLiterals.all
        (fun l => (sys.trail.take (sys.pti + 1)).contains l)) with
    | true =>
      symm
      rw [beq_iff_eq]
      exact hiff.mp hall
    | false =>
      symm
      rw [beq_eq_false_iff_ne]
      intro hc
      have hx := hiff.mpr hc
      rw [hall] at hx
      cases hx
  have hA : (processLiteral sys.prop
      (sys.trail.getD sys.pti 0)).arcCounts.length =
      (processLiteral sys.prop (sys.trail.getD sys.pti 0)).arcs.length := by
    rw [g3, g1, h.hlen]
  have hBpti : sys.pti + 1 ≤ sys.trail.length := by omega
  have hCpnd : ∀ idx, (arcAtL (processLiteral sys.prop
      (sys.trail.getD sys.pti 0)).arcs idx).presenceLiterals.Nodup := by
    intro idx
    rw [g1]
    exact h.hpnd idx
  have hDlit : ∀ l idx, idx ∈ (processLiteral sys.prop
      (sys.trail.getD sys.pti 0)).litToNewImpactedArcs l ↔
      (idx < (processLiteral sys.prop
        (sys.trail.getD sys.pti 0)).arcs.length ∧
      l ∈ (arcAtL (processLiteral sys.prop
        (sys.trail.getD sys.pti 0)).arcs idx).presenceLiterals) := by
    intro l idx
    rw [g2, g1]
    exact h.hlit l idx
  have hElitnd : ∀ l, ((processLiteral sys.prop
      (sys.trail.getD sys.pti 0)).litToNewImpactedArcs l).Nodup := by
    intro l
    rw [g2]
    exact h.hlitnd l
  have hFcnt : ∀ idx, idx < (processLiteral sys.prop
      (sys.trail.getD sys.pti 0)).arcs.length →
      getCount (processLiteral sys.prop (sys.trail.getD sys.pti 0)) idx =
      (((arcAtL (processLiteral sys.prop
        (sys.trail.getD sys.pti 0)).arcs idx).presenceLiterals.filter
        (fun x => !(sys.trail.take (sys.pti + 1)).contains x)).length : Int) := by
    intro idx hidx
    rw [g1] at hidx
    rw [g1]
    exact hcnt2 idx hidx
  have hGimp : ∀ v, ∃ F, (processLiteral sys.prop
      (sys.trail.getD sys.pti 0)).impactedArcs v =
      F ++ gList (processLiteral sys.prop
        (sys.trail.getD sys.pti 0)).arcs
        (processLiteral sys.prop
          (sys.trail.getD sys.pti 0)).litToNewImpactedArcs sys.trail
        sys.zb (sys.pti + 1) v ∧
      ∀ idx, idx ∈ F ↔ (idx < (processLiteral sys.prop
        (sys.trail.getD sys.pti 0)).arcs.length ∧
      (arcAtL (processLiteral sys.prop
        (sys.trail.getD sys.pti 0)).arcs idx).tailVar = v ∧
      ∀ l ∈ (arcAtL (processLiteral sys.prop
        (sys.trail.getD sys.pti 0)).arcs idx).presenceLiterals,
        l ∈ sys.trail.take (min sys.zb (sys.pti + 1))) := by
    intro v
    obtain ⟨F, hFG, hFiff⟩ := h.himp v
    rcases Nat.lt_or_ge sys.pti sys.zb with hlt2 | hge
    · -- below the level-zero boundary: the pushed arcs extend the prefix
      refine ⟨F ++ (sys.prop.litToNewImpactedArcs
        (sys.trail.getD sys.pti 0)).filter (fun idx =>
          ((arcAtL sys.prop.arcs idx).tailVar == v) &&
          (getCount sys.prop idx == 1)), ?_, ?_⟩
      · rw [g6 v, hFG,
          gList_empty _ _ _ _ _ _ (Nat.le_of_lt hlt2), List.append_nil,
          g1, g2, gList_empty _ _ _ _ _ _ (by omega : sys.pti + 1 ≤ sys.zb),
          List.append_nil]
      · intro idx
        rw [g1]
        have hmin1 : min sys.zb (sys.pti + 1) = sys.pti + 1 := by omega
        have hmin0 : min sys.zb sys.pti = sys.pti := by omega
        rw [hmin1]
        constructor
        · intro hidx
          rcases List.mem_append.mp hidx with hF2 | hfil
          · obtain ⟨h1, h2, h3⟩ := (hFiff idx).mp hF2
            rw [hmin0] at h3
            exact ⟨h1, h2, fun l hl =>
              mem_take_mono _ _ _ l (by omega) (h3 l hl)⟩
          · rcases List.mem_filter.mp hfil with ⟨hinL, hpred⟩
            simp only [Bool.and_eq_true] at hpred
            rcases hpred with ⟨htv, hc1⟩
            have hlt := hmemL idx hinL
            have hact := hacteq idx hinL hlt
            rw [hc1] at hact
            rw [activatedAtB] at hact
            simp only [Bool.and_eq_true] at hact
            rcases hact with ⟨_, hall⟩
            refine ⟨hlt, by simpa using htv, ?_⟩
            intro l hl
            have := List.all_eq_true.mp hall l hl
            simpa using this
        · rintro ⟨h1, h2, h3⟩
          by_cases hsub0 : ∀ l ∈ (arcAtL sys.prop.arcs idx).presenceLiterals,
              l ∈ sys.trail.take sys.pti
          · apply List.mem_append_left
            apply (hFiff idx).mpr
            rw [hmin0]
            exact ⟨h1, h2, hsub0⟩
          · apply List.mem_append_right
            push_neg at hsub0
            obtain ⟨x, hxP, hxnot⟩ := hsub0
            have hx1 : x ∈ sys.trail.take (sys.pti + 1) := h3 x hxP
            rw [htake] at hx1
            have hxeq : x = sys.trail.getD sys.pti 0 := by
              rcases List.mem_append.mp hx1 with hc | hc
              · exact absurd hc hxnot
              · exact List.mem_singleton.mp hc
            have hlP : sys.trail.getD sys.pti 0 ∈
                (arcAtL sys.prop.arcs idx).presenceLiterals := hxeq ▸ hxP
            have hinL : idx ∈ sys.prop.litToNewImpactedArcs
                (sys.trail.getD sys.pti 0) := (h.hlit _ idx).mpr ⟨h1, hlP⟩
            apply List.mem_filter.mpr
            refine ⟨hinL, ?_⟩
            have hact := hacteq idx hinL h1
            have hacttrue : activatedAtB sys.prop.arcs sys.trail idx
                sys.pti = true := by
              rw [activatedAtB]
              simp only [Bool.and_eq_true]
              constructor
              · have hp3b : sys.trail[sys.pti]?.getD 0 ∈
                    (arcAtL sys.prop.arcs idx).presenceLiterals := by
                  rw [← List.get?_eq_getElem?, ← List.getD_eq_get?]
                  exact hlP
                simp [hp3b]
              · rw [List.all_eq_true]
                intro l hl
                simp [h3 l hl]
            rw [hacttrue] at hact
            simp only [Bool.and_eq_true]
            exact ⟨by simp [h2], hact.symm⟩
    · -- at or past the boundary: the pushed arcs extend the suffix
      refine ⟨F, ?_, ?_⟩
      · rw [g6 v, hFG, g1, g2,
          gList_succ _ _ _ _ _ _ hge, List.append_assoc]
        congr 1
        congr 1
        rw [activationList]
        apply List.filter_congr
        intro idx hidx
        have hlt := hmemL idx hidx
        rw [hacteq idx hidx hlt]
      · intro idx
        rw [g1]
        have hmin1 : min sys.zb (sys.pti + 1) = sys.zb := by omega
        have hmin0 : min sys.zb sys.pti = sys.zb := by omega
        rw [hmin1]
        have := hFiff idx
        rw [hmin0] at this
        exact this
  exact ⟨hA, h.hzb, hBpti, h.hnd, h.hcomp, hCpnd, hDlit, hElitnd, hFcnt, hGimp⟩

/-- Iterating `sysInv_process_one` over the unprocessed tail of the
trail. -/
theorem sysInv_propagate_aux : ∀ (n : Nat) (sys : SysState), SysInv sys →
    sys.pti + n = sys.trail.length →
    SysInv { sys with
      prop := (sys.trail.drop sys.pti).foldl processLiteral sys.prop
      pti := sys.trail.length } := by
  intro n
  induction n with
  | zero =>
    intro sys h he
    have hdrop : sys.trail.drop sys.pti = [] := by
      apply List.drop_eq_nil_of_le
      omega
    rw [hdrop, List.foldl_nil]
    have hq : sys.pti = sys.trail.length := by omega
    rw [← hq]
    exact h
  | succ n ihn =>
    intro sys h he
    have hp : sys.pti < sys.trail.length := by omega
    have hdrop : sys.trail.drop sys.pti =
        sys.trail.getD sys.pti 0 :: sys.trail.drop (sys.pti + 1) :=
      drop_eq_getD_cons _ _ _ hp
    rw [hdrop, List.foldl_cons]
    have h2 := sysInv_process_one sys h hp
    have h3 := ihn { sys with
      prop := processLiteral sys.prop (sys.trail.getD sys.pti 0)
      pti := sys.pti + 1 } h2 (by simpa using by omega)
    exact h3

/-- Propagate preserves the invariant. -/
theorem sysInv_propagate (sys : SysState) (h : SysInv sys) :
    SysInv (propagateCounts sys) := by
  have hle := h.hpti
  have := sysInv_propagate_aux (sys.trail.length - sys.pti) sys h (by omega)
  exact this

/-- Unprocessing the top processed decision-level literal preserves the
invariant and rewinds the index. -/
theorem sysInv_unprocess_one (sys : SysState) (p : Nat) (h : SysInv sys)
    (hpe : sys.pti = p + 1) (hzb : sys.zb ≤ p) (hp : p < sys.trail.length) :
    SysInv { sys with
      prop := unprocessLiteral sys.prop (sys.trail.getD p 0)
      pti := p } := by
  have hl : unprocessLiteral sys.prop (sys.trail.getD p 0) =
      (sys.prop.litToNewImpactedArcs (sys.trail.getD p 0)).foldl
        unprocStep sys.prop := rfl
  have hndL : (sys.prop.litToNewImpactedArcs (sys.trail.getD p 0)).Nodup :=
    h.hlitnd _
  have hmemL : ∀ idx ∈ sys.prop.litToNewImpactedArcs (sys.trail.getD p 0),
      idx < sys.prop.arcs.length :=
    fun idx hidx => ((h.hlit _ idx).mp hidx).1
  have hpresL : ∀ idx ∈ sys.prop.litToNewImpactedArcs (sys.trail.getD p 0),
      sys.trail.getD p 0 ∈ (arcAtL sys.prop.arcs idx).presenceLiterals :=
    fun idx hidx => ((h.hlit _ idx).mp hidx).2
  obtain ⟨g1, g2, g3, g4, g5, g6⟩ :=
    foldl_unprocStep_spec _ sys.prop hndL hmemL h.hlen
  rw [← hl] at g1 g2 g3 g4 g5 g6
  have hlnotin : sys.trail.getD p 0 ∉ sys.trail.take p :=
    getD_not_mem_take _ _ _ h.hnd hp
  have htake : sys.trail.take (p + 1) =
      sys.trail.take p ++ [sys.trail.getD p 0] :=
    take_succ_getD _ _ _ hp
  have hcnt2 : ∀ idx, idx < sys.prop.arcs.length →
      getCount (unprocessLiteral sys.prop (sys.trail.getD p 0)) idx =
        (((arcAtL sys.prop.arcs idx).presenceLiterals.filter
          (fun x => !(sys.trail.take p).contains x)).length : Int) := by
    intro idx hidx
    have harith := filter_not_contains_concat
      ((arcAtL sys.prop.arcs idx).presenceLiterals)
      (sys.trail.take p) (sys.trail.getD p 0) hlnotin (h.hpnd idx)
    have hold := h.hcnt idx hidx
    rw [hpe, htake] at hold
    by_cases hmem : idx ∈ sys.prop.litToNewImpactedArcs (sys.trail.getD p 0)
    · have hlp := hpresL idx hmem
      rw [g5 idx hmem, hold]
      rw [if_pos hlp] at harith
      rw [harith]
      push_cast
      ring
    · have hlnp : sys.trail.getD p 0 ∉
          (arcAtL sys.prop.arcs idx).presenceLiterals :=
        fun hc => hmem ((h.hlit _ idx).mpr ⟨hidx, hc⟩)
      rw [g4 idx hmem, hold]
      rw [if_neg hlnp] at harith
      rw [harith]
      push_cast
      ring
  have hacteq : ∀ idx ∈ sys.prop.litToNewImpactedArcs (sys.trail.getD p 0),
      idx < sys.prop.arcs.length →
      activatedAtB sys.prop.arcs sys.trail idx p =
        (getCount sys.prop idx == 0) := by
    intro idx hidx hlt
    have hold := h.hcnt idx hlt
    rw [hpe] at hold
    have hcont : ((arcAtL sys.prop.arcs idx).presenceLiterals.contains
        (sys.trail.getD p 0)) = true := by
      have hp3b : sys.trail[p]?.getD 0 ∈
          (arcAtL sys.prop.arcs idx).presenceLiterals := by
        rw [← List.get?_eq_getElem?, ← List.getD_eq_get?]
        exact hpresL idx hidx
      simp [hp3b]
    have hiff : ((arcAtL sys.prop.arcs idx).presenceLiterals.all
        (fun l => (sys.trail.take (p + 1)).contains l)) = true ↔
        getCount sys.prop idx = 0 := by
      constructor
      · intro hall
        have hnil : ((arcAtL sys.prop.arcs idx).presenceLiterals.filter
            (fun x => !(sys.trail.take (p + 1)).contains x)) = [] := by
          apply List.filter_eq_nil.mpr
          intro a ha
          have hc := (List.all_eq_true.mp hall) a ha
          simp at hc ⊢
          tauto
        rw [hold, hnil]
        rfl
      · intro hzero
        rw [hold] at hzero
        have hlen0 : ((arcAtL sys.prop.arcs idx).presenceLiterals.filter
            (fun x => !(sys.trail.take (p + 1)).contains x)).length = 0 := by
          exact_mod_cast hzero
        have hnil := List.length_eq_zero.mp hlen0
        rw [List.all_eq_true]
        intro a ha
        have hf := List.filter_eq_nil.mp hnil a ha
        simp at hf ⊢
        tauto
    rw [activatedAtB, hcont, Bool.true_and]
    cases hall : ((arcAtL sys.prop.arcs idx).presenceLiterals.all
        (fun l => (sys.trail.take (p + 1)).contains l)) with
    | true =>
      symm
      rw [beq_iff_eq]
      exact hiff.mp hall
    | false =>
      symm
      rw [beq_eq_false_iff_ne]
      intro hc
      have hx := hiff.mpr hc
      rw [hall] at hx
      cases hx
  have hA : (unprocessLiteral sys.prop
      (sys.trail.getD p 0)).arcCounts.length =
      (unprocessLiteral sys.prop (sys.trail.getD p 0)).arcs.length := by
    rw [g3, g1, h.hlen]
  have hBpti : p ≤ sys.trail.length := by omega
  have hCpnd : ∀ idx, (arcAtL (unprocessLiteral sys.prop
      (sys.trail.getD p 0)).arcs idx).presenceLiterals.Nodup := by
    intro idx
    rw [g1]
    exact h.hpnd idx
  have hDlit : ∀ l idx, idx ∈ (unprocessLiteral sys.prop
      (sys.trail.getD p 0)).litToNewImpactedArcs l ↔
      (idx < (unprocessLiteral sys.prop (sys.trail.getD p 0)).arcs.length ∧
      l ∈ (arcAtL (unprocessLiteral sys.prop
        (sys.trail.getD p 0)).arcs idx).presenceLiterals) := by
    intro l idx
    rw [g2, g1]
    exact h.hlit l idx
  have hElitnd : ∀ l, ((unprocessLiteral sys.prop
      (sys.trail.getD p 0)).litToNewImpactedArcs l).Nodup := by
    intro l
    rw [g2]
    exact h.hlitnd l
  have hFcnt : ∀ idx, idx < (unprocessLiteral sys.prop
      (sys.trail.getD p 0)).arcs.length →
      getCount (unprocessLiteral sys.prop (sys.trail.getD p 0)) idx =
      (((arcAtL (unprocessLiteral sys.prop
        (sys.trail.getD p 0)).arcs idx).presenceLiterals.filter
        (fun x => !(sys.trail.take p).contains x)).length : Int) := by
    intro idx hidx
    rw [g1] at hidx
    rw [g1]
    exact hcnt2 idx hidx
  have hGimp : ∀ v, ∃ F, (unprocessLiteral sys.prop
      (sys.trail.getD p 0)).impactedArcs v =
      F ++ gList (unprocessLiteral sys.prop (sys.trail.getD p 0)).arcs
        (unprocessLiteral sys.prop
          (sys.trail.getD p 0)).litToNewImpactedArcs sys.trail
        sys.zb p v ∧
      ∀ idx, idx ∈ F ↔ (idx < (unprocessLiteral sys.prop
        (sys.trail.getD p 0)).arcs.length ∧
      (arcAtL (unprocessLiteral sys.prop
        (sys.trail.getD p 0)).arcs idx).tailVar = v ∧
      ∀ l ∈ (arcAtL (unprocessLiteral sys.prop
        (sys.trail.getD p 0)).arcs idx).presenceLiterals,
        l ∈ sys.trail.take (min sys.zb p)) := by
    intro v
    obtain ⟨F, hFG, hFiff⟩ := h.himp v
    rw [hpe] at hFG
    have hchunk : activationList sys.prop.arcs
        sys.prop.litToNewImpactedArcs sys.trail p v =
        (sys.prop.litToNewImpactedArcs (sys.trail.getD p 0)).filter
          (fun idx => ((arcAtL sys.prop.arcs idx).tailVar == v) &&
            (getCount sys.prop idx == 0)) := by
      rw [activationList]
      apply List.filter_congr
      intro idx hidx
      have hlt := hmemL idx hidx
      rw [hacteq idx hidx hlt]
    refine ⟨F, ?_, ?_⟩
    · rw [g6 v, hFG, gList_succ _ _ _ _ _ _ hzb, hchunk,
        ← List.append_assoc, dropLast_iterate_append, g1, g2]
    · intro idx
      rw [g1]
      have hmin1 : min sys.zb p = sys.zb := by omega
      have hmin0 : min sys.zb sys.pti = sys.zb := by omega
      rw [hmin1]
      have hxf := hFiff idx
      rw [hmin0] at hxf
      exact hxf
  exact ⟨hA, h.hzb, hBpti, h.hnd, h.hcomp, hCpnd, hDlit, hElitnd, hFcnt, hGimp⟩

/-- Iterating `sysInv_unprocess_one` from the propagation index down to
the untrail target. -/
theorem sysInv_untrail_aux : ∀ (n : Nat) (k : Nat) (sys : SysState),
    SysInv sys → sys.pti = k + n → sys.zb ≤ k →
    SysInv { sys with
      prop := ((sys.trail.drop k).take n).reverse.foldl
        unprocessLiteral sys.prop
      pti := k } := by
  intro n
  induction n with
  | zero =>
    intro k sys h he hzb
    simp only [List.take_zero, List.reverse_nil, List.foldl_nil]
    have hk : k = sys.pti := by omega
    subst hk
    exact h
  | succ n ihn =>
    intro k sys h he hzb
    have hkn : k + n < sys.trail.length := by
      have := h.hpti
      omega
    have hgd : (sys.trail.drop k).getD n 0 = sys.trail.getD (k + n) 0 := by
      rw [List.getD_eq_get?, List.getD_eq_get?, List.get?_drop]
    have hlen : n < (sys.trail.drop k).length := by
      rw [List.length_drop]
      omega
    have htk : (sys.trail.drop k).take (n + 1) =
        (sys.trail.drop k).take n ++ [sys.trail.getD (k + n) 0] := by
      rw [take_succ_getD _ n 0 hlen, hgd]
    rw [htk, List.reverse_append, List.reverse_singleton,
      List.singleton_append, List.foldl_cons]
    have h2 := sysInv_unprocess_one sys (k + n) h (by omega) (by omega) hkn
    have h3 := ihn k { sys with
      prop := unprocessLiteral sys.prop (sys.trail.getD (k + n) 0)
      pti := k + n } h2 rfl hzb
    exact h3

/-- Cutting the trail back to a prefix that covers both the level-zero
boundary and the propagation index preserves the invariant. -/
theorem sysInv_truncate (sys : SysState) (k : Nat) (h : SysInv sys)
    (hzk : sys.zb ≤ k) (hpk : sys.pti ≤ k) (hkl : k ≤ sys.trail.length) :
    SysInv { sys with trail := sys.trail.take k } := by
  have hlen : (sys.trail.take k).length = k := by
    rw [List.length_take]
    omega
  have htp : ∀ m, m ≤ k → (sys.trail.take k).take m = sys.trail.take m := by
    intro m hm
    rw [List.take_take]
    congr 1
    omega
  refine ⟨h.hlen, ?_, ?_, ?_, ?_, h.hpnd, h.hlit, h.hlitnd, ?_, ?_⟩
  · rw [hlen]
    exact hzk
  · rw [hlen]
    exact hpk
  · exact h.hnd.sublist (List.take_sublist k sys.trail)
  · intro l hl
    have hlt : l ∈ sys.trail := List.mem_of_mem_take hl
    rcases h.hcomp l hlt with ⟨hnz, hneg⟩
    exact ⟨hnz, fun hc => hneg (List.mem_of_mem_take hc)⟩
  · intro idx hidx
    rw [htp sys.pti hpk]
    exact h.hcnt idx hidx
  · intro v
    obtain ⟨F, hFG, hFiff⟩ := h.himp v
    refine ⟨F, ?_, ?_⟩
    · rw [hFG]
      congr 1
      symm
      apply gList_congr_trail _ _ _ _ _ _ sys.pti _ (Nat.le_refl _)
      exact htp sys.pti hpk
    · intro idx
      rw [htp (min sys.zb sys.pti) (by omega)]
      exact hFiff idx

/-- Untrail preserves the invariant. -/
theorem sysInv_untrail (sys : SysState) (k : Nat) (h : SysInv sys)
    (hzk : sys.zb ≤ k) (hkl : k ≤ sys.trail.length) :
    SysInv (untrailSys sys k) := by
  rcases Nat.le_total sys.pti k with hle | hge
  · have htk : (sys.trail.drop k).take (sys.pti - k) = [] := by
      rw [Nat.sub_eq_zero_of_le hle]
      exact List.take_zero _
    rw [untrailSys, htk]
    simp only [List.reverse_nil, List.foldl_nil]
    have hmin : min sys.pti k = sys.pti := min_eq_left hle
    rw [hmin]
    exact sysInv_truncate sys k h hzk hle hkl
  · have haux := sysInv_untrail_aux (sys.pti - k) k sys h (by omega) hzk
    have htr := sysInv_truncate { sys with
      prop := ((sys.trail.drop k).take (sys.pti - k)).reverse.foldl
        unprocessLiteral sys.prop
      pti := k } k haux hzk (Nat.le_refl k) hkl
    have hmin : min sys.pti k = k := min_eq_right hge
    rw [untrailSys, hmin]
    exact htr

/-- Pushing a fresh consistent literal onto the trail (a decision or a
propagation above the processed prefix) preserves the invariant. -/
theorem sysInv_pushDecision (sys : SysState) (l : BLit) (h : SysInv sys)
    (hnz : l ≠ 0) (hno : l ∉ sys.trail) (hnneg : -l ∉ sys.trail) :
    SysInv { sys with trail := sys.trail ++ [l] } := by
  have hndnew : (sys.trail ++ [l]).Nodup := by
    simp [List.nodup_append, h.hnd, hno]
  have hcompnew : ∀ x ∈ sys.trail ++ [l], x ≠ 0 ∧ -x ∉ sys.trail ++ [l] := by
    intro x hx
    rcases List.mem_append.mp hx with hx1 | hx2
    · rcases h.hcomp x hx1 with ⟨hxnz, hxneg⟩
      refine ⟨hxnz, ?_⟩
      intro hc
      rcases List.mem_append.mp hc with hc1 | hc2
      · exact hxneg hc1
      · have hxl : -x = l := List.mem_singleton.mp hc2
        have : -l ∈ sys.trail := by
          rw [← hxl]
          simpa using hx1
        exact hnneg this
    · have hxl : x = l := List.mem_singleton.mp hx2
      subst hxl
      refine ⟨hnz, ?_⟩
      intro hc
      rcases List.mem_append.mp hc with hc1 | hc2
      · exact hnneg hc1
      · have : -x = x := List.mem_singleton.mp hc2
        have hx0 : x = 0 := by linarith
        exact hnz hx0
  have htp : (sys.trail ++ [l]).take sys.pti = sys.trail.take sys.pti :=
    List.take_append_of_le_length h.hpti
  refine ⟨h.hlen, ?_, ?_, hndnew, hcompnew, h.hpnd, h.hlit, h.hlitnd, ?_, ?_⟩
  · rw [List.length_append]
    have := h.hzb
    simp
    omega
  · rw [List.length_append]
    have := h.hpti
    simp
    omega
  · intro idx hidx
    rw [htp]
    exact h.hcnt idx hidx
  · intro v
    obtain ⟨F, hFG, hFiff⟩ := h.himp v
    refine ⟨F, ?_, ?_⟩
    · rw [hFG]
      congr 1
      symm
      apply gList_congr_trail _ _ _ _ _ _ sys.pti _ (Nat.le_refl _)
      exact htp
    · intro idx
      have htm : (sys.trail ++ [l]).take (min sys.zb sys.pti) =
          sys.trail.take (min sys.zb sys.pti) :=
        List.take_append_of_le_length (by
          have := h.hpti
          have := min_le_right sys.zb sys.pti
          omega)
      rw [htm]
      exact hFiff idx

/-- Pushing a fresh literal at level zero (advancing the level-zero
boundary with it) preserves the invariant. -/
theorem sysInv_pushZero (sys : SysState) (l : BLit) (h : SysInv sys)
    (hnz : l ≠ 0) (hno : l ∉ sys.trail) (hnneg : -l ∉ sys.trail)
    (hzb : sys.zb = sys.trail.length) :
    SysInv { sys with trail := sys.trail ++ [l], zb := sys.zb + 1 } := by
  have hbase := sysInv_pushDecision sys l h hnz hno hnneg
  have hpz : sys.pti ≤ sys.zb := by
    have := h.hpti
    omega
  refine ⟨hbase.hlen, ?_, hbase.hpti, hbase.hnd, hbase.hcomp, hbase.hpnd,
    hbase.hlit, hbase.hlitnd, hbase.hcnt, ?_⟩
  · show sys.zb + 1 ≤ (sys.trail ++ [l]).length
    rw [List.length_append]
    simp
    omega
  · intro v
    obtain ⟨F, hFG, hFiff⟩ := hbase.himp v
    refine ⟨F, ?_, ?_⟩
    · rw [hFG, gList_empty _ _ _ _ _ _ hpz,
        gList_empty _ _ _ _ _ _ (by omega : sys.pti ≤ sys.zb + 1)]
    · intro idx
      have hm1 : min sys.zb sys.pti = sys.pti := by omega
      have hm2 : min (sys.zb + 1) sys.pti = sys.pti := by omega
      rw [hm2]
      have hxf := hFiff idx
      rw [hm1] at hxf
      exact hxf

/-- Arc lookup past the end yields the default. -/
theorem arcAtL_ge (arcs : List ArcInfo) (idx : Nat)
    (h : arcs.length ≤ idx) : arcAtL arcs idx = arcDefault := by
  rw [arcAtL, List.get?_eq_none.mpr h]
  rfl

/-- Explicit form of one level-zero `to_add` iteration. -/
theorem addInternalArc_level0_eq (env : TrailEnv) (off : Int)
    (enf : List BLit) (st : PropState) (tv hv : IVar) (ov : Option IVar)
    (hlev : env.level = 0) :
    addInternalArc env off enf st (tv, hv, ov) =
      some { st with
        modifiedVars := fun v => if v = tv then true else st.modifiedVars v
        arcs := st.arcs ++ [ArcInfo.mk tv hv off ov
          (if env.isOptionalVar hv then
            enf.erase (-(env.ignoredLit hv)) else enf)]
        litToNewImpactedArcs :=
          if (if env.isOptionalVar hv then
              enf.erase (-(env.ignoredLit hv)) else enf) = [] then
            st.litToNewImpactedArcs
          else
            (if env.isOptionalVar hv then
              enf.erase (-(env.ignoredLit hv)) else enf).foldl
              (fun f l => pushLitAt f l st.arcs.length)
              st.litToNewImpactedArcs
        impactedArcs :=
          if (if env.isOptionalVar hv then
              enf.erase (-(env.ignoredLit hv)) else enf) = [] then
            pushAt st.impactedArcs tv st.arcs.length
          else st.impactedArcs
        arcCounts := st.arcCounts ++
          [(((if env.isOptionalVar hv then
            enf.erase (-(env.ignoredLit hv)) else enf).length : Nat) : Int)] } := by
  unfold addInternalArc
  rw [if_pos hlev]
  dsimp only
  split <;> split <;> rfl

/-- Appending one internal arc at decision level zero (fresh presence
literals, processed prefix inside the level-zero boundary) preserves the
invariant. -/
theorem sysInv_addArcRecord (sys : SysState) (tv hv : IVar) (ov : Option IVar)
    (off : Int) (P2 : List BLit) (mv : IVar → Bool)
    (h : SysInv sys) (hpz : sys.pti ≤ sys.zb)
    (hPnd : P2.Nodup) (hPtrail : ∀ l ∈ P2, l ∉ sys.trail) :
    SysInv { sys with prop := { sys.prop with
      modifiedVars := mv
      arcs := sys.prop.arcs ++ [ArcInfo.mk tv hv off ov P2]
      litToNewImpactedArcs :=
        if P2 = [] then sys.prop.litToNewImpactedArcs
        else P2.foldl (fun f l => pushLitAt f l sys.prop.arcs.length)
          sys.prop.litToNewImpactedArcs
      impactedArcs :=
        if P2 = [] then pushAt sys.prop.impactedArcs tv sys.prop.arcs.length
        else sys.prop.impactedArcs
      arcCounts := sys.prop.arcCounts ++ [((P2.length : Nat) : Int)] } } := by
  have hcl : sys.prop.arcCounts.length = sys.prop.arcs.length := h.hlen
  have hlt : ∀ idx, idx < sys.prop.arcs.length →
      arcAtL (sys.prop.arcs ++ [ArcInfo.mk tv hv off ov P2]) idx =
        arcAtL sys.prop.arcs idx :=
    fun idx hidx => arcAtL_append_left _ _ idx hidx
  have hat : arcAtL (sys.prop.arcs ++ [ArcInfo.mk tv hv off ov P2])
      sys.prop.arcs.length = ArcInfo.mk tv hv off ov P2 :=
    arcAtL_concat_self _ _
  have hlen2 : (sys.prop.arcs ++ [ArcInfo.mk tv hv off ov P2]).length =
      sys.prop.arcs.length + 1 := by simp
  have hgc_lt : ∀ idx, idx < sys.prop.arcs.length →
      ((sys.prop.arcCounts ++ [((P2.length : Nat) : Int)]).get? idx).getD 0 =
      getCount sys.prop idx := by
    intro idx hidx
    rw [List.get?_append (by omega)]
    rfl
  have hgc_n : ((sys.prop.arcCounts ++
      [((P2.length : Nat) : Int)]).get? sys.prop.arcs.length).getD 0 =
      ((P2.length : Nat) : Int) := by
    rw [← hcl, List.get?_concat_length]
    rfl
  have hfresh : ∀ l, sys.prop.arcs.length ∉
      sys.prop.litToNewImpactedArcs l := by
    intro l hc
    have := ((h.hlit l _).mp hc).1
    omega
  have hnotake : ∀ a ∈ P2, a ∉ sys.trail.take sys.pti :=
    fun a ha hc => hPtrail a ha (List.mem_of_mem_take hc)
  have hGe : ∀ (arcs2 : List ArcInfo) (ltn2 : BLit → List Nat) (v : IVar),
      gList arcs2 ltn2 sys.trail sys.zb sys.pti v = [] :=
    fun arcs2 ltn2 v => gList_empty _ _ _ _ _ _ hpz
  refine ⟨?_, h.hzb, h.hpti, h.hnd, h.hcomp, ?_, ?_, ?_, ?_, ?_⟩
  · show (sys.prop.arcCounts ++ [((P2.length : Nat) : Int)]).length =
      (sys.prop.arcs ++ [ArcInfo.mk tv hv off ov P2]).length
    simp [hcl]
  · intro idx
    show (arcAtL (sys.prop.arcs ++ [ArcInfo.mk tv hv off ov P2])
      idx).presenceLiterals.Nodup
    rcases Nat.lt_trichotomy idx sys.prop.arcs.length with hc | hc | hc
    · rw [hlt idx hc]
      exact h.hpnd idx
    · rw [hc, hat]
      exact hPnd
    · rw [arcAtL_ge _ idx (by omega)]
      exact List.nodup_nil
  · intro l idx
    show idx ∈ (if P2 = [] then sys.prop.litToNewImpactedArcs
        else P2.foldl (fun f x => pushLitAt f x sys.prop.arcs.length)
          sys.prop.litToNewImpactedArcs) l ↔ _
    by_cases hPe : P2 = []
    · rw [if_pos hPe]
      constructor
      · intro hin
        obtain ⟨h1, h2⟩ := (h.hlit l idx).mp hin
        rw [hlen2]
        exact ⟨by omega, by rw [hlt idx h1]; exact h2⟩
      · rintro ⟨h1, h2⟩
        rw [hlen2] at h1
        by_cases hc : idx < sys.prop.arcs.length
        · rw [hlt idx hc] at h2
          exact (h.hlit l idx).mpr ⟨hc, h2⟩
        · have hceq : idx = sys.prop.arcs.length := by omega
          rw [hceq, hat] at h2
          rw [hPe] at h2
          cases h2
    · rw [if_neg hPe, foldl_pushLitAt P2 _ _ hPnd l]
      constructor
      · intro hin
        rcases List.mem_append.mp hin with hold | hnew
        · obtain ⟨h1, h2⟩ := (h.hlit l idx).mp hold
          rw [hlen2]
          exact ⟨by omega, by rw [hlt idx h1]; exact h2⟩
        · by_cases hlP : l ∈ P2
          · rw [if_pos hlP] at hnew
            have hceq : idx = sys.prop.arcs.length :=
              List.mem_singleton.mp hnew
            rw [hceq, hat, hlen2]
            exact ⟨by omega, hlP⟩
          · rw [if_neg hlP] at hnew
            cases hnew
      · rintro ⟨h1, h2⟩
        rw [hlen2] at h1
        by_cases hc : idx < sys.prop.arcs.length
        · rw [hlt idx hc] at h2
          exact List.mem_append_left _ ((h.hlit l idx).mpr ⟨hc, h2⟩)
        · have hceq : idx = sys.prop.arcs.length := by omega
          rw [hceq, hat] at h2
          apply List.mem_append_right
          rw [if_pos h2, hceq]
          exact List.mem_singleton.mpr rfl
  · intro l
    show ((if P2 = [] then sys.prop.litToNewImpactedArcs
        else P2.foldl (fun f x => pushLitAt f x sys.prop.arcs.length)
          sys.prop.litToNewImpactedArcs) l).Nodup
    by_cases hPe : P2 = []
    · rw [if_pos hPe]
      exact h.hlitnd l
    · rw [if_neg hPe, foldl_pushLitAt P2 _ _ hPnd l]
      by_cases hlP : l ∈ P2
      · rw [if_pos hlP]
        rw [List.nodup_append]
        refine ⟨h.hlitnd l, List.nodup_singleton _, ?_⟩
        intro x hx hx2
        have hxeq : x = sys.prop.arcs.length := List.mem_singleton.mp hx2
        rw [hxeq] at hx
        exact hfresh l hx
      · rw [if_neg hlP]
        simpa using h.hlitnd l
  · intro idx hidx
    show ((sys.prop.arcCounts ++
      [((P2.length : Nat) : Int)]).get? idx).getD 0 = _
    rw [hlen2] at hidx
    by_cases hc : idx < sys.prop.arcs.length
    · rw [hgc_lt idx hc, hlt idx hc]
      exact h.hcnt idx hc
    · have hceq : idx = sys.prop.arcs.length := by omega
      rw [hceq, hgc_n, hat]
      have hfe : P2.filter
          (fun x => !(sys.trail.take sys.pti).contains x) = P2 := by
        apply List.filter_eq_self.mpr
        intro a ha
        have hnt := hnotake a ha
        simp [hnt]
      show ((P2.length : Nat) : Int) = _
      rw [hfe]
  · intro v
    obtain ⟨F, hFG, hFiff⟩ := h.himp v
    rw [gList_empty _ _ _ _ _ _ hpz, List.append_nil] at hFG
    by_cases hPe : P2 = []
    · by_cases hveq : v = tv
      · refine ⟨F ++ [sys.prop.arcs.length], ?_, ?_⟩
        · show (if P2 = [] then pushAt sys.prop.impactedArcs tv
              sys.prop.arcs.length else sys.prop.impactedArcs) v = _
          rw [if_pos hPe, hGe, List.append_nil]
          simp only [pushAt]
          rw [if_pos hveq, ← hFG, hveq]
        · intro idx
          constructor
          · intro hin
            rcases List.mem_append.mp hin with hold | hnew
            · obtain ⟨h1, h2, h3⟩ := (hFiff idx).mp hold
              rw [hlen2]
              refine ⟨by omega, by rw [hlt idx h1]; exact h2, ?_⟩
              rw [hlt idx h1]
              exact h3
            · have hceq : idx = sys.prop.arcs.length :=
                List.mem_singleton.mp hnew
              rw [hceq, hat, hlen2]
              refine ⟨by omega, hveq.symm, ?_⟩
              rw [hPe]
              intro l hl
              cases hl
          · rintro ⟨h1, h2, h3⟩
            rw [hlen2] at h1
            by_cases hc : idx < sys.prop.arcs.length
            · rw [hlt idx hc] at h2 h3
              exact List.mem_append_left _ ((hFiff idx).mpr ⟨hc, h2, h3⟩)
            · have hceq : idx = sys.prop.arcs.length := by omega
              rw [hceq]
              exact List.mem_append_right _ (List.mem_singleton.mpr rfl)
      · refine ⟨F, ?_, ?_⟩
        · show (if P2 = [] then pushAt sys.prop.impactedArcs tv
              sys.prop.arcs.length else sys.prop.impactedArcs) v = _
          rw [if_pos hPe, hGe, List.append_nil]
          simp only [pushAt]
          rw [if_neg hveq, ← hFG]
        · intro idx
          constructor
          · intro hin
            obtain ⟨h1, h2, h3⟩ := (hFiff idx).mp hin
            rw [hlen2]
            refine ⟨by omega, by rw [hlt idx h1]; exact h2, ?_⟩
            rw [hlt idx h1]
            exact h3
          · rintro ⟨h1, h2, h3⟩
            rw [hlen2] at h1
            by_cases hc : idx < sys.prop.arcs.length
            · rw [hlt idx hc] at h2 h3
              exact (hFiff idx).mpr ⟨hc, h2, h3⟩
            · have hceq : idx = sys.prop.arcs.length := by omega
              rw [hceq, hat] at h2
              exact absurd h2.symm hveq
    · refine ⟨F, ?_, ?_⟩
      · show (if P2 = [] then pushAt sys.prop.impactedArcs tv
            sys.prop.arcs.length else sys.prop.impactedArcs) v = _
        rw [if_neg hPe, hGe, List.append_nil, ← hFG]
      · intro idx
        constructor
        · intro hin
          obtain ⟨h1, h2, h3⟩ := (hFiff idx).mp hin
          rw [hlen2]
          refine ⟨by omega, by rw [hlt idx h1]; exact h2, ?_⟩
          rw [hlt idx h1]
          exact h3
        · rintro ⟨h1, h2, h3⟩
          rw [hlen2] at h1
          by_cases hc : idx < sys.prop.arcs.length
          · rw [hlt idx hc] at h2 h3
            exact (hFiff idx).mpr ⟨hc, h2, h3⟩
          · have hceq : idx = sys.prop.arcs.length := by omega
            rw [hceq, hat] at h3
            obtain ⟨l0, hl0⟩ := List.exists_mem_of_ne_nil P2 hPe
            have hl0t := h3 l0 hl0
            have : l0 ∈ sys.trail.take sys.pti :=
              mem_take_mono _ _ _ l0 (min_le_right _ _) hl0t
            exact absurd this (hnotake l0 hl0)

/-- One `to_add` iteration at level zero preserves the invariant. -/
theorem sysInv_addInternalArc (env : TrailEnv) (off : Int) (enf : List BLit)
    (sys : SysState) (tv hv : IVar) (ov : Option IVar)
    (h : SysInv sys) (hpz : sys.pti ≤ sys.zb) (hlev : env.level = 0)
    (henfnd : enf.Nodup) (henft : ∀ l ∈ enf, l ∉ sys.trail) :
    ∃ p2, addInternalArc env off enf sys.prop (tv, hv, ov) = some p2 ∧
      SysInv { sys with prop := p2 } := by
  refine ⟨_, addInternalArc_level0_eq env off enf sys.prop tv hv ov hlev, ?_⟩
  have hPnd : (if env.isOptionalVar hv then
      enf.erase (-(env.ignoredLit hv)) else enf).Nodup := by
    by_cases hopt : env.isOptionalVar hv
    · rw [if_pos hopt]
      exact henfnd.erase _
    · rw [if_neg hopt]
      exact henfnd
  have hPtr : ∀ l ∈ (if env.isOptionalVar hv then
      enf.erase (-(env.ignoredLit hv)) else enf), l ∉ sys.trail := by
    intro l hl
    apply henft
    by_cases hopt : env.isOptionalVar hv
    · rw [if_pos hopt] at hl
      exact List.mem_of_mem_erase hl
    · rw [if_neg hopt] at hl
      exact hl
  exact sysInv_addArcRecord sys tv hv ov off _
    (fun v => if v = tv then true else sys.prop.modifiedVars v) h hpz hPnd hPtr

/-- The whole `to_add` loop at level zero preserves the invariant. -/
theorem sysInv_foldlM_addInternal (env : TrailEnv) (off : Int)
    (enf : List BLit) (hlev : env.level = 0) (henfnd : enf.Nodup) :
    ∀ (as : List (IVar × IVar × Option IVar)) (sys : SysState), SysInv sys →
    sys.pti ≤ sys.zb → (∀ l ∈ enf, l ∉ sys.trail) →
    ∃ p2, as.foldlM (addInternalArc env off enf) sys.prop = some p2 ∧
      SysInv { sys with prop := p2 } := by
  intro as
  induction as with
  | nil =>
    intro sys h _ _
    exact ⟨sys.prop, rfl, h⟩
  | cons a as ih =>
    intro sys h hpz henft
    obtain ⟨tv, hv, ov⟩ := a
    obtain ⟨p1, hp1, hinv1⟩ :=
      sysInv_addInternalArc env off enf sys tv hv ov h hpz hlev henfnd henft
    obtain ⟨p2, hp2, hinv2⟩ := ih { sys with prop := p1 } hinv1 hpz henft
    refine ⟨p2, ?_, hinv2⟩
    rw [List.foldlM_cons, hp1]
    simpa using hp2

/-- The invariant only depends on four propagator fields. -/
theorem sysInv_of_fields (sys : SysState) (p2 : PropState) (h : SysInv sys)
    (h1 : p2.arcs = sys.prop.arcs) (h2 : p2.arcCounts = sys.prop.arcCounts)
    (h3 : p2.litToNewImpactedArcs = sys.prop.litToNewImpactedArcs)
    (h4 : p2.impactedArcs = sys.prop.impactedArcs) :
    SysInv { sys with prop := p2 } := by
  refine ⟨?_, h.hzb, h.hpti, h.hnd, h.hcomp, ?_, ?_, ?_, ?_, ?_⟩
  · show p2.arcCounts.length = p2.arcs.length
    rw [h1, h2]
    exact h.hlen
  · intro idx
    show (arcAtL p2.arcs idx).presenceLiterals.Nodup
    rw [h1]
    exact h.hpnd idx
  · intro l idx
    show idx ∈ p2.litToNewImpactedArcs l ↔ _
    rw [h1, h3]
    exact h.hlit l idx
  · intro l
    show (p2.litToNewImpactedArcs l).Nodup
    rw [h3]
    exact h.hlitnd l
  · intro idx hidx
    have hidx2 : idx < sys.prop.arcs.length := by
      rw [← h1]
      exact hidx
    show getCount p2 idx = ((List.filter
      (fun l => !(sys.trail.take sys.pti).contains l)
      (arcAtL p2.arcs idx).presenceLiterals).length : Int)
    rw [h1]
    have hgc : getCount p2 idx = getCount sys.prop idx := by
      simp [getCount, h2]
    rw [hgc]
    exact h.hcnt idx hidx2
  · intro v
    obtain ⟨F, hFG, hFiff⟩ := h.himp v
    refine ⟨F, ?_, ?_⟩
    · show p2.impactedArcs v = _
      rw [h4, h1, h3]
      exact hFG
    · intro idx
      rw [h1]
      exact hFiff idx

/-- AdjustSizeFor only changes the node count. -/
theorem adjustSizeFor_fields (st : PropState) (i : IVar) :
    (adjustSizeFor st i).arcs = st.arcs ∧
    (adjustSizeFor st i).arcCounts = st.arcCounts ∧
    (adjustSizeFor st i).litToNewImpactedArcs = st.litToNewImpactedArcs ∧
    (adjustSizeFor st i).impactedArcs = st.impactedArcs := by
  simp only [adjustSizeFor]
  split <;> exact ⟨rfl, rfl, rfl, rfl⟩

/-- Potential-arc registration does not touch the active-arc fields. -/
theorem addArcPotential_fields (st : PropState) (tail head : IVar)
    (offset : Int) (offsetVar : Option IVar) (enf : List BLit) :
    (addArcPotential st tail head offset offsetVar enf).arcs = st.arcs ∧
    (addArcPotential st tail head offset offsetVar enf).arcCounts =
      st.arcCounts ∧
    (addArcPotential st tail head offset offsetVar enf).litToNewImpactedArcs =
      st.litToNewImpactedArcs ∧
    (addArcPotential st tail head offset offsetVar enf).impactedArcs =
      st.impactedArcs := by
  simp only [addArcPotential]
  split <;> exact ⟨rfl, rfl, rfl, rfl⟩

/-- AddArc at decision level zero preserves the invariant. -/
theorem sysInv_addArc (env : TrailEnv) (sys : SysState) (tv hd : IVar)
    (off : Int) (ov : Option IVar) (P : List BLit) (p2 : PropState)
    (h : SysInv sys) (hpz : sys.pti ≤ sys.zb) (hlev : env.level = 0)
    (hatoms : env.atoms = trailAtoms sys.trail)
    (hres : addArc env sys.prop tv hd off ov P = some p2) :
    SysInv { sys with prop := p2 } := by
  have henfnd : ((enforcementLiterals env tv hd ov P).filter
      (fun l => !litIsTrue env.atoms l)).Nodup :=
    (enforcementLiterals_nodup env tv hd ov P).filter _
  have henft : ∀ l ∈ (enforcementLiterals env tv hd ov P).filter
      (fun l => !litIsTrue env.atoms l), l ∉ sys.trail := by
    intro l hl hmem
    rcases List.mem_filter.mp hl with ⟨_, hnt⟩
    have htrue := litIsTrue_of_mem_trail sys.trail l h.hcomp hmem
    rw [← hatoms] at htrue
    rw [htrue] at hnt
    cases hnt
  have hbase : ∀ (stB : PropState) (off2 : Int) (ov2 : Option IVar),
      stB.arcs = sys.prop.arcs → stB.arcCounts = sys.prop.arcCounts →
      stB.litToNewImpactedArcs = sys.prop.litToNewImpactedArcs →
      stB.impactedArcs = sys.prop.impactedArcs →
      ∀ p3, (internalArcList tv hd ov2).foldlM
        (addInternalArc env off2 ((enforcementLiterals env tv hd ov P).filter
          (fun l => !litIsTrue env.atoms l)))
        (addArcPotential stB tv hd off2 ov2
          ((enforcementLiterals env tv hd ov P).filter
            (fun l => !litIsTrue env.atoms l))) = some p3 →
      SysInv { sys with prop := p3 } := by
    intro stB off2 ov2 e1 e2 e3 e4 p3 hfold
    obtain ⟨q1, q2, q3, q4⟩ := addArcPotential_fields stB tv hd off2 ov2
      ((enforcementLiterals env tv hd ov P).filter
        (fun l => !litIsTrue env.atoms l))
    have hpotinv := sysInv_of_fields sys _ h (q1.trans e1) (q2.trans e2)
      (q3.trans e3) (q4.trans e4)
    obtain ⟨p4, hf2, hinv⟩ := sysInv_foldlM_addInternal env off2
      ((enforcementLiterals env tv hd ov P).filter
        (fun l => !litIsTrue env.atoms l)) hlev henfnd
      (internalArcList tv hd ov2) _ hpotinv hpz henft
    rw [hf2] at hfold
    injection hfold with hfold
    subst hfold
    exact hinv
  obtain ⟨a1, a2, a3, a4⟩ := adjustSizeFor_fields sys.prop tv
  obtain ⟨b1, b2, b3, b4⟩ :=
    adjustSizeFor_fields (adjustSizeFor sys.prop tv) hd
  cases ov with
  | none =>
    simp only [addArc] at hres
    split at hres
    · injection hres with hres
      subst hres
      exact sysInv_of_fields sys _ h (b1.trans a1) (b2.trans a2)
        (b3.trans a3) (b4.trans a4)
    · exact hbase _ _ _ (b1.trans a1) (b2.trans a2) (b3.trans a3)
        (b4.trans a4) p2 hres
  | some w =>
    obtain ⟨c1, c2, c3, c4⟩ := adjustSizeFor_fields
      (adjustSizeFor (adjustSizeFor sys.prop tv) hd) w
    simp only [addArc] at hres
    split at hres
    · injection hres with hres
      subst hres
      exact sysInv_of_fields sys _ h (c1.trans (b1.trans a1))
        (c2.trans (b2.trans a2)) (c3.trans (b3.trans a3))
        (c4.trans (b4.trans a4))
    · by_cases hw : env.levelZeroLb w = env.levelZeroUb w
      · simp only [if_pos hw] at hres
        exact hbase _ _ _ (c1.trans (b1.trans a1)) (c2.trans (b2.trans a2))
          (c3.trans (b3.trans a3)) (c4.trans (b4.trans a4)) p2 hres
      · simp only [if_neg hw] at hres
        exact hbase _ _ _ (c1.trans (b1.trans a1)) (c2.trans (b2.trans a2))
          (c3.trans (b3.trans a3)) (c4.trans (b4.trans a4)) p2 hres

/-- Every system step taken under the level-zero AddArc discipline
preserves the invariant. -/
theorem sysInv_step (senv : StaticEnv) (sys sys2 : SysState) (e : SysEvent)
    (h : SysInv sys)
    (hok : (match e with
      | SysEvent.addArcEvent _ _ _ _ _ => sys.zb = sys.trail.length
      | _ => True))
    (hstep : sysStep senv sys e = some sys2) :
    SysInv sys2 := by
  cases e with
  | pushZero l =>
    simp only [sysStep] at hstep
    split at hstep
    · injection hstep with hstep
      subst hstep
      rename_i hc
      obtain ⟨h1, h2, h3, h4⟩ := hc
      exact sysInv_pushZero sys l h h1 (by simpa using h2)
        (by simpa using h3) h4
    · cases hstep
  | pushDecision l =>
    simp only [sysStep] at hstep
    split at hstep
    · injection hstep with hstep
      subst hstep
      rename_i hc
      obtain ⟨h1, h2, h3⟩ := hc
      exact sysInv_pushDecision sys l h h1 (by simpa using h2)
        (by simpa using h3)
    · cases hstep
  | propagate =>
    simp only [sysStep] at hstep
    injection hstep with hstep
    subst hstep
    exact sysInv_propagate sys h
  | untrail k =>
    simp only [sysStep] at hstep
    split at hstep
    · injection hstep with hstep
      subst hstep
      rename_i hc
      exact sysInv_untrail sys k h hc.1 hc.2
    · cases hstep
  | addArcEvent t hd off ov P =>
    simp only [sysStep] at hstep
    rw [Option.map_eq_some'] at hstep
    obtain ⟨p2, hadd, heq⟩ := hstep
    subst heq
    have hok2 : sys.zb = sys.trail.length := hok
    have hlev : (mkEnv senv sys).level = 0 := by
      simp [mkEnv, hok2]
    have hpz : sys.pti ≤ sys.zb := by
      have := h.hpti
      omega
    exact sysInv_addArc (mkEnv senv sys) sys t hd off ov P p2 h hpz hlev
      rfl hadd

/-- The invariant holds along every run whose AddArc events all fire at
decision level zero. -/
theorem sysInv_run (senv : StaticEnv) : ∀ (evs : List SysEvent)
    (sys s2 : SysState), SysInv sys → addsAtLevelZero senv sys evs →
    evs.foldlM (sysStep senv) sys = some s2 → SysInv s2 := by
  intro evs
  induction evs with
  | nil =>
    intro sys s2 h _ hrun
    simp only [List.foldlM_nil] at hrun
    injection hrun with hrun
    subst hrun
    exact h
  | cons e evs ih =>
    intro sys s2 h hadds hrun
    rw [List.foldlM_cons] at hrun
    obtain ⟨hok, hcont⟩ := hadds
    cases hstep : sysStep senv sys e with
    | none =>
      rw [hstep] at hrun
      simp at hrun
    | some s1 =>
      rw [hstep] at hrun
      simp only [Option.bind_eq_bind, Option.some_bind] at hrun
      rw [hstep] at hcont
      exact ih s1 s2 (sysInv_step senv sys s1 e h hok hstep) hcont hrun

/-- The invariant holds initially. -/
theorem sysInv_init : SysInv sysInit := by
  refine ⟨rfl, Nat.le_refl 0, Nat.le_refl 0, List.nodup_nil, ?_, ?_, ?_,
    ?_, ?_, ?_⟩
  · intro l hl
    cases hl
  · intro idx
    show (arcAtL ([] : List ArcInfo) idx).presenceLiterals.Nodup
    rw [arcAtL_ge ([] : List ArcInfo) idx (Nat.zero_le idx)]
    exact List.nodup_nil
  · intro l idx
    simp [sysInit, stEmptyProp]
  · intro l
    exact List.nodup_nil
  · intro idx hidx
    cases hidx
  · intro v
    refine ⟨[], rfl, ?_⟩
    intro idx
    simp [sysInit, stEmptyProp]

/-- **C2** (amended): along every run of the count/impacted system in
which each AddArc call happens at decision level zero, the invariant
claimed by the spec holds: `arc_counts_[a] == 0` exactly when arc `a` sits
in `impacted_arcs_[arcs_[a].tail_var]`.  (Without the level-zero
discipline the equivalence can break, as the companion counterexample
shows: Untrail pops the entry of a different arc.) -/
theorem C2_count_impacted_level_zero_adds (senv : StaticEnv)
    (evs : List SysEvent) (s : SysState)
    (hrun : sysRun senv evs = some s)
    (hadds : addsAtLevelZero senv sysInit evs) :
    arcActiveIff s.prop :=
  sysInv_arcActiveIff s (sysInv_run senv evs sysInit s sysInv_init hadds hrun)

/-- Witness: the level-zero variant of the counterexample scenario, run
to its final state, satisfies the equivalence. -/
theorem C2_count_impacted_level_zero_adds_witness :
    arcActiveIff ((sysRun senvC2 evsC2w).getD sysInit).prop :=
  C2_count_impacted_level_zero_adds senvC2 evsC2w
    ((sysRun senvC2 evsC2w).getD sysInit) rfl
    ⟨rfl, rfl, trivial, trivial, trivial, trivial⟩

/-! ### Lemmas for PrecedenceRelations::Build (claim C3) -/

/-- Double negation of an IntegerVariable index. -/
theorem negationOf_negationOf (v : IVar) : negationOf (negationOf v) = v := by
  simp [negationOf, Nat.xor_assoc]

/-- With only nonnegative arc offsets, every path weight is
nonnegative. -/
theorem hasPath_nonneg (arcs : List RelArc)
    (hpos : ∀ a ∈ arcs, 0 ≤ a.offset) :
    ∀ {x y : IVar} {w : Int}, HasPath arcs x y w → 0 ≤ w := by
  intro x y w hp
  induction hp with
  | single ha => exact hpos _ ha
  | snoc hp ha ih => have := hpos _ ha; omega

/-- Prepending an arc to a path. -/
theorem hasPath_cons (arcs : List RelArc) :
    ∀ {x y : IVar} {w : Int}, HasPath arcs x y w →
    ∀ (a : RelArc), a ∈ arcs → a.head = x →
      HasPath arcs a.tail y (a.offset + w) := by
  intro x y w hp
  induction hp with
  | single hb =>
    intro a ha hh
    have h1 : HasPath arcs a.tail _ a.offset := HasPath.single ha
    rw [hh] at h1
    exact HasPath.snoc h1 hb
  | snoc hp hb ih =>
    intro a ha hh
    have h1 := HasPath.snoc (ih a ha hh) hb
    rw [Int.add_assoc] at h1
    exact h1

/-- In a mirror-closed arc list, every path has a mirror path of the same
weight. -/
theorem hasPath_mirror (arcs : List RelArc)
    (hmir : ∀ a ∈ arcs,
      (⟨negationOf a.head, negationOf a.tail, a.offset⟩ : RelArc) ∈ arcs) :
    ∀ {x y : IVar} {w : Int}, HasPath arcs x y w →
      HasPath arcs (negationOf y) (negationOf x) w := by
  intro x y w hp
  induction hp with
  | single ha => exact HasPath.single (hmir _ ha)
  | @snoc x2 w2 a hp ha ih =>
    have hc := hasPath_cons arcs ih
      ⟨negationOf a.head, negationOf a.tail, a.offset⟩ (hmir _ ha) rfl
    rw [Int.add_comm] at hc
    exact hc

/-- A prefix-restricted path is a path. -/
theorem pathIn_toHasPath (arcs : List RelArc) (done : List IVar) :
    ∀ {x y : IVar} {w : Int}, PathIn arcs done x y w → HasPath arcs x y w := by
  intro x y w hp
  induction hp with
  | single ha _ => exact HasPath.single ha
  | snoc hp ha _ ih => exact HasPath.snoc ih ha

/-- Prefix-restricted paths are monotone in the prefix. -/
theorem pathIn_mono (arcs : List RelArc) (done done2 : List IVar)
    (hsub : ∀ v ∈ done, v ∈ done2) :
    ∀ {x y : IVar} {w : Int}, PathIn arcs done x y w →
      PathIn arcs done2 x y w := by
  intro x y w hp
  induction hp with
  | single ha ht => exact PathIn.single ha (hsub _ ht)
  | snoc hp ha ht ih => exact PathIn.snoc ih ha (hsub _ ht)

/-- When every arc tail lies in the order, every path is
order-restricted. -/
theorem hasPath_toPathIn (arcs : List RelArc) (order : List IVar)
    (hmem : ∀ a ∈ arcs, a.tail ∈ order) :
    ∀ {x y : IVar} {w : Int}, HasPath arcs x y w →
      PathIn arcs order x y w := by
  intro x y w hp
  induction hp with
  | single ha => exact PathIn.single ha (hmem _ ha)
  | snoc hp ha ih => exact PathIn.snoc ih ha (hmem _ ha)

/-- Updating an existing key rescales its lookup. -/
theorem relGet_relSet (m : List ((IVar × IVar) × Int)) (k : IVar × IVar)
    (v : Int) : relGet (relSet m k v) k = (relGet m k).map (fun _ => v) := by
  induction m with
  | nil => rfl
  | cons e m ih =>
    by_cases he : e.1 = k
    · simp [relGet, relSet, List.find?_cons, he]
    · have hb : (e.1 == k) = false := by simp [he]
      simp only [relGet, relSet, List.map_cons, hb, if_neg, List.find?_cons]
      rw [if_neg (by simp [he])]
      simp only [hb]
      exact ih

/-- Updating one key leaves the other lookups unchanged. -/
theorem relGet_relSet_ne (m : List ((IVar × IVar) × Int)) (k k2 : IVar × IVar)
    (v : Int) (h : k ≠ k2) : relGet (relSet m k v) k2 = relGet m k2 := by
  induction m with
  | nil => rfl
  | cons e m ih =>
    by_cases he : e.1 = k <;> by_cases he2 : e.1 = k2
    · exact absurd (he ▸ he2) h
    · have h1 : (e.1 == k) = true := by simp [he]
      have h2 : (k == k2) = false := by simp [h]
      have h3 : (e.1 == k2) = false := by simp [he2]
      simp only [relGet, relSet, List.map_cons, h1, if_true,
        List.find?_cons, h2, h3]
      exact ih
    · have h1 : (e.1 == k) = false := by simp [he]
      have h3 : (e.1 == k2) = true := by simp [he2]
      simp only [relGet, relSet, List.map_cons, h1, List.find?_cons, h3,
        Bool.false_eq_true, if_false]
    · have h1 : (e.1 == k) = false := by simp [he]
      have h3 : (e.1 == k2) = false := by simp [he2]
      simp only [relGet, relSet, List.map_cons, h1, List.find?_cons, h3,
        Bool.false_eq_true, if_false]
      exact ih

/-- Appending a fresh entry: lookup of the fresh key. -/
theorem relGet_append_self (m : List ((IVar × IVar) × Int))
    (k : IVar × IVar) (v : Int) (h : relGet m k = none) :
    relGet (m ++ [(k, v)]) k = some v := by
  have hf : m.find? (fun e => e.1 == k) = none := by
    rcases hm : m.find? (fun e => e.1 == k) with _ | e
    · exact hm
    · rw [relGet, hm] at h
      cases h
  rw [relGet, List.find?_append, hf]
  simp [List.find?_cons]

/-- Appending an entry: lookup of the other keys. -/
theorem relGet_append_ne (m : List ((IVar × IVar) × Int))
    (k k2 : IVar × IVar) (v : Int) (h : k ≠ k2) :
    relGet (m ++ [(k, v)]) k2 = relGet m k2 := by
  rw [relGet, List.find?_append, relGet]
  have h2 : ([(k, v)].find? (fun e => e.1 == k2)) = none := by
    simp [List.find?_cons, h]
  rw [h2]
  rcases hm : m.find? (fun e => e.1 == k2) with _ | e <;> simp

/-- Lookup after the Build `add` lambda. -/
theorem addRel_get (st : BuildState) (a b : IVar) (off : Int)
    (k : IVar × IVar) :
    relGet (addRel st a b off).rels k =
      (if k = (a, b) then
        some (match relGet st.rels (a, b) with
          | none => off
          | some old => max old off)
      else relGet st.rels k) := by
  rw [addRel]
  rcases hg : relGet st.rels (a, b) with _ | old
  · by_cases hk : k = (a, b)
    · subst hk
      rw [if_pos rfl]
      exact relGet_append_self _ _ _ hg
    · rw [if_neg hk]
      exact relGet_append_ne _ _ _ _ (fun h => hk h.symm)
  · by_cases hk : k = (a, b)
    · subst hk
      rw [if_pos rfl, relGet_relSet, hg]
      rfl
    · rw [if_neg hk]
      exact relGet_relSet_ne _ _ _ _ (fun h => hk h.symm)

/-- The `before` lists after the Build `add` lambda. -/
theorem addRel_before (st : BuildState) (a b : IVar) (off : Int) :
    (addRel st a b off).before =
      (if relGet st.rels (a, b) = none then pushAt st.before b a
      else st.before) := by
  rw [addRel]
  rcases hg : relGet st.rels (a, b) with _ | old
  · rw [if_pos rfl]
  · rw [if_neg (by simp)]

/-- The `add` lambda does not touch the work counter. -/
theorem addRel_work (st : BuildState) (a b : IVar) (off : Int) :
    (addRel st a b off).work = st.work := by
  rw [addRel]
  rcases relGet st.rels (a, b) with _ | old <;> rfl

/-- Map growth is reflexive. -/
theorem relsLe_refl (m : List ((IVar × IVar) × Int)) : relsLe m m :=
  fun k v h => ⟨v, h, le_refl v⟩

/-- Map growth is transitive. -/
theorem relsLe_trans {m1 m2 m3 : List ((IVar × IVar) × Int)}
    (h1 : relsLe m1 m2) (h2 : relsLe m2 m3) : relsLe m1 m3 := by
  intro k v hv
  obtain ⟨v2, hv2, hle2⟩ := h1 k v hv
  obtain ⟨v3, hv3, hle3⟩ := h2 k v2 hv2
  exact ⟨v3, hv3, le_trans hle2 hle3⟩

/-- The `add` lambda only grows the map. -/
theorem addRel_relsLe (st : BuildState) (a b : IVar) (off : Int) :
    relsLe st.rels (addRel st a b off).rels := by
  intro k v hv
  rw [addRel_get]
  by_cases hk : k = (a, b)
  · subst hk
    rw [if_pos rfl, hv]
    exact ⟨max v off, rfl, le_max_left v off⟩
  · rw [if_neg hk]
    exact ⟨v, hv, le_refl v⟩

/-- The `add` lambda preserves present keys. -/
theorem addRel_isSome (st : BuildState) (a b : IVar) (off : Int)
    (k : IVar × IVar) (h : (relGet st.rels k).isSome) :
    (relGet (addRel st a b off).rels k).isSome := by
  rcases hv : relGet st.rels k with _ | v
  · rw [hv] at h
    cases h
  · obtain ⟨v2, hv2, _⟩ := addRel_relsLe st a b off k v hv
    rw [hv2]
    rfl

/-- The `add` lambda only grows the `before` lists. -/
theorem addRel_beforeSub (st : BuildState) (a b : IVar) (off : Int) :
    beforeSub st.before (addRel st a b off).before := by
  intro t v hv
  rw [addRel_before]
  split
  · rw [pushAt]
    split
    · exact List.mem_append_left _ (by assumption ▸ hv)
    · exact hv
  · exact hv

/-- Growth, `before`-growth and work monotonicity of the before-loop. -/
theorem beforeLoop_mono (tailv : IVar) (w : Int) (headv : IVar) :
    ∀ (vs : List IVar) (st : BuildState),
    relsLe st.rels (beforeLoop tailv w headv st vs).rels ∧
    beforeSub st.before (beforeLoop tailv w headv st vs).before ∧
    st.work ≤ (beforeLoop tailv w headv st vs).work := by
  intro vs
  induction vs with
  | nil =>
    intro st
    exact ⟨relsLe_refl _, fun t v h => h, Nat.le_refl _⟩
  | cons v0 vs ih =>
    intro st
    rw [beforeLoop]
    split
    · exact ⟨relsLe_refl _, fun t v h => h, Nat.le_succ _⟩
    · dsimp only
      set st1 : BuildState := { st with work := st.work + 1 } with hst1
      set st2 := addRel (addRel st1 v0 headv
        ((relGet st1.rels (v0, tailv)).getD 0 + w))
        (negationOf headv) (negationOf v0)
        (-((relGet st1.rels (v0, tailv)).getD 0 + w)) with hst2
      obtain ⟨g1, g2, g3⟩ := ih st2
      refine ⟨?_, ?_, ?_⟩
      · exact relsLe_trans (relsLe_trans (addRel_relsLe st1 _ _ _)
          (addRel_relsLe _ _ _ _)) g1
      · intro t v hv
        exact g2 t v (addRel_beforeSub _ _ _ _ t v
          (addRel_beforeSub st1 _ _ _ t v hv))
      · have hw2 : st2.work = st.work + 1 := by
          rw [hst2, addRel_work, addRel_work]
        omega

/-- Growth, `before`-growth and work monotonicity of the arc loop. -/
theorem arcLoop_mono : ∀ (L : List RelArc) (st : BuildState),
    relsLe st.rels (arcLoop st L).rels ∧
    beforeSub st.before (arcLoop st L).before ∧
    st.work ≤ (arcLoop st L).work := by
  intro L
  induction L with
  | nil =>
    intro st
    exact ⟨relsLe_refl _, fun t v h => h, Nat.le_refl _⟩
  | cons a L ih =>
    intro st
    rw [arcLoop]
    split
    · exact ⟨relsLe_refl _, fun t v h => h, Nat.le_succ _⟩
    · dsimp only
      set st1 : BuildState := { st with work := st.work + 1 } with hst1
      set st2 := addRel (addRel st1 a.tail a.head a.offset)
        (negationOf a.head) (negationOf a.tail) (-a.offset) with hst2
      set st3 := beforeLoop a.tail a.offset a.head st2
        (st2.before a.tail) with hst3
      obtain ⟨b1, b2, b3⟩ := beforeLoop_mono a.tail a.offset a.head
        (st2.before a.tail) st2
      rw [← hst3] at b1 b2 b3
      obtain ⟨g1, g2, g3⟩ := ih st3
      refine ⟨?_, ?_, ?_⟩
      · exact relsLe_trans (relsLe_trans (relsLe_trans
          (addRel_relsLe st1 _ _ _) (addRel_relsLe _ _ _ _)) b1) g1
      · intro t v hv
        exact g2 t v (b2 t v (addRel_beforeSub _ _ _ _ t v
          (addRel_beforeSub st1 _ _ _ t v hv)))
      · have hw2 : st2.work = st.work + 1 := by
          rw [hst2, addRel_work, addRel_work]
        omega

/-- Growth, `before`-growth and work monotonicity of the tail loop. -/
theorem tailLoop_mono (arcs : List RelArc) : ∀ (order : List IVar)
    (st : BuildState),
    relsLe st.rels (tailLoop arcs st order).rels ∧
    beforeSub st.before (tailLoop arcs st order).before ∧
    st.work ≤ (tailLoop arcs st order).work := by
  intro order
  induction order with
  | nil =>
    intro st
    exact ⟨relsLe_refl _, fun t v h => h, Nat.le_refl _⟩
  | cons t order ih =>
    intro st
    rw [tailLoop]
    split
    · exact ⟨relsLe_refl _, fun t2 v h => h, Nat.le_succ _⟩
    · set st1 : BuildState := { st with work := st.work + 1 } with hst1
      set st2 := arcLoop st1 (arcs.filter (fun a => a.tail == t)) with hst2
      obtain ⟨b1, b2, b3⟩ := arcLoop_mono (arcs.filter (fun a => a.tail == t)) st1
      obtain ⟨g1, g2, g3⟩ := ih st2
      refine ⟨relsLe_trans b1 g1, ?_, ?_⟩
      · intro t2 v hv
        exact g2 t2 v (b2 t2 v hv)
      · have h1 : st.work + 1 ≤ st2.work := b3
        omega

/-- The `add` lambda preserves the soundness invariant when the new value
and its negation are both path-dominated. -/
theorem addRel_BInv (arcs : List RelArc) (st : BuildState) (a b : IVar)
    (off : Int) (h : BInv arcs st)
    (hp : ∃ w, off ≤ w ∧ HasPath arcs a b w)
    (hm : ∃ w, -off ≤ w ∧ HasPath arcs (negationOf b) (negationOf a) w) :
    BInv arcs (addRel st a b off) := by
  obtain ⟨wp, hwp, hpp⟩ := hp
  obtain ⟨wm, hwm, hpm⟩ := hm
  refine ⟨?_, ?_, ?_, ?_⟩
  · intro k v hv
    rw [addRel_get] at hv
    by_cases hk : k = (a, b)
    · subst hk
      rw [if_pos rfl] at hv
      rcases hg : relGet st.rels (a, b) with _ | old
      · rw [hg] at hv
        dsimp only at hv
        injection hv with hv
        exact ⟨wp, by omega, hpp⟩
      · rw [hg] at hv
        dsimp only at hv
        injection hv with hv
        obtain ⟨w0, hw0, hp0⟩ := h.sound1 (a, b) old hg
        rcases le_total old off with hc | hc
        · rw [← hv, max_eq_right hc]
          exact ⟨wp, hwp, hpp⟩
        · rw [← hv, max_eq_left hc]
          exact ⟨w0, hw0, hp0⟩
    · rw [if_neg hk] at hv
      exact h.sound1 k v hv
  · intro k v hv
    rw [addRel_get] at hv
    by_cases hk : k = (a, b)
    · subst hk
      rw [if_pos rfl] at hv
      rcases hg : relGet st.rels (a, b) with _ | old
      · rw [hg] at hv
        dsimp only at hv
        injection hv with hv
        exact ⟨wm, by omega, hpm⟩
      · rw [hg] at hv
        dsimp only at hv
        injection hv with hv
        obtain ⟨w0, hw0, hp0⟩ := h.sound2 (a, b) old hg
        rcases le_total old off with hc | hc
        · rw [← hv, max_eq_right hc]
          exact ⟨wm, hwm, hpm⟩
        · rw [← hv, max_eq_left hc]
          exact ⟨w0, by omega, hp0⟩
    · rw [if_neg hk] at hv
      exact h.sound2 k v hv
  · intro a2 t v hv
    rw [addRel_get] at hv
    rw [addRel_before]
    by_cases hk : ((a2, t) : IVar × IVar) = (a, b)
    · rw [if_pos hk] at hv
      obtain ⟨ha2, ht⟩ := Prod.mk.injEq .. ▸ hk
      subst ha2
      subst ht
      rcases hg : relGet st.rels (a2, t) with _ | old
      · simp [pushAt]
      · rw [hg] at hv
        dsimp only at hv
        injection hv with hv
        have hb := h.blink a2 t old hg
        simpa using hb
    · rw [if_neg hk] at hv
      have hmem := h.blink a2 t v hv
      split
      · simp only [pushAt]
        split
        · next hteq =>
          exact List.mem_append_left _ (hteq ▸ hmem)
        · exact hmem
      · exact hmem
  · intro a2 t hmem
    rw [addRel_before] at hmem
    by_cases hk : ((a2, t) : IVar × IVar) = (a, b)
    · obtain ⟨ha2, ht⟩ := Prod.mk.injEq .. ▸ hk
      subst ha2
      subst ht
      rw [addRel_get, if_pos rfl]
      rcases hg : relGet st.rels (a2, t) with _ | old <;> exact ⟨_, rfl⟩
    · have hmem2 : a2 ∈ st.before t := by
        rcases hsp : relGet st.rels (a, b) with _ | old
        · rw [if_pos hsp] at hmem
          simp only [pushAt] at hmem
          by_cases hteq : t = b
          · rw [if_pos hteq] at hmem
            rcases List.mem_append.mp hmem with hc | hc
            · rw [hteq]
              exact hc
            · have ha2 : a2 = a := List.mem_singleton.mp hc
              exact absurd (by rw [ha2, hteq]) hk
          · rw [if_neg hteq] at hmem
            exact hmem
        · rw [if_neg (by rw [hsp]; simp)] at hmem
          exact hmem
      obtain ⟨v, hv⟩ := h.blink2 a2 t hmem2
      rw [addRel_get, if_neg hk]
      exact ⟨v, hv⟩

/-- The before-loop preserves the soundness invariant: each composed
relation is dominated by extending a recorded path with the current
arc. -/
theorem beforeLoop_BInv (arcs : List RelArc)
    (hpos : ∀ a ∈ arcs, 0 ≤ a.offset)
    (hmir : ∀ a ∈ arcs,
      (⟨negationOf a.head, negationOf a.tail, a.offset⟩ : RelArc) ∈ arcs)
    (tailv : IVar) (w : Int) (headv : IVar) (ar : RelArc) (har : ar ∈ arcs)
    (hat : ar.tail = tailv) (hah : ar.head = headv) (hao : ar.offset = w) :
    ∀ (vs : List IVar) (st : BuildState), BInv arcs st →
    (∀ v ∈ vs, (relGet st.rels (v, tailv)).isSome) →
    BInv arcs (beforeLoop tailv w headv st vs) := by
  intro vs
  induction vs with
  | nil =>
    intro st h _
    exact ⟨h.sound1, h.sound2, h.blink, h.blink2⟩
  | cons v0 vs ih =>
    intro st h hvs
    rw [beforeLoop]
    split
    · exact ⟨h.sound1, h.sound2, h.blink, h.blink2⟩
    · dsimp only
      rcases hval : relGet st.rels (v0, tailv) with _ | val
      · have := hvs v0 (List.mem_cons_self v0 vs)
        rw [hval] at this
        cases this
      · have hw : (0 : Int) ≤ w := by
          have := hpos ar har
          omega
        have h1 : BInv arcs ({ st with work := st.work + 1 } : BuildState) :=
          ⟨h.sound1, h.sound2, h.blink, h.blink2⟩
        obtain ⟨w1, hw1, hp1⟩ := h.sound1 (v0, tailv) val hval
        obtain ⟨w2, hw2, hp2⟩ := h.sound2 (v0, tailv) val hval
        have hpath1 : HasPath arcs v0 headv (w1 + w) := by
          have hs := HasPath.snoc (a := ar) (by rw [hat]; exact hp1) har
          rw [hah, hao] at hs
          exact hs
        have hpath2 : HasPath arcs (negationOf headv) (negationOf v0)
            (w + w2) := by
          have hc := hasPath_cons arcs hp2
            ⟨negationOf ar.head, negationOf ar.tail, ar.offset⟩
            (hmir ar har) (by dsimp only; rw [hat])
          dsimp only at hc
          rw [hah, hao] at hc
          exact hc
        have h2 := addRel_BInv arcs _ v0 headv
          ((some val).getD 0 + w) h1
          ⟨w1 + w, by simp; omega, hpath1⟩
          ⟨w + w2, by simp; omega, hpath2⟩
        have h3 := addRel_BInv arcs _ (negationOf headv) (negationOf v0)
          (-((some val).getD 0 + w)) h2
          ⟨w + w2, by simp; omega, hpath2⟩
          (by
            rw [negationOf_negationOf, negationOf_negationOf]
            exact ⟨w1 + w, by simp; omega, hpath1⟩)
        apply ih _ h3
        intro v hv
        apply addRel_isSome
        apply addRel_isSome
        exact hvs v (List.mem_cons_of_mem v0 hv)

/-- The arc loop preserves the soundness invariant. -/
theorem arcLoop_BInv (arcs : List RelArc)
    (hpos : ∀ a ∈ arcs, 0 ≤ a.offset)
    (hmir : ∀ a ∈ arcs,
      (⟨negationOf a.head, negationOf a.tail, a.offset⟩ : RelArc) ∈ arcs) :
    ∀ (L : List RelArc), (∀ x ∈ L, x ∈ arcs) →
    ∀ (st : BuildState), BInv arcs st → BInv arcs (arcLoop st L) := by
  intro L
  induction L with
  | nil =>
    intro _ st h
    exact ⟨h.sound1, h.sound2, h.blink, h.blink2⟩
  | cons a L ih =>
    intro hsub st h
    have ha : a ∈ arcs := hsub a (List.mem_cons_self a L)
    rw [arcLoop]
    split
    · exact ⟨h.sound1, h.sound2, h.blink, h.blink2⟩
    · dsimp only
      have h1 : BInv arcs ({ st with work := st.work + 1 } : BuildState) :=
        ⟨h.sound1, h.sound2, h.blink, h.blink2⟩
      have hoff := hpos a ha
      have hmirsingle : HasPath arcs (negationOf a.head) (negationOf a.tail)
          a.offset := HasPath.single (hmir a ha)
      have h2 := addRel_BInv arcs _ a.tail a.head a.offset h1
        ⟨a.offset, le_refl _, HasPath.single ha⟩
        ⟨a.offset, by omega, hmirsingle⟩
      have h3 := addRel_BInv arcs _ (negationOf a.head) (negationOf a.tail)
        (-a.offset) h2
        ⟨a.offset, by omega, hmirsingle⟩
        (by
          rw [negationOf_negationOf, negationOf_negationOf]
          exact ⟨a.offset, by omega, HasPath.single ha⟩)
      apply ih (fun x hx => hsub x (List.mem_cons_of_mem a hx))
      apply beforeLoop_BInv arcs hpos hmir a.tail a.offset a.head a ha
        rfl rfl rfl _ _ h3
      intro v hv
      obtain ⟨val, hval⟩ := h3.blink2 v a.tail hv
      rw [hval]
      rfl

/-- The tail loop preserves the soundness invariant. -/
theorem tailLoop_BInv (arcs : List RelArc)
    (hpos : ∀ a ∈ arcs, 0 ≤ a.offset)
    (hmir : ∀ a ∈ arcs,
      (⟨negationOf a.head, negationOf a.tail, a.offset⟩ : RelArc) ∈ arcs) :
    ∀ (order : List IVar) (st : BuildState), BInv arcs st →
    BInv arcs (tailLoop arcs st order) := by
  intro order
  induction order with
  | nil =>
    intro st h
    exact ⟨h.sound1, h.sound2, h.blink, h.blink2⟩
  | cons t order ih =>
    intro st h
    rw [tailLoop]
    split
    · exact ⟨h.sound1, h.sound2, h.blink, h.blink2⟩
    · apply ih
      apply arcLoop_BInv arcs hpos hmir _
        (fun x hx => (List.mem_filter.mp hx).1)
      exact ⟨h.sound1, h.sound2, h.blink, h.blink2⟩

/-- Soundness of the Build closure from the empty map. -/
theorem buildRelations_BInv (arcs : List RelArc) (order : List IVar)
    (hpos : ∀ a ∈ arcs, 0 ≤ a.offset)
    (hmir : ∀ a ∈ arcs,
      (⟨negationOf a.head, negationOf a.tail, a.offset⟩ : RelArc) ∈ arcs) :
    BInv arcs (buildRelations arcs order) := by
  apply tailLoop_BInv arcs hpos hmir
  refine ⟨?_, ?_, ?_, ?_⟩
  · intro k v hv
    simp [relGet] at hv
  · intro k v hv
    simp [relGet] at hv
  · intro a t v hv
    simp [relGet] at hv
  · intro a t hmem
    cases hmem

/-- In a duplicate-free list a value sits at a unique position. -/
theorem nodup_get?_unique {α : Type} (l : List α) (hnd : l.Nodup)
    (i j : Nat) (x : α) (hi : l.get? i = some x) (hj : l.get? j = some x) :
    i = j := by
  have hil : i < l.length := by
    by_contra hc
    rw [List.get?_eq_none.mpr (by omega)] at hi
    cases hi
  have hjl : j < l.length := by
    by_contra hc
    rw [List.get?_eq_none.mpr (by omega)] at hj
    cases hj
  rw [List.get?_eq_get hil] at hi
  rw [List.get?_eq_get hjl] at hj
  injection hi with hi
  injection hj with hj
  have : l.get ⟨i, hil⟩ = l.get ⟨j, hjl⟩ := by rw [hi, hj]
  have := (hnd.get_inj_iff).mp this
  exact Fin.mk.injEq .. ▸ this

/-- Under the topological-order hypothesis, an arc out of the node being
processed cannot point back into the processed prefix. -/
theorem head_not_in_prefix (arcs : List RelArc) (order done rest : List IVar)
    (t : IVar) (hnd : order.Nodup) (hord : order = done ++ t :: rest)
    (horder : ∀ a ∈ arcs, ∃ i j, i < j ∧ order.get? i = some a.tail ∧
      order.get? j = some a.head)
    (a : RelArc) (ha : a ∈ arcs) (htail : a.tail = t) :
    a.head ∉ done ++ [t] := by
  obtain ⟨i, j, hij, hi, hj⟩ := horder a ha
  rw [htail] at hi
  have hdt : order.get? done.length = some t := by
    rw [hord, List.get?_append_right (Nat.le_refl _), Nat.sub_self]
    rfl
  have hieq : i = done.length := nodup_get?_unique order hnd i done.length t hi hdt
  intro hmem
  have hpos : ∃ p, p ≤ done.length ∧ order.get? p = some a.head := by
    rcases List.mem_append.mp hmem with hd | he
    · obtain ⟨p, hp⟩ := List.mem_iff_get?.mp hd
      have hplen : p < done.length := by
        by_contra hc
        rw [List.get?_eq_none.mpr (by omega)] at hp
        cases hp
      refine ⟨p, by omega, ?_⟩
      rw [hord, List.get?_append hplen]
      exact hp
    · have heq : a.head = t := List.mem_singleton.mp he
      exact ⟨done.length, Nat.le_refl _, heq ▸ hdt⟩
  obtain ⟨p, hple, hp⟩ := hpos
  have hjeq : j = p := nodup_get?_unique order hnd j p a.head hj hp
  omega

/-- Decomposition of a path restricted to `done ++ [t]` when no arc out of
`t` returns into the prefix: either the path avoids `t`-tailed arcs, or it
ends with exactly one of them. -/
theorem pathIn_concat_cases (arcs : List RelArc) (done : List IVar)
    (t : IVar)
    (hhead : ∀ a ∈ arcs, a.tail = t → a.head ∉ done ++ [t]) :
    ∀ {x y : IVar} {w : Int}, PathIn arcs (done ++ [t]) x y w →
    PathIn arcs done x y w ∨
    (∃ a : RelArc, a ∈ arcs ∧ a.tail = t ∧ a.head = y ∧
      ((x = t ∧ w = a.offset) ∨
       ∃ w1, PathIn arcs done x t w1 ∧ w = w1 + a.offset)) := by
  intro x y w hp
  induction hp with
  | @single a ha ht =>
    rcases List.mem_append.mp ht with hd | he
    · exact Or.inl (PathIn.single ha hd)
    · have hteq : a.tail = t := List.mem_singleton.mp he
      exact Or.inr ⟨a, ha, hteq, rfl, Or.inl ⟨hteq, rfl⟩⟩
  | @snoc x2 w2 a hp2 ha ht ih =>
    rcases List.mem_append.mp ht with hd | he
    · rcases ih with hl | ⟨b, hb, hbt, hbh, hcase⟩
      · exact Or.inl (PathIn.snoc hl ha hd)
      · exact absurd (List.mem_append_left _ (hbh ▸ hd)) (hhead b hb hbt)
    · have hteq : a.tail = t := List.mem_singleton.mp he
      rcases ih with hl | ⟨b, hb, hbt, hbh, hcase⟩
      · exact Or.inr ⟨a, ha, hteq, rfl, Or.inr ⟨w2, hteq ▸ hl, rfl⟩⟩
      · refine absurd ?_ (hhead b hb hbt)
        rw [hbh, hteq]
        exact List.mem_append_right _ (List.mem_singleton.mpr rfl)

/-- Processing the watch entry of `x` in the before-loop records the
composed relation. -/
theorem beforeLoop_complete (tailv : IVar) (w : Int) (headv : IVar)
    (x : IVar) : ∀ (vs : List IVar) (st : BuildState) (v1 : Int),
    x ∈ vs →
    relGet st.rels (x, tailv) = some v1 →
    (beforeLoop tailv w headv st vs).work ≤ kWorkLimit →
    ∃ v2, relGet (beforeLoop tailv w headv st vs).rels (x, headv) = some v2 ∧
      v1 + w ≤ v2 := by
  intro vs
  induction vs with
  | nil =>
    intro st v1 hx _ _
    cases hx
  | cons v0 vs ih =>
    intro st v1 hx hv1 hwork
    rw [beforeLoop] at hwork ⊢
    by_cases hbrk : kWorkLimit < st.work + 1
    · exfalso
      rw [if_pos hbrk] at hwork
      dsimp only at hwork
      omega
    · rw [if_neg hbrk] at hwork ⊢
      dsimp only at hwork ⊢
      rcases List.mem_cons.mp hx with hx0 | hxs
      · subst hx0
        rw [hv1]
        have hself := addRel_get
          { rels := st.rels, before := st.before, work := st.work + 1 }
          x headv ((some v1).getD 0 + w) (x, headv)
        rw [if_pos rfl] at hself
        have hge : ∃ v2, relGet (addRel
            { rels := st.rels, before := st.before, work := st.work + 1 }
            x headv ((some v1).getD 0 + w)).rels (x, headv) = some v2 ∧
            v1 + w ≤ v2 := by
          rw [hself]
          rcases relGet st.rels (x, headv) with _ | old
          · exact ⟨_, rfl, by simp⟩
          · exact ⟨_, rfl, by simp [le_max_iff]⟩
        obtain ⟨v2, hv2, hle2⟩ := hge
        obtain ⟨v3, hv3, hle3⟩ := addRel_relsLe _ (negationOf headv)
          (negationOf x) (-((some v1).getD 0 + w)) _ v2 hv2
        obtain ⟨g1, _, _⟩ := beforeLoop_mono tailv w headv vs _
        obtain ⟨v4, hv4, hle4⟩ := g1 _ v3 hv3
        exact ⟨v4, hv4, by omega⟩
      · rcases hread : relGet st.rels (v0, tailv) with _ | val
        · obtain ⟨v2, hv2, hle2⟩ := addRel_relsLe
            { rels := st.rels, before := st.before, work := st.work + 1 }
            v0 headv ((none : Option Int).getD 0 + w) (x, tailv) v1 hv1
          obtain ⟨v3, hv3, hle3⟩ := addRel_relsLe _ (negationOf headv)
            (negationOf v0) (-((none : Option Int).getD 0 + w)) _ v2 hv2
          obtain ⟨v4, hv4, hle4⟩ := ih _ v3 hxs hv3 (by
            rw [hread] at hwork
            exact hwork)
          exact ⟨v4, hv4, by omega⟩
        · obtain ⟨v2, hv2, hle2⟩ := addRel_relsLe
            { rels := st.rels, before := st.before, work := st.work + 1 }
            v0 headv ((some val).getD 0 + w) (x, tailv) v1 hv1
          obtain ⟨v3, hv3, hle3⟩ := addRel_relsLe _ (negationOf headv)
            (negationOf v0) (-((some val).getD 0 + w)) _ v2 hv2
          obtain ⟨v4, hv4, hle4⟩ := ih _ v3 hxs hv3 (by
            rw [hread] at hwork
            exact hwork)
          exact ⟨v4, hv4, by omega⟩

/-- Processing an arc in the arc loop records the direct relation. -/
theorem arcLoop_complete_single (a : RelArc) :
    ∀ (L : List RelArc) (st : BuildState),
    a ∈ L →
    (arcLoop st L).work ≤ kWorkLimit →
    ∃ v, relGet (arcLoop st L).rels (a.tail, a.head) = some v ∧
      a.offset ≤ v := by
  intro L
  induction L with
  | nil =>
    intro st hx
    cases hx
  | cons a2 L ih =>
    intro st hx hwork
    rw [arcLoop] at hwork ⊢
    by_cases hbrk : kWorkLimit < st.work + 1
    · exfalso
      rw [if_pos hbrk] at hwork
      dsimp only at hwork
      omega
    · rw [if_neg hbrk] at hwork ⊢
      dsimp only at hwork ⊢
      rcases List.mem_cons.mp hx with rfl | hxs
      · set st1 : BuildState := { st with work := st.work + 1 } with hst1
        set st2 := addRel (addRel st1 a.tail a.head a.offset)
          (negationOf a.head) (negationOf a.tail) (-a.offset) with hst2
        set st3 := beforeLoop a.tail a.offset a.head st2
          (st2.before a.tail) with hst3
        have hself := addRel_get st1 a.tail a.head a.offset (a.tail, a.head)
        rw [if_pos rfl] at hself
        have hge : ∃ v2, relGet (addRel st1 a.tail a.head
            a.offset).rels (a.tail, a.head) = some v2 ∧ a.offset ≤ v2 := by
          rw [hself]
          rcases relGet st1.rels (a.tail, a.head) with _ | old
          · exact ⟨_, rfl, le_refl _⟩
          · exact ⟨_, rfl, le_max_right _ _⟩
        obtain ⟨v2, hv2, hle2⟩ := hge
        obtain ⟨v3, hv3, hle3⟩ := addRel_relsLe (addRel st1 a.tail a.head
          a.offset) (negationOf a.head) (negationOf a.tail) (-a.offset)
          (a.tail, a.head) v2 hv2
        obtain ⟨m1, _, _⟩ := beforeLoop_mono a.tail a.offset a.head
          (st2.before a.tail) st2
        rw [← hst3] at m1
        obtain ⟨v4, hv4, hle4⟩ := m1 (a.tail, a.head) v3 hv3
        obtain ⟨g1, _, _⟩ := arcLoop_mono L st3
        obtain ⟨v5, hv5, hle5⟩ := g1 (a.tail, a.head) v4 hv4
        exact ⟨v5, hv5, by omega⟩
      · exact ih _ hxs hwork

/-- Processing an arc whose tail already records a relation from `x`
composes the two in the arc loop. -/
theorem arcLoop_complete_chain (x : IVar) (a : RelArc) :
    ∀ (L : List RelArc) (st : BuildState) (v1 : Int),
    a ∈ L →
    x ∈ st.before a.tail →
    relGet st.rels (x, a.tail) = some v1 →
    (arcLoop st L).work ≤ kWorkLimit →
    ∃ v, relGet (arcLoop st L).rels (x, a.head) = some v ∧
      v1 + a.offset ≤ v := by
  intro L
  induction L with
  | nil =>
    intro st v1 hx
    cases hx
  | cons a2 L ih =>
    intro st v1 hx hmem hv1 hwork
    rw [arcLoop] at hwork ⊢
    by_cases hbrk : kWorkLimit < st.work + 1
    · exfalso
      rw [if_pos hbrk] at hwork
      dsimp only at hwork
      omega
    · rw [if_neg hbrk] at hwork ⊢
      dsimp only at hwork ⊢
      rcases List.mem_cons.mp hx with rfl | hxs
      · set st1 : BuildState := { st with work := st.work + 1 } with hst1
        set st2 := addRel (addRel st1 a.tail a.head a.offset)
          (negationOf a.head) (negationOf a.tail) (-a.offset) with hst2
        set st3 := beforeLoop a.tail a.offset a.head st2
          (st2.before a.tail) with hst3
        obtain ⟨v2, hv2, hle2⟩ := addRel_relsLe st1 a.tail a.head a.offset
          (x, a.tail) v1 hv1
        obtain ⟨v3, hv3, hle3⟩ := addRel_relsLe (addRel st1 a.tail a.head
          a.offset) (negationOf a.head) (negationOf a.tail) (-a.offset)
          (x, a.tail) v2 hv2
        have hmem2 : x ∈ st2.before a.tail := by
          rw [hst2]
          apply addRel_beforeSub
          apply addRel_beforeSub
          exact hmem
        have hworkb : (beforeLoop a.tail a.offset a.head st2
            (st2.before a.tail)).work ≤ kWorkLimit := by
          obtain ⟨_, _, g3⟩ := arcLoop_mono L st3
          rw [← hst3]
          omega
        obtain ⟨v4, hv4, hle4⟩ := beforeLoop_complete a.tail a.offset a.head
          x (st2.before a.tail) st2 v3 hmem2 hv3 hworkb
        rw [← hst3] at hv4
        obtain ⟨g1, _, _⟩ := arcLoop_mono L st3
        obtain ⟨v5, hv5, hle5⟩ := g1 (x, a.head) v4 hv4
        exact ⟨v5, hv5, by omega⟩
      · set st1 : BuildState := { st with work := st.work + 1 } with hst1
        set st2 := addRel (addRel st1 a2.tail a2.head a2.offset)
          (negationOf a2.head) (negationOf a2.tail) (-a2.offset) with hst2
        set st3 := beforeLoop a2.tail a2.offset a2.head st2
          (st2.before a2.tail) with hst3
        obtain ⟨v2, hv2, hle2⟩ := addRel_relsLe st1 a2.tail a2.head
          a2.offset (x, a.tail) v1 hv1
        obtain ⟨v3, hv3, hle3⟩ := addRel_relsLe (addRel st1 a2.tail a2.head
          a2.offset) (negationOf a2.head) (negationOf a2.tail) (-a2.offset)
          (x, a.tail) v2 hv2
        obtain ⟨m1, m2, _⟩ := beforeLoop_mono a2.tail a2.offset a2.head
          (st2.before a2.tail) st2
        rw [← hst3] at m1 m2
        obtain ⟨v4, hv4, hle4⟩ := m1 (x, a.tail) v3 hv3
        have hmem3 : x ∈ st3.before a.tail := by
          apply m2
          rw [hst2]
          apply addRel_beforeSub
          apply addRel_beforeSub
          exact hmem
        obtain ⟨v5, hv5, hle5⟩ := ih st3 v4 hxs hmem3 hv4 hwork
        exact ⟨v5, hv5, by omega⟩

/-- Processing one node along the topological order extends the
completeness invariant to that node. -/
theorem tailLoop_step_CInv (arcs : List RelArc) (order done rest : List IVar)
    (t : IVar) (hnd : order.Nodup) (hord : order = done ++ t :: rest)
    (horder : ∀ a ∈ arcs, ∃ i j, i < j ∧ order.get? i = some a.tail ∧
      order.get? j = some a.head)
    (st1 : BuildState) (hB : BInv arcs st1) (hC : CInv arcs done st1)
    (hwork : (arcLoop st1 (arcs.filter (fun a => a.tail == t))).work ≤
      kWorkLimit) :
    CInv arcs (done ++ [t]) (arcLoop st1 (arcs.filter (fun a => a.tail == t))) := by
  intro x y w2 hp
  have hhead : ∀ a ∈ arcs, a.tail = t → a.head ∉ done ++ [t] :=
    fun a ha hat => head_not_in_prefix arcs order done rest t hnd hord
      horder a ha hat
  rcases pathIn_concat_cases arcs done t hhead hp with
    hl | ⟨a, ha, hat, hah, hcase⟩
  · obtain ⟨v, hv, hle⟩ := hC x y w2 hl
    obtain ⟨g1, _, _⟩ := arcLoop_mono (arcs.filter (fun a => a.tail == t)) st1
    obtain ⟨v2, hv2, hle2⟩ := g1 (x, y) v hv
    exact ⟨v2, hv2, by omega⟩
  · have haL : a ∈ arcs.filter (fun a => a.tail == t) :=
      List.mem_filter.mpr ⟨ha, by simp [hat]⟩
    rcases hcase with ⟨hx, hw⟩ | ⟨w1, hp1, hw⟩
    · obtain ⟨v, hv, hle⟩ := arcLoop_complete_single a _ st1 haL hwork
      rw [hat, hah] at hv
      subst hx
      exact ⟨v, hv, by omega⟩
    · obtain ⟨v1, hv1, hle1⟩ := hC x t w1 hp1
      have hmem : x ∈ st1.before a.tail := by
        rw [hat]
        exact hB.blink x t v1 hv1
      have hv1b : relGet st1.rels (x, a.tail) = some v1 := by
        rw [hat]
        exact hv1
      obtain ⟨v, hv, hle⟩ := arcLoop_complete_chain x a _ st1 v1 haL hmem
        hv1b hwork
      rw [hah] at hv
      exact ⟨v, hv, by omega⟩

/-- Completeness of the Build closure along the topological order. -/
theorem tailLoop_complete (arcs : List RelArc) (order : List IVar)
    (hpos : ∀ a ∈ arcs, 0 ≤ a.offset)
    (hmir : ∀ a ∈ arcs,
      (⟨negationOf a.head, negationOf a.tail, a.offset⟩ : RelArc) ∈ arcs)
    (hnd : order.Nodup)
    (horder : ∀ a ∈ arcs, ∃ i j, i < j ∧ order.get? i = some a.tail ∧
      order.get? j = some a.head) :
    ∀ (rest done : List IVar) (st : BuildState),
    order = done ++ rest → BInv arcs st → CInv arcs done st →
    (tailLoop arcs st rest).work ≤ kWorkLimit →
    CInv arcs order (tailLoop arcs st rest) := by
  intro rest
  induction rest with
  | nil =>
    intro done st hord hB hC hwork
    rw [List.append_nil] at hord
    rw [hord]
    exact hC
  | cons t rest ih =>
    intro done st hord hB hC hwork
    rw [tailLoop] at hwork ⊢
    by_cases hbrk : kWorkLimit < st.work + 1
    · exfalso
      rw [if_pos hbrk] at hwork
      dsimp only at hwork
      omega
    · rw [if_neg hbrk] at hwork ⊢
      try dsimp only at hwork ⊢
      have hB1 : BInv arcs ({ st with work := st.work + 1 } : BuildState) :=
        ⟨hB.sound1, hB.sound2, hB.blink, hB.blink2⟩
      have hC1 : CInv arcs done ({ st with work := st.work + 1 } :
          BuildState) := hC
      have hworkArc : (arcLoop { st with work := st.work + 1 }
          (arcs.filter (fun a => a.tail == t))).work ≤ kWorkLimit := by
        have := (tailLoop_mono arcs rest (arcLoop
          { st with work := st.work + 1 }
          (arcs.filter (fun a => a.tail == t)))).2.2
        omega
      have hstep := tailLoop_step_CInv arcs order done rest t hnd hord
        horder _ hB1 hC1 hworkArc
      have hBstep := arcLoop_BInv arcs hpos hmir
        (arcs.filter (fun a => a.tail == t))
        (fun x hx => (List.mem_filter.mp hx).1) _ hB1
      exact ih (done ++ [t]) _ (by simp [hord]) hBstep hstep hwork

/-- **C3**: after `PrecedenceRelations::Build()` on a mirror-closed arc
list with nonnegative offsets (the shape `Add` produces), processed along
a duplicate-free topological order of the graph, and provided the
`kWorkLimit` work cap is not reached, every recorded relation
`(a,b) → k` satisfies `k ≥ 0` and is witnessed by a directed path from
`a` to `b` of total arc-offset weight exactly `k`. -/
theorem C3_build_relations (arcs : List RelArc) (order : List IVar)
    (hpos : ∀ a ∈ arcs, 0 ≤ a.offset)
    (hmir : ∀ a ∈ arcs,
      (⟨negationOf a.head, negationOf a.tail, a.offset⟩ : RelArc) ∈ arcs)
    (hnd : order.Nodup)
    (horder : ∀ a ∈ arcs, ∃ i j, i < j ∧ order.get? i = some a.tail ∧
      order.get? j = some a.head)
    (hwork : (buildRelations arcs order).work ≤ kWorkLimit)
    (a b : IVar) (v : Int)
    (hv : relGet (buildRelations arcs order).rels (a, b) = some v) :
    0 ≤ v ∧ HasPath arcs a b v := by
  have hB := buildRelations_BInv arcs order hpos hmir
  obtain ⟨w, hvw, hpath⟩ := hB.sound1 (a, b) v hv
  have htails : ∀ ar ∈ arcs, ar.tail ∈ order := by
    intro ar har
    obtain ⟨i, j, _, hi, _⟩ := horder ar har
    exact List.mem_iff_get?.mpr ⟨i, hi⟩
  have hCempty : CInv arcs [] (⟨[], fun _ => [], 0⟩ : BuildState) := by
    intro x y w2 hp
    cases hp with
    | single _ ht => cases ht
    | snoc _ _ ht => cases ht
  have hBempty : BInv arcs (⟨[], fun _ => [], 0⟩ : BuildState) := by
    refine ⟨?_, ?_, ?_, ?_⟩
    · intro k v2 hv2
      simp [relGet] at hv2
    · intro k v2 hv2
      simp [relGet] at hv2
    · intro a2 t v2 hv2
      simp [relGet] at hv2
    · intro a2 t hmem
      cases hmem
  have hC := tailLoop_complete arcs order hpos hmir hnd horder order []
    (⟨[], fun _ => [], 0⟩ : BuildState) rfl hBempty hCempty hwork
  have hpin := hasPath_toPathIn arcs order htails hpath
  obtain ⟨v2, hv2, hwv2⟩ := hC a b w hpin
  have hv2b : relGet (buildRelations arcs order).rels (a, b) = some v2 := hv2
  have hveq : v2 = v := by
    rw [hv] at hv2b
    injection hv2b with h2
    exact h2.symm
  have hwv : w = v := by omega
  subst hwv
  exact ⟨le_trans (hasPath_nonneg arcs hpos hpath) hvw, hpath⟩

/-- Witness: on the two-arc graph of one `Add(0,2,1)` call along the
topological order `[0,2,3,1]`, the recorded relation `(0,2) → 1` is
nonnegative and witnessed by a path. -/
theorem C3_build_relations_witness :
    0 ≤ (1 : Int) ∧ HasPath arcsC3 0 2 1 :=
  C3_build_relations arcsC3 orderC3
    (by decide) (by decide) (by decide)
    (by
      intro ar har
      rcases List.mem_cons.mp har with h1 | h2
      · subst h1
        exact ⟨0, 1, by omega, rfl, rfl⟩
      · rcases List.mem_cons.mp h2 with h1 | h3
        · subst h1
          exact ⟨2, 3, by omega, rfl, rfl⟩
        · cases h3)
    (by decide) 0 2 1 (by decide)

/-- Once the work counter exceeds the limit, the outer Build loop breaks
immediately and the relation map never changes again
(precedences.cc:127). -/
theorem tailLoop_capped_rels (arcs : List RelArc) (ys : List IVar)
    (st : BuildState) (hw : kWorkLimit < st.work) :
    (tailLoop arcs st ys).rels = st.rels := by
  cases ys with
  | nil => rfl
  | cons y rest =>
    have h1 : tailLoop arcs st (y :: rest) = { st with work := st.work + 1 } := by
      rw [tailLoop]
      exact if_pos (show kWorkLimit < st.work + 1 by omega)
    rw [h1]

/-- Splitting a Build run at a list boundary preserves the final relation
map: if the first half broke on the work limit, the second half breaks
again at once. -/
theorem tailLoop_append_rels (arcs : List RelArc) :
    ∀ (xs ys : List IVar) (st : BuildState),
    (tailLoop arcs st (xs ++ ys)).rels =
      (tailLoop arcs (tailLoop arcs st xs) ys).rels := by
  intro xs
  induction xs with
  | nil =>
    intro ys st
    rfl
  | cons x xs ih =>
    intro ys st
    rw [List.cons_append]
    by_cases hw : kWorkLimit < st.work + 1
    · have h1 : tailLoop arcs st (x :: (xs ++ ys)) =
          { st with work := st.work + 1 } := by
        rw [tailLoop]
        exact if_pos hw
      have h2 : tailLoop arcs st (x :: xs) =
          { st with work := st.work + 1 } := by
        rw [tailLoop]
        exact if_pos hw
      rw [h1, h2]
      exact (tailLoop_capped_rels arcs ys _ hw).symm
    · have h1 : tailLoop arcs st (x :: (xs ++ ys)) =
          tailLoop arcs (arcLoop { st with work := st.work + 1 }
            (arcs.filter (fun a => a.tail == x))) (xs ++ ys) := by
        rw [tailLoop]
        exact if_neg hw
      have h2 : tailLoop arcs st (x :: xs) =
          tailLoop arcs (arcLoop { st with work := st.work + 1 }
            (arcs.filter (fun a => a.tail == x))) xs := by
        rw [tailLoop]
        exact if_neg hw
      rw [h1, h2]
      exact ih ys _

/-- Nodes without outgoing arcs only consume work: the relation map is
unchanged and the work counter advances by one per node until the budget
runs out. -/
theorem tailLoop_isolated (arcs : List RelArc) :
    ∀ (ds : List IVar) (st : BuildState),
    (∀ d ∈ ds, arcs.filter (fun a => a.tail == d) = []) →
    (tailLoop arcs st ds).rels = st.rels ∧
    (tailLoop arcs st ds).work =
      min (st.work + ds.length) (max st.work kWorkLimit + 1) := by
  intro ds
  induction ds with
  | nil =>
    intro st _
    refine ⟨rfl, ?_⟩
    show st.work = _
    simp only [List.length_nil]
    omega
  | cons d ds ih =>
    intro st hfree
    by_cases hw : kWorkLimit < st.work + 1
    · have h1 : tailLoop arcs st (d :: ds) = { st with work := st.work + 1 } := by
        rw [tailLoop]
        exact if_pos hw
      rw [h1]
      refine ⟨rfl, ?_⟩
      show st.work + 1 = _
      simp only [List.length_cons]
      omega
    · have hd : arcs.filter (fun a => a.tail == d) = [] :=
        hfree d (List.mem_cons_self d ds)
      have h1 : tailLoop arcs st (d :: ds) =
          tailLoop arcs (arcLoop { st with work := st.work + 1 }
            (arcs.filter (fun a => a.tail == d))) ds := by
        rw [tailLoop]
        exact if_neg hw
      rw [h1, hd]
      have h2 : arcLoop ({ st with work := st.work + 1 } : BuildState) [] =
          { st with work := st.work + 1 } := rfl
      rw [h2]
      obtain ⟨i1, i2⟩ := ih { st with work := st.work + 1 }
        (fun x hx => hfree x (List.mem_cons_of_mem d hx))
      refine ⟨i1, ?_⟩
      rw [i2]
      simp only [List.length_cons]
      omega

/-- **C3 counterexample**: Build once the work cap is reached.  On the
mirror-closed two-arc graph of one `Add(0, 2, 1)` call, processed along a
duplicate-free topological order padded with one million isolated nodes,
the loop at precedences.cc:126-145 inserts the mirror entry
`(3,1) → -1` (precedences.cc:135), then the cap at precedences.cc:127
breaks the run before the mirror arc `3 → 1` is processed, so the
negative entry survives in `all_relations_`, refuting both halves of the
claim: the offset is negative and no directed path has weight `-1`. -/
theorem C3_build_relations_cap_counterexample :
    (∀ a ∈ arcsC3, 0 ≤ a.offset) ∧
    (∀ a ∈ arcsC3,
      (⟨negationOf a.head, negationOf a.tail, a.offset⟩ : RelArc) ∈ arcsC3) ∧
    orderC3cap.Nodup ∧
    (∀ a ∈ arcsC3, ∃ i j, i < j ∧ orderC3cap.get? i = some a.tail ∧
      orderC3cap.get? j = some a.head) ∧
    relGet (buildRelations arcsC3 orderC3cap).rels (3, 1) = some (-1) ∧
    ¬(0 ≤ (-1 : Int)) ∧ ¬HasPath arcsC3 3 1 (-1) := by
  have hMlen : ((List.range 1000000).map (fun i => i + 4)).length = 1000000 := by
    simp only [List.length_map, List.length_range]
  have hfree : ∀ d ∈ (List.range 1000000).map (fun i => i + 4),
      arcsC3.filter (fun a => a.tail == d) = [] := by
    intro d hd
    simp only [List.mem_map, List.mem_range] at hd
    obtain ⟨i, _, rfl⟩ := hd
    rw [List.filter_eq_nil]
    intro a ha
    rcases List.mem_cons.mp ha with h | h
    · subst h
      simp
    · rcases List.mem_cons.mp h with h | h
      · subst h
        simp
      · cases h
  refine ⟨by decide, by decide, ?_, ?_, ?_, by decide, ?_⟩
  · show (([0, 2] : List IVar) ++
      ((List.range 1000000).map (fun i => i + 4) ++ [3, 1])).Nodup
    rw [List.nodup_append, List.nodup_append]
    refine ⟨by decide, ⟨?_, by decide, ?_⟩, ?_⟩
    · refine (List.nodup_range 1000000).map (fun a b h => ?_)
      have h2 : (a : ℕ) + 4 = b + 4 := h
      omega
    · intro a ha hb
      simp only [List.mem_map, List.mem_range] at ha
      obtain ⟨i, _, rfl⟩ := ha
      rcases List.mem_cons.mp hb with h | h
      · have h2 : (i : ℕ) + 4 = 3 := h
        omega
      · rcases List.mem_cons.mp h with h | h
        · have h2 : (i : ℕ) + 4 = 1 := h
          omega
        · cases h
    · intro a ha hb
      rw [List.mem_append] at hb
      rcases hb with hb | hb
      · simp only [List.mem_map, List.mem_range] at hb
        obtain ⟨i, _, hi⟩ := hb
        have h2 : (i : ℕ) + 4 = a := hi
        rcases List.mem_cons.mp ha with h | h
        · subst h
          omega
        · rcases List.mem_cons.mp h with h | h
          · subst h
            omega
          · cases h
      · rcases List.mem_cons.mp ha with h | h
        · subst h
          rcases List.mem_cons.mp hb with h | h
          · exact absurd h (by decide)
          · rcases List.mem_cons.mp h with h | h
            · exact absurd h (by decide)
            · cases h
        · rcases List.mem_cons.mp h with h | h
          · subst h
            rcases List.mem_cons.mp hb with h | h
            · exact absurd h (by decide)
            · rcases List.mem_cons.mp h with h | h
              · exact absurd h (by decide)
              · cases h
          · cases h
  · intro a ha
    have hlen2 : ((([0, 2] : List IVar) ++
        (List.range 1000000).map (fun i => i + 4))).length = 1000002 := by
      simp only [List.length_append, List.length_map, List.length_range]
      norm_num
    have e2 : orderC3cap = (([0, 2] : List IVar) ++
        (List.range 1000000).map (fun i => i + 4)) ++ [3, 1] :=
      (List.append_assoc [0, 2] ((List.range 1000000).map (fun i => i + 4))
        [3, 1]).symm
    rcases List.mem_cons.mp ha with h | h
    · subst h
      exact ⟨0, 1, by omega, rfl, rfl⟩
    · rcases List.mem_cons.mp h with h | h
      · subst h
        refine ⟨1000002, 1000003, by omega, ?_, ?_⟩
        · rw [e2, List.get?_eq_getElem?,
            List.getElem?_append_right (le_of_eq hlen2)]
          rw [hlen2]
          decide
        · rw [e2, List.get?_eq_getElem?,
            List.getElem?_append_right (by rw [hlen2]; omega)]
          rw [hlen2]
          decide
      · cases h
  · have hArels : (tailLoop arcsC3 (⟨[], fun _ => [], 0⟩ : BuildState)
        [0, 2]).rels = [((0, 2), 1), ((3, 1), -1)] := by decide
    have hAwork : (tailLoop arcsC3 (⟨[], fun _ => [], 0⟩ : BuildState)
        [0, 2]).work = 3 := by decide
    rw [buildRelations]
    rw [show orderC3cap = [0, 2] ++
      ((List.range 1000000).map (fun i => i + 4) ++ [3, 1]) from rfl]
    rw [tailLoop_append_rels arcsC3, tailLoop_append_rels arcsC3]
    have hiso := tailLoop_isolated arcsC3
      ((List.range 1000000).map (fun i => i + 4))
      (tailLoop arcsC3 (⟨[], fun _ => [], 0⟩ : BuildState) [0, 2]) hfree
    have hw : kWorkLimit <
        (tailLoop arcsC3 (tailLoop arcsC3 (⟨[], fun _ => [], 0⟩ : BuildState)
          [0, 2]) ((List.range 1000000).map (fun i => i + 4))).work := by
      rw [hiso.2, hAwork, hMlen]
      decide
    rw [tailLoop_capped_rels arcsC3 [3, 1] _ hw, hiso.1, hArels]
    decide
  · intro hp
    have h0 := hasPath_nonneg arcsC3 (by decide) hp
    omega

end PrecVerify
